import Mathlib

/-!
# Verification of `backend/restaurant_processor.py`

A shallow embedding of the deduplication / clustering / block-distribution
core of the repository, together with theorems settling the frozen claims.

Python strings are modelled as `List Char`.  Python's `str.strip`, `str.lower`,
`str.split` and the `re` patterns used by the source (`\b`, `\d`, `\w`, `\s`)
are modelled character by character.  Approximations, stated once here:

* `\w` (`isWordChar`) is modelled as ASCII alphanumeric, `_`, or any
  non-ASCII character (Python's unicode `\w` additionally excludes
  non-alphanumeric symbols above 127; all inputs used in witnesses and
  counterexamples below are ASCII or accented Latin letters, where the two
  agree).
* `\s` / `str.strip` whitespace is the ASCII whitespace set.
* `str.lower` is modelled on ASCII plus the Latin-1 uppercase letters
  (`À`–`Þ` except `×`), which covers every character the source's patterns
  can meet in the claims below.
* floats: `SequenceMatcher.ratio()` is modelled in exact rationals
  (`2*M/T : ℚ`); the source compares the resulting IEEE double against the
  literals `0.90` / `0.85`, modelled as `9/10` / `85/100`.
* Python functions that can raise on the modelled paths return `Option`
  (`none` = exception); total paths return plain values.
-/

/-- A Python string. -/
abbrev Str := List Char

/-- Coerce a Lean string literal to the model type. -/
def strL (s : String) : Str := s.data

/-- Python `str.strip()` whitespace set (ASCII part). -/
def isPySpace (c : Char) : Bool :=
  c = ' ' || c = '\t' || c = '\n' || c = '\x0d' || c = '\x0b' || c = '\x0c'

/-- Python regex `\w` (see the approximation note in the file header). -/
def isWordChar (c : Char) : Bool :=
  c.isAlphanum || c = '_' || decide (128 ≤ c.toNat)

/-- Python `str.lower` on one character (ASCII + Latin-1 uppercase). -/
def pyLowerChar (c : Char) : Char :=
  if 'A' ≤ c && c ≤ 'Z' then Char.ofNat (c.toNat + 32)
  else if 0xC0 ≤ c.toNat && c.toNat ≤ 0xDE && c.toNat ≠ 0xD7 then Char.ofNat (c.toNat + 32)
  else c

/-- Python `str.upper` on one character (ASCII range; the source only
upper-cases strings matched by `[0-9a-z]` patterns). -/
def pyUpperChar (c : Char) : Char :=
  if 'a' ≤ c && c ≤ 'z' then Char.ofNat (c.toNat - 32) else c

/-- Python `str.lower`. -/
def pyLower (s : Str) : Str := s.map pyLowerChar

/-- Python `str.upper`. -/
def pyUpper (s : Str) : Str := s.map pyUpperChar

/-- Drop trailing Python whitespace. -/
def pyStripRight (s : Str) : Str := (s.reverse.dropWhile isPySpace).reverse

/-- Drop leading Python whitespace. -/
def pyStripLeft (s : Str) : Str := s.dropWhile isPySpace

/-- Python `str.strip()`. -/
def pyStrip (s : Str) : Str := pyStripRight (pyStripLeft s)

/-- `str.split()` (split on whitespace runs, no empty tokens);
accumulator holds the current token reversed. -/
def pyTokensAux : Str → Str → List Str
  | [], cur => if cur = [] then [] else [cur.reverse]
  | c :: rest, cur =>
    if isPySpace c then
      if cur = [] then pyTokensAux rest [] else cur.reverse :: pyTokensAux rest []
    else pyTokensAux rest (c :: cur)

/-- Python `str.split()`. -/
def pyTokens (s : Str) : List Str := pyTokensAux s []

/-- `p.isPrefixOf s` as a Bool (anchored regex `^p` match test). -/
def hasPre (p s : Str) : Bool := p.isPrefixOf s

/-- `re.sub(r'^p', '', s)` for a literal pattern `p`. -/
def dropPre (p s : Str) : Str := if p.isPrefixOf s then s.drop p.length else s

/-!
## Regex machinery for the address patterns

All scanners walk the string once carrying the wordness of the previous
character, which determines `\b` (a boundary sits between a word and a
non-word character, string edges counting as non-word).
-/

/-- Consume exactly `k` ASCII digits, returning the rest. -/
def takeDigits : Nat → Str → Option Str
  | 0, s => some s
  | _ + 1, [] => none
  | k + 1, c :: s => if c.isDigit then takeDigits k s else none

/-- `\b` immediately after a word character: next char absent or non-word. -/
def boundaryAfterWord (s : Str) : Bool :=
  match s with
  | [] => true
  | c :: _ => !isWordChar c

/-- Try `\d{5}-?\d{3}\b` at the current position (the leading `\b` is the
caller's responsibility).  Returns (matched substring, rest). -/
def cepHere (s : Str) : Option (Str × Str) :=
  match takeDigits 5 s with
  | none => none
  | some r1 =>
    match r1 with
    | '-' :: r2 =>
      match takeDigits 3 r2 with
      | some r3 => if boundaryAfterWord r3 then some (s.take 9, r3) else none
      | none => none
    | _ =>
      match takeDigits 3 r1 with
      | some r3 => if boundaryAfterWord r3 then some (s.take 8, r3) else none
      | none => none

/-- `re.sub(r'\b\d{5}-?\d{3}\b', '', s)`: left-to-right non-overlapping
removal.  `fuel ≥ length` always suffices; the fuel-0 branch is unreachable. -/
def scrubCepAux : Nat → Bool → Str → Str
  | 0, _, s => s
  | fuel + 1, prevWord, s =>
    match s with
    | [] => []
    | c :: rest =>
      if !prevWord && c.isDigit then
        match cepHere (c :: rest) with
        | some (_, r) => scrubCepAux fuel true r
        | none => c :: scrubCepAux fuel (isWordChar c) rest
      else c :: scrubCepAux fuel (isWordChar c) rest

/-- `re.sub(r'\b\d{5}-?\d{3}\b', '', s)`. -/
def scrubCep (s : Str) : Str := scrubCepAux (s.length + 1) false s

/-- First match of `\b(\d{5}-?\d{3})\b` (`re.search`), the matched text. -/
def findCepAux : Nat → Bool → Str → Option Str
  | 0, _, _ => none
  | fuel + 1, prevWord, s =>
    match s with
    | [] => none
    | c :: rest =>
      if !prevWord && c.isDigit then
        match cepHere (c :: rest) with
        | some (m, _) => some m
        | none => findCepAux fuel (isWordChar c) rest
      else findCepAux fuel (isWordChar c) rest

/-- Count of leading ASCII digits. -/
def countLeadingDigits (s : Str) : Nat := (s.takeWhile Char.isDigit).length

/-- ASCII letter test for `[a-z]` under `re.IGNORECASE`. -/
def isAsciiLetter (c : Char) : Bool :=
  ('a' ≤ c && c ≤ 'z') || ('A' ≤ c && c ≤ 'Z')

/-- Backtracking over the digit count of `\b(\d{1,6}[a-z]?)\b` (IGNORECASE):
greedy digits, then optional letter, then `\b`; on failure one digit fewer. -/
def numTryLens : Nat → Str → Option Str
  | 0, _ => none
  | k + 1, s =>
    let ds := s.take (k + 1)
    match s.drop (k + 1) with
    | [] => some ds
    | c :: r2 =>
      if isAsciiLetter c && boundaryAfterWord r2 then some (ds ++ [c])
      else if !isWordChar c then some ds
      else numTryLens k s

/-- Try `\d{1,6}[a-z]?\b` at the current position. -/
def numHere (s : Str) : Option Str :=
  numTryLens (min 6 (countLeadingDigits s)) s

/-- First match of `\b(\d{1,6}[a-z]?)\b` (`re.search`, IGNORECASE). -/
def findNumberAux : Nat → Bool → Str → Option Str
  | 0, _, _ => none
  | fuel + 1, prevWord, s =>
    match s with
    | [] => none
    | c :: rest =>
      if !prevWord && c.isDigit then
        match numHere (c :: rest) with
        | some m => some m
        | none => findNumberAux fuel (isWordChar c) rest
      else findNumberAux fuel (isWordChar c) rest

/-- `re.search(r'\b(\d{1,6}[a-z]?)\b', s, re.IGNORECASE)`, matched group. -/
def findNumber (s : Str) : Option Str := findNumberAux (s.length + 1) false s

/-- Case-insensitive literal match of `pat` at the head of `s`
(the patterns are already lower-case); returns the rest of `s`. -/
def matchCI : Str → Str → Option Str
  | [], s => some s
  | _ :: _, [] => none
  | p :: ps, c :: cs => if pyLowerChar c = p then matchCI ps cs else none

/-- Does `\bs/n\b` or `\bsem\s+n[úu]mero\b` (IGNORECASE) match at this
position?  `prevWord` is the wordness of the previous character. -/
def snHere (prevWord : Bool) (s : Str) : Bool :=
  if prevWord then false
  else
    (match matchCI (strL "s/n") s with
     | some r => boundaryAfterWord r
     | none => false)
    ||
    (match matchCI (strL "sem") s with
     | some r =>
       let r1 := r.dropWhile isPySpace
       if r1.length < r.length then
         match matchCI (strL "n") r1 with
         | some (c :: r2) =>
           (pyLowerChar c = 'ú' || pyLowerChar c = 'u') &&
             (match matchCI (strL "mero") r2 with
              | some r3 => boundaryAfterWord r3
              | none => false)
         | _ => false
       else false
     | none => false)

/-- `re.search(r'\bs/n\b|\bsem\s+n[úu]mero\b', s, re.IGNORECASE)` as a Bool. -/
def existsSNAux : Bool → Str → Bool
  | prevWord, s =>
    match s with
    | [] => false
    | c :: rest => snHere prevWord (c :: rest) || existsSNAux (isWordChar c) rest

/-- Search for an explicit "no number" marker anywhere in the address. -/
def existsSN (s : Str) : Bool := existsSNAux false s

/-!
## Normalizer (§4.1 of the spec)
-/

/-- `re.sub(r'^https?://', '', n)`: the single anchored match strips one
protocol prefix. -/
def httpStrip (n : Str) : Str :=
  if hasPre (strL "https://") n then n.drop 8
  else if hasPre (strL "http://") n then n.drop 7 else n

/-- The stages of `normalize_instagram` after protocol stripping: domain
and `@` prefixes, parenthesis removal, first-token selection, final strip.
Returns `none` for the one raising path: `normalized.split()[0]` raises
`IndexError` when `normalized` contains `' '` but consists of whitespace
only. -/
def instaTail (n0 : Str) : Option Str :=
  let n := dropPre (strL "www.instagram.com/") n0
  let n := dropPre (strL "instagram.com/") n
  let n := dropPre (strL "@") n
  let n := n.filter (fun c => !(c = '(' || c = ')'))
  if n.contains ' ' then
    match pyTokens n with
    | [] => none
    | t :: _ => some (pyStrip t)
  else some (pyStrip n)

/-- `normalize_instagram` (restaurant_processor.py:145). -/
def normalize_instagram (instagram : Str) : Option Str :=
  if instagram = [] then some []
  else instaTail (httpStrip (pyLower (pyStrip instagram)))

/-- The street-type abbreviation table of `normalize_address_street`,
in the source's iteration order.  Each pattern is `\bWORD\b`
(for `av.` the trailing `\b` sits after the dot). -/
def streetRepl : List (Str × Str) :=
  [ (strL "rua", strL "r"), (strL "avenida", strL "av"), (strL "av.", strL "av"),
    (strL "alameda", strL "al"), (strL "rodovia", strL "rod"),
    (strL "estrada", strL "est"), (strL "praça", strL "pc"),
    (strL "travessa", strL "tv"), (strL "largo", strL "lg"),
    (strL "via", strL "v"), (strL "passagem", strL "psg") ]

/-- One `re.sub(r'\bPAT\b', rep, s, flags=IGNORECASE)` pass for a literal
pattern: scan left to right, replace non-overlapping `\b`-delimited
case-insensitive occurrences. -/
def wordSubAux (pat rep : Str) : Nat → Bool → Str → Str
  | 0, _, s => s
  | fuel + 1, prevWord, s =>
    match s with
    | [] => []
    | c :: rest =>
      let boundaryBefore := prevWord ≠ isWordChar c
      match if boundaryBefore then matchCI pat (c :: rest) else none with
      | some r =>
        let lastW := isWordChar (pat.getLastD ' ')
        if lastW ≠ (match r with | [] => false | d :: _ => isWordChar d) then
          rep ++ wordSubAux pat rep fuel lastW r
        else c :: wordSubAux pat rep fuel (isWordChar c) rest
      | none => c :: wordSubAux pat rep fuel (isWordChar c) rest

/-- `re.sub(r'\bPAT\b', rep, s, flags=IGNORECASE)` for a literal `PAT`. -/
def wordSub (pat rep s : Str) : Str := wordSubAux pat rep (s.length + 1) false s

/-- `re.sub(r'\s+', ' ', s)`. -/
def collapseWsAux : Bool → Str → Str
  | _, [] => []
  | prevSpace, c :: rest =>
    if isPySpace c then
      if prevSpace then collapseWsAux true rest else ' ' :: collapseWsAux true rest
    else c :: collapseWsAux false rest

/-- `re.sub(r'\s+', ' ', s)`. -/
def collapseWs (s : Str) : Str := collapseWsAux false s

/-- `normalize_address_street` (restaurant_processor.py:177).  Note: despite
its docstring, the source removes no accents — it only lower-cases,
abbreviates street-type words, drops non-`\w`/non-`\s` characters and
collapses whitespace. -/
def normalize_address_street (street : Str) : Str :=
  if street = [] then []
  else
    let n := pyLower (pyStrip street)
    let n := streetRepl.foldl (fun acc pr => wordSub pr.1 pr.2 acc) n
    let n := n.filter (fun c => isWordChar c || isPySpace c)
    let n := collapseWs n
    pyStrip n

/-- `extract_address_number` (restaurant_processor.py:214). -/
def extract_address_number (address : Str) : Option Str :=
  if address = [] then none
  else
    let addressClean := scrubCep address
    match findNumber addressClean with
    | some number => if existsSN address then none else some (pyUpper number)
    | none => none

/-- `extract_cep` (restaurant_processor.py:245): first CEP-shaped token,
digits only. -/
def extract_cep (address : Str) : Option Str :=
  if address = [] then none
  else (findCepAux (address.length + 1) false address).map
    (fun m => m.filter (fun c => c ≠ '-'))

example : normalize_address_street (strL "Rua Augusta, 500") = strL "r augusta 500" := by decide
example : normalize_address_street (strL "R. Augusta, 500 - 01305-000") =
    strL "r augusta 500 01305000" := by decide
example : extract_address_number (strL "Rua Augusta, 500") = some (strL "500") := by decide
example : extract_address_number (strL "R. Augusta, 500 - 01305-000") = some (strL "500") := by
  decide
example : extract_cep (strL "R. Augusta, 500 - 01305-000") = some (strL "01305000") := by decide
example : extract_cep (strL "Rua Augusta, 500") = none := by decide
example : extract_address_number (strL "Rua X, s/n") = none := by decide
example : extract_address_number (strL "Avenida Y, SEM NÚMERO") = none := by decide
example : normalize_address_street (strL "Avenida José, 10") = strL "av josé 10" := by decide
example : normalize_instagram (strL "@Foo") = some (strL "foo") := by decide
example : normalize_instagram (strL "http://instagram.com/foo") = some (strL "foo") := by decide
example : normalize_instagram (strL "http:// x\ty") = some (strL "x") := by decide
example : normalize_instagram (strL " x\ty") = some (strL "x\ty") := by decide

/-!
## SimilarityEngine: `difflib.SequenceMatcher(None, a, b).ratio()`

Faithful to CPython's `difflib`: `b2j` with autojunk for `len(b) ≥ 200`,
`find_longest_match` as the run-length dynamic program with its four
extension loops (the junk predicate is constantly false, as the source
always passes `isjunk=None`), and `ratio` as twice the total size of the
matching blocks over the total length, in exact rationals.
-/

/-- Append index `i` to the entry of `c` (insertion-ordered dict). -/
def upsertChar (m : List (Char × List Nat)) (c : Char) (i : Nat) :
    List (Char × List Nat) :=
  match m with
  | [] => [(c, [i])]
  | (c', l) :: rest =>
    if c' = c then (c', l ++ [i]) :: rest else (c', l) :: upsertChar rest c i

/-- `b2j` before autojunk: element → ascending list of its indices in `b`. -/
def b2jRaw (b : Str) : List (Char × List Nat) :=
  b.enum.foldl (fun m p => upsertChar m p.2 p.1) []

/-- `__chain_b`: autojunk removes elements occupying more than 1% of `b`
when `len(b) ≥ 200`; `isjunk` is `None` throughout the source. -/
def chainB (b : Str) : List (Char × List Nat) :=
  let m := b2jRaw b
  if 200 ≤ b.length then
    let ntest := b.length / 100 + 1
    m.filter (fun p => !(ntest < p.2.length))
  else m

/-- Dict lookup with default `[]`. -/
def assocIdx (m : List (Char × List Nat)) (c : Char) : List Nat :=
  ((m.find? (fun p => p.1 = c)).map Prod.snd).getD []

/-- Dict lookup with default `0` (`j2len.get(j-1, 0)`). -/
def lookupNat (m : List (Nat × Nat)) (k : Nat) : Nat :=
  ((m.find? (fun p => p.1 = k)).map Prod.snd).getD 0

/-- The two leftward extension `while` loops of `find_longest_match`
(`wantJunk` selects the junk/non-junk variant). -/
def extendL (a b : Str) (junkP : Char → Bool) (wantJunk : Bool) (alo blo : Nat) :
    Nat → Nat × Nat × Nat → Nat × Nat × Nat
  | 0, st => st
  | fuel + 1, (besti, bestj, bestsize) =>
    if alo < besti && blo < bestj &&
        (junkP (b.getD (bestj - 1) ' ') = wantJunk) &&
        decide (a.getD (besti - 1) ' ' = b.getD (bestj - 1) ' ') then
      extendL a b junkP wantJunk alo blo fuel (besti - 1, bestj - 1, bestsize + 1)
    else (besti, bestj, bestsize)

/-- The two rightward extension `while` loops of `find_longest_match`. -/
def extendR (a b : Str) (junkP : Char → Bool) (wantJunk : Bool) (ahi bhi : Nat) :
    Nat → Nat × Nat × Nat → Nat × Nat × Nat
  | 0, st => st
  | fuel + 1, (besti, bestj, bestsize) =>
    if besti + bestsize < ahi && bestj + bestsize < bhi &&
        (junkP (b.getD (bestj + bestsize) ' ') = wantJunk) &&
        decide (a.getD (besti + bestsize) ' ' = b.getD (bestj + bestsize) ' ') then
      extendR a b junkP wantJunk ahi bhi fuel (besti, bestj, bestsize + 1)
    else (besti, bestj, bestsize)

/-- `find_longest_match(alo, ahi, blo, bhi)`. -/
def findLongestMatch (a b : Str) (b2j : List (Char × List Nat))
    (junkP : Char → Bool) (alo ahi blo bhi : Nat) : Nat × Nat × Nat :=
  let step := fun (st : List (Nat × Nat) × Nat × Nat × Nat) (i : Nat) =>
    let j2len := st.1
    let js := (assocIdx b2j (a.getD i ' ')).filter (fun j => blo ≤ j && j < bhi)
    let inner := js.foldl
      (fun (st2 : List (Nat × Nat) × Nat × Nat × Nat) (j : Nat) =>
        let k := (if j = 0 then 0 else lookupNat j2len (j - 1)) + 1
        let nj := (j, k) :: st2.1
        if st2.2.2.2 < k then (nj, i + 1 - k, j + 1 - k, k) else (nj, st2.2))
      ([], st.2)
    inner
  let res := (List.range' alo (ahi - alo)).foldl step ([], alo, blo, 0)
  let fuelA := a.length + 1
  let best := extendL a b junkP false alo blo fuelA res.2
  let best := extendR a b junkP false ahi bhi fuelA best
  let best := extendL a b junkP true alo blo fuelA best
  let best := extendR a b junkP true ahi bhi fuelA best
  best

/-- Total size of the matching blocks (`get_matching_blocks` recursion;
sorting and adjacent-merge do not change the sum).  Fuel-driven; fuel
`ahi + bhi + 1` always suffices since each recursive call strictly shrinks
the rectangle. -/
def matchesSum (a b : Str) (b2j : List (Char × List Nat)) (junkP : Char → Bool) :
    Nat → Nat → Nat → Nat → Nat → Nat
  | 0, _, _, _, _ => 0
  | fuel + 1, alo, ahi, blo, bhi =>
    let r := findLongestMatch a b b2j junkP alo ahi blo bhi
    let i := r.1
    let j := r.2.1
    let k := r.2.2
    if k = 0 then 0
    else
      k + (if alo < i && blo < j then matchesSum a b b2j junkP fuel alo i blo j else 0)
        + (if i + k < ahi && j + k < bhi then
            matchesSum a b b2j junkP fuel (i + k) ahi (j + k) bhi else 0)

/-- `SequenceMatcher(None, a, b).ratio()` in exact rationals. -/
def pyRatio (a b : Str) : ℚ :=
  let la := a.length
  let lb := b.length
  let m := matchesSum a b (chainB b) (fun _ => false) (la + lb + 1) 0 la 0 lb
  if la + lb = 0 then 1 else (2 * (m : ℚ)) / ((la + lb : Nat) : ℚ)

/-- `calculate_similarity` (restaurant_processor.py:263). -/
def calculate_similarity (str1 str2 : Str) : ℚ :=
  if str1 = [] || str2 = [] then 0
  else pyRatio (pyStrip (pyLower str1)) (pyStrip (pyLower str2))

/-!
## Records and the Deduplicator (§3, §4.3)

A record is the projection of one input row to the fields the core reads.
A field holding `none` models a missing key or a non-string value: in both
cases every consumer in the source degrades it to `""` (via
`record.get(col, "")` plus the `isinstance(..., str)` guards) or treats it
as falsy.  The optional `date/persona/phrase` column parameters of the
dedup functions are modelled by presence flags (`HistCols`).  Audit entries
are modelled by their decision content (kept index, removed indices, which
justification text); the rendered strings are pure formatting.
-/

/-- One input row, restricted to the fields the core interprets. -/
structure Rec where
  restaurant : Option Str
  instagram : Option Str
  address : Option Str
  date : Option Str
  persona : Option Str
  phrase : Option Str
deriving DecidableEq, Repr

/-- The all-absent record (used only as an out-of-range default). -/
def defaultRec : Rec := ⟨none, none, none, none, none, none⟩

instance : Inhabited Rec := ⟨defaultRec⟩

/-- Which of the optional `date_col` / `persona_col` / `phrase_col`
parameters are supplied (non-`None`). -/
structure HistCols where
  dateCol : Bool
  personaCol : Bool
  phraseCol : Bool
deriving DecidableEq, Repr

/-- Python truthiness of `record.get(col)` for a string-or-absent field. -/
def truthyField : Option Str → Bool
  | some (_ :: _) => true
  | _ => false

/-- `has_historical_data` (restaurant_processor.py:275). -/
def has_historical_data (hc : HistCols) (r : Rec) : Bool :=
  (hc.dateCol && truthyField r.date) || (hc.personaCol && truthyField r.persona)
    || (hc.phraseCol && truthyField r.phrase)

/-- Append `i` to the group of key `k` (insertion-ordered dict of lists). -/
def upsertKV {κ : Type} [DecidableEq κ] (m : List (κ × List Nat)) (k : κ) (i : Nat) :
    List (κ × List Nat) :=
  match m with
  | [] => [(k, [i])]
  | (k', l) :: rest =>
    if k' = k then (k', l ++ [i]) :: rest else (k', l) :: upsertKV rest k i

/-- `record.get(instagram_col, "")` folded with the `isinstance` guard. -/
def instaField (r : Rec) : Str := r.instagram.getD []

/-- The normalized-handle key of a record (`none` = the normalization
raised). -/
def instaKey (r : Rec) : Option Str := normalize_instagram (instaField r)

/-- The grouping loop of `deduplicate_by_instagram` (lines 377-385):
records whose handle normalizes to non-empty, grouped by the handle. -/
def buildInstaMap : List Rec → Nat → List (Str × List Nat) →
    Option (List (Str × List Nat))
  | [], _, m => some m
  | r :: rest, i, m =>
    match instaKey r with
    | none => none
    | some k => buildInstaMap rest (i + 1) (if k = [] then m else upsertKV m k i)

/-- One dedup decision: criterion (`"Instagram idêntico"` / `"Endereço
Estrito"` is determined by which pass emitted it), kept line, removed
lines, and which justification text was used. -/
structure AuditEntry where
  keptIdx : Nat
  removedIdx : List Nat
  byHistory : Bool
deriving DecidableEq, Repr

/-- The keep/remove decision for one group of identical keys
(lines 394-429 / 485-518; both passes use the same rule). -/
def groupDecision (recs : List Rec) (hc : HistCols) (indices : List Nat) :
    Nat × List Nat × Bool :=
  let withHistory := indices.filter
    (fun idx => has_historical_data hc (recs.getD idx defaultRec))
  match withHistory with
  | kept :: _ => (kept, indices.filter (fun idx => idx ≠ kept), true)
  | [] =>
    match indices with
    | kept :: restI => (kept, restI, false)
    | [] => (0, [], false)

/-- Process one group of a key map: groups of size ≤ 1 are untouched,
larger ones contribute their removed indices and one audit entry. -/
def pgStep {κ : Type} (recs : List Rec) (hc : HistCols)
    (acc : List Nat × List AuditEntry) (kv : κ × List Nat) :
    List Nat × List AuditEntry :=
  if kv.2.length ≤ 1 then acc
  else
    let d := groupDecision recs hc kv.2
    (acc.1 ++ d.2.1, acc.2 ++ [⟨d.1, d.2.1, d.2.2⟩])

/-- Process every group of a key map: collect removed indices and audit
entries. -/
def processGroups {κ : Type} (recs : List Rec) (hc : HistCols)
    (m : List (κ × List Nat)) : List Nat × List AuditEntry :=
  m.foldl (pgStep recs hc) ([], [])

/-- `[records[i] for i in range(len(records)) if i in kept_indices]` where
`kept_indices` is everything never discarded. -/
def keptFromRemoved (recs : List Rec) (removed : List Nat) : List Rec :=
  (recs.enum.filter (fun p => !(removed.contains p.1))).map Prod.snd

/-- `deduplicate_by_instagram` (restaurant_processor.py:358); `none` means
a handle made `normalize_instagram` raise. -/
def deduplicate_by_instagram (hc : HistCols) (recs : List Rec) :
    Option (List Rec × List AuditEntry) :=
  (buildInstaMap recs 0 []).map
    (fun m =>
      let d := processGroups recs hc m
      (keptFromRemoved recs d.1, d.2))

/-- The strict-address grouping key of one record, `none` when the record
is skipped by the eligibility `continue`s of lines 459-470: missing or
empty or non-string address, no extractable house number, or empty
normalized street base.  CEP defaults to `""`. -/
def addrKey (r : Rec) : Option (Str × Str × Str) :=
  match r.address with
  | none => none
  | some a =>
    if a = [] then none
    else
      match extract_address_number a with
      | none => none
      | some number =>
        let base := normalize_address_street a
        if base = [] then none
        else some (base, number, (extract_cep a).getD [])

/-- One step of the grouping loop of `deduplicate_by_address`: skip
ineligible records, group the rest by the strict-address key. -/
def abStep (m : List ((Str × Str × Str) × List Nat)) (p : Nat × Rec) :
    List ((Str × Str × Str) × List Nat) :=
  match addrKey p.2 with
  | none => m
  | some k => upsertKV m k p.1

/-- The grouping loop of `deduplicate_by_address` (lines 459-478). -/
def buildAddrMap (recs : List Rec) : List ((Str × Str × Str) × List Nat) :=
  recs.enum.foldl abStep []

/-- `deduplicate_by_address` (restaurant_processor.py:437). -/
def deduplicate_by_address (hc : HistCols) (recs : List Rec) :
    List Rec × List AuditEntry :=
  let d := processGroups recs hc (buildAddrMap recs)
  (keptFromRemoved recs d.1, d.2)

/-- The Deduplicator of §4.3: Pass A then Pass B on its survivors, audits
concatenated (as done by both `process_restaurants_*` drivers). -/
def runDeduplicator (hc : HistCols) (recs : List Rec) :
    Option (List Rec × List AuditEntry) :=
  match deduplicate_by_instagram hc recs with
  | none => none
  | some (s1, a1) =>
    let d := deduplicate_by_address hc s1
    some (d.1, a1 ++ d.2)

/-!
## ClusterIdentifier (§4.4): `identify_clusters`
-/

/-- `str(record_i.get(restaurant_col, "")).strip()`. -/
def nameOf (r : Rec) : Str := pyStrip (r.restaurant.getD [])

/-- `str(record_i.get(address_col, "")).strip()`. -/
def addrOf (r : Rec) : Str := pyStrip (r.address.getD [])

/-- The (name, normalized instagram, address) key of a record as computed
at the top of the `identify_clusters` loops. -/
abbrev CKey := Str × Str × Str

/-- The pairwise grouping criteria of `identify_clusters` (lines 554-587),
in source order with first-match-wins. -/
def sameClusterKeys (ki kj : CKey) : Bool :=
  let c1 :=
    if ki.2.2 ≠ [] && kj.2.2 ≠ [] then
      let number_i := extract_address_number ki.2.2
      let number_j := extract_address_number kj.2.2
      let logradouro_i := normalize_address_street ki.2.2
      let logradouro_j := normalize_address_street kj.2.2
      if number_i.isSome && number_j.isSome && number_i = number_j &&
          logradouro_i = logradouro_j then true
      else if (number_i = none || number_j = none) && logradouro_i = logradouro_j &&
          logradouro_i ≠ [] then true
      else false
    else false
  if c1 then true
  else if ki.1 ≠ [] && kj.1 ≠ [] &&
      decide (calculate_similarity ki.1 kj.1 ≥ 9 / 10) then true
  else if ki.2.1 ≠ [] && kj.2.1 ≠ [] &&
      decide (calculate_similarity ki.2.1 kj.2.1 ≥ 9 / 10) then true
  else if ki.1 ≠ [] && kj.1 ≠ [] && ki.2.1 ≠ [] && kj.2.1 ≠ [] &&
      decide (calculate_similarity ki.1 kj.1 ≥ 85 / 100) &&
      decide (calculate_similarity ki.2.1 kj.2.1 ≥ 85 / 100) then true
  else false

/-- Dict lookup `record_to_cluster.get(j)` (keys are unique). -/
def lookupAssoc (m : List (Nat × Nat)) (j : Nat) : Option Nat :=
  (m.find? (fun p => p.1 = j)).map Prod.snd

/-- `for j in range(i): if j in record_to_cluster: ...` — first earlier
record matching the criteria; `keys` holds the per-record keys of the
already-processed records (identical to recomputing them). -/
def icFindAux (keys : List CKey) (rtc : List (Nat × Nat)) (ki : CKey) :
    List Nat → Option Nat
  | [] => none
  | j :: js =>
    match lookupAssoc rtc j with
    | some cid =>
      if sameClusterKeys ki (keys.getD j ([], [], [])) then some cid
      else icFindAux keys rtc ki js
    | none => icFindAux keys rtc ki js

/-- The mutable state of `identify_clusters`. -/
structure ICState where
  clusters : List (Nat × List Nat)
  rtc : List (Nat × Nat)
  nextId : Nat
  keys : List CKey
deriving Repr

/-- Append `i` to cluster `cid`'s member list. -/
def appendMember (clusters : List (Nat × List Nat)) (cid i : Nat) :
    List (Nat × List Nat) :=
  clusters.map (fun p => if p.1 = cid then (p.1, p.2 ++ [i]) else p)

/-- One iteration of the `identify_clusters` main loop for record `i`
(`none` = `normalize_instagram` raised on this record's handle). -/
def icStep (st : ICState) (i : Nat) (r : Rec) : Option ICState :=
  match normalize_instagram (instaField r) with
  | none => none
  | some insta_i =>
    let ki : CKey := (nameOf r, insta_i, addrOf r)
    match icFindAux st.keys st.rtc ki (List.range i) with
    | some cid =>
      some ⟨appendMember st.clusters cid i, st.rtc ++ [(i, cid)], st.nextId,
        st.keys ++ [ki]⟩
    | none =>
      some ⟨st.clusters ++ [(st.nextId, [i])], st.rtc ++ [(i, st.nextId)],
        st.nextId + 1, st.keys ++ [ki]⟩

/-- Fold `icStep` over the records (with their indices). -/
def icFold : List Rec → Nat → ICState → Option ICState
  | [], _, st => some st
  | r :: rest, i, st =>
    match icStep st i r with
    | none => none
    | some st' => icFold rest (i + 1) st'

/-- `identify_clusters` (restaurant_processor.py:526): the final dict with
singleton clusters discarded.  `none` = a handle made the normalizer
raise. -/
def identify_clusters (recs : List Rec) : Option (List (Nat × List Nat)) :=
  (icFold recs 0 ⟨[], [], 1, []⟩).map
    (fun st => st.clusters.filter (fun p => 1 < p.2.length))

/-!
## BlockDistributor (§4.5): `distribute_into_blocks`

Record contents never influence placement (they are only copied and, at the
end, given a `'Bloco'` key), so the distribution itself is computed from
the record count `recs.length`, and the result is the list of `'Bloco'`
values per original index (`none` = the key was never written — the final
defensive loop makes this impossible).  `existing = []` models both
`existing_blocos=None` and an empty dict (both falsy).  The cluster-audit
rows assembled at the end (lines 853-907) are reporting output built from
already-computed fields; their only effect on the projected result is
raising: `records_with_blocks[idx]` raises `IndexError` for an
out-of-range cluster member index (line 857), and `normalize_instagram`
raises on a clustered record's handle such as `"( )"` (line 881).  The
whole function returns `none` exactly when the Python raises: in the
incremental seeding (lines 659-677, a negative list index on a too-short
`blocks`) or in the cluster audit as above.
-/

/-- `blocks` / `block_clusters` (sets as duplicate-free lists). -/
structure DState where
  blocks : List (List Nat)
  bcl : List (List Nat)
deriving DecidableEq, Repr

/-- `record_cluster[idx] = cluster_id` (dict write). -/
def setKV (m : List (Nat × Nat)) (k v : Nat) : List (Nat × Nat) :=
  match m with
  | [] => [(k, v)]
  | (k', v') :: rest => if k' = k then (k, v) :: rest else (k', v') :: setKV rest k v

/-- Write one cluster's members into `record_cluster`. -/
def rcStep (m : List (Nat × Nat)) (p : Nat × List Nat) : List (Nat × Nat) :=
  p.2.foldl (fun m' idx => setKV m' idx p.1) m

/-- `record_cluster` built from the cluster map (lines 638-641). -/
def buildRecordCluster (clusters : List (Nat × List Nat)) : List (Nat × Nat) :=
  clusters.foldl rcStep []

/-- Python `set.add` on a list-set. -/
def insertSet (l : List Nat) (x : Nat) : List Nat :=
  if l.contains x then l else l ++ [x]

/-- Python `set.discard` on a list-set. -/
def discardSet (l : List Nat) (x : Nat) : List Nat := l.filter (fun y => y ≠ x)

/-- One record of the `cluster_records` / `standalone_records` split:
`if cluster_id:` is Python truthiness, so a `None` or `0` id sends the
record to the standalone list. -/
def srStep (rc : List (Nat × Nat)) (acc : List (Nat × List Nat) × List Nat)
    (idx : Nat) : List (Nat × List Nat) × List Nat :=
  let c := (lookupAssoc rc idx).getD 0
  if c ≠ 0 then (upsertKV acc.1 c idx, acc.2) else (acc.1, acc.2 ++ [idx])

/-- `cluster_records` / `standalone_records` (lines 643-652). -/
def splitRecords (rc : List (Nat × Nat)) (n : Nat) :
    List (Nat × List Nat) × List Nat :=
  (List.range n).foldl (srStep rc) ([], [])

/-- Seed one pre-existing assignment (lines 660-677).  `blocks[adjusted-1]`
uses Python list-index semantics: a negative index counts from the end and
raises `IndexError` (= `none`) when out of range. -/
def seedOne (rc : List (Nat × Nat)) (n start : Nat)
    (acc : DState × List (Nat × List Nat) × List Nat) (p : Nat × Nat) :
    Option (DState × List (Nat × List Nat) × List Nat) :=
  if p.1 < n then
    let adj : Int := (p.2 : Int) - (start : Int) + 1
    let blocks := if (acc.1.blocks.length : Int) < adj then
        acc.1.blocks ++ List.replicate (adj.toNat - acc.1.blocks.length) []
      else acc.1.blocks
    let bcl := if (acc.1.bcl.length : Int) < adj then
        acc.1.bcl ++ List.replicate (adj.toNat - acc.1.bcl.length) []
      else acc.1.bcl
    let pos : Int := adj - 1
    let eff : Int := if 0 ≤ pos then pos else (blocks.length : Int) + pos
    if 0 ≤ eff ∧ eff < (blocks.length : Int) then
      let e := eff.toNat
      let blocks := blocks.set e ((blocks.getD e []) ++ [p.1])
      let c := (lookupAssoc rc p.1).getD 0
      let bcl := if c ≠ 0 then bcl.set e (insertSet (bcl.getD e []) c) else bcl
      some (⟨blocks, bcl⟩, acc.2.1.map (fun q => (q.1, q.2.erase p.1)),
        acc.2.2.erase p.1)
    else none
  else some acc

/-- Seed all pre-existing assignments (dict iteration order). -/
def seedAll (rc : List (Nat × Nat)) (n start : Nat)
    (existing : List (Nat × Nat))
    (acc : DState × List (Nat × List Nat) × List Nat) :
    Option (DState × List (Nat × List Nat) × List Nat) :=
  existing.foldlM (seedOne rc n start) acc

/-- Place one cluster member (lines 686-700): first block with spare
capacity not already containing the cluster, else a fresh block. -/
def placeClusterMember (maxB cid idx : Nat) (st : DState) : DState :=
  match (List.range st.blocks.length).find?
      (fun b => decide ((st.blocks.getD b []).length < maxB) &&
        !((st.bcl.getD b []).contains cid)) with
  | some b =>
    ⟨st.blocks.set b ((st.blocks.getD b []) ++ [idx]),
      st.bcl.set b (insertSet (st.bcl.getD b []) cid)⟩
  | none => ⟨st.blocks ++ [[idx]], st.bcl ++ [[cid]]⟩

/-- Cyclic cluster placement (lines 682-700). -/
def placeClusters (maxB : Nat) (cr : List (Nat × List Nat)) (st : DState) :
    DState :=
  cr.foldl (fun st' p => p.2.foldl (fun st'' idx => placeClusterMember maxB p.1 idx st'') st') st

/-- Place one standalone record (lines 706-724): prefer a block below
`min_block_size`, then any below `max_block_size`, else a fresh block. -/
def psStep (minB maxB : Nat) (st' : DState) (idx : Nat) : DState :=
  match (List.range st'.bcl.length).find?
      (fun b => decide ((st'.blocks.getD b []).length < minB) &&
        decide ((st'.blocks.getD b []).length < maxB)) with
  | some b => ⟨st'.blocks.set b ((st'.blocks.getD b []) ++ [idx]), st'.bcl⟩
  | none =>
    match (List.range st'.bcl.length).find?
        (fun b => decide ((st'.blocks.getD b []).length < maxB)) with
    | some b => ⟨st'.blocks.set b ((st'.blocks.getD b []) ++ [idx]), st'.bcl⟩
    | none => ⟨st'.blocks ++ [[idx]], st'.bcl ++ [[]]⟩

/-- Standalone placement (lines 704-724). -/
def placeStandalone (minB maxB : Nat) (sa : List Nat) (st : DState) : DState :=
  sa.foldl (psStep minB maxB) st

/-- The target-block search for one move (lines 748-756). -/
def dmFind (minB maxB : Nat) (rc : List (Nat × Nat)) (bIdx : Nat)
    (st : DState) (idx : Nat) : Option Nat :=
  (List.range st.blocks.length).find?
    (fun t => decide (t ≠ bIdx) &&
      decide (minB ≤ (st.blocks.getD t []).length) &&
      decide ((st.blocks.getD t []).length < maxB) &&
      (match lookupAssoc rc idx with
       | none => true
       | some c => !((st.bcl.getD t []).contains c)))

/-- Execute one move of `idx` from block `bIdx` to block `t`
(lines 758-768): append to the target, erase from the source, and keep the
cluster sets in step when the record is clustered. -/
def dmMove (rc : List (Nat × Nat)) (bIdx t idx : Nat) (st : DState) : DState :=
  ⟨(st.blocks.set t ((st.blocks.getD t []) ++ [idx])).set bIdx
      (((st.blocks.set t ((st.blocks.getD t []) ++ [idx])).getD bIdx []).erase idx),
    if (lookupAssoc rc idx).getD 0 ≠ 0 then
      (st.bcl.set t (insertSet (st.bcl.getD t [])
          ((lookupAssoc rc idx).getD 0))).set bIdx
        (discardSet ((st.bcl.set t (insertSet (st.bcl.getD t [])
            ((lookupAssoc rc idx).getD 0))).getD bIdx [])
          ((lookupAssoc rc idx).getD 0))
    else st.bcl⟩

/-- One attempted move out of an undersized block (lines 746-771), with the
early break when the source block empties. -/
def drainMoves (minB maxB : Nat) (rc : List (Nat × Nat)) (bIdx : Nat) :
    List Nat → DState → Bool → DState × Bool
  | [], st, changed => (st, changed)
  | idx :: rest, st, changed =>
    match dmFind minB maxB rc bIdx st idx with
    | some t =>
      if ((dmMove rc bIdx t idx st).blocks.getD bIdx []).length = 0 then
        (dmMove rc bIdx t idx st, true)
      else drainMoves minB maxB rc bIdx rest (dmMove rc bIdx t idx st) true
    | none => drainMoves minB maxB rc bIdx rest st changed

/-- One pass over the current undersized blocks (lines 741-771). -/
def drainIteration (minB maxB : Nat) (rc : List (Nat × Nat))
    (smalls : List Nat) (st : DState) : DState × Bool :=
  smalls.foldl
    (fun acc bIdx =>
      if (acc.1.blocks.getD bIdx []).length = 0 then acc
      else
        let r := drainMoves minB maxB rc bIdx (acc.1.blocks.getD bIdx []) acc.1 acc.2
        r)
    (st, false)

/-- Rebalancing pass 1 (lines 731-774): at most 20 iterations, stopping
when no undersized block remains or an iteration moves nothing. -/
def rebalanceLoop (minB maxB : Nat) (rc : List (Nat × Nat)) :
    Nat → DState → DState
  | 0, st => st
  | it + 1, st =>
    let smalls := (List.range st.blocks.length).filter
      (fun b => (st.blocks.getD b []).length < minB)
    if smalls = [] then st
    else
      let r := drainIteration minB maxB rc smalls st
      if r.2 then rebalanceLoop minB maxB rc it r.1 else r.1

/-- The cluster-conflict check of consolidation (lines 794-799). -/
def canConsolidate (rc : List (Nat × Nat)) (st : DState) (b1 b2 : Nat) : Bool :=
  (st.blocks.getD b2 []).all
    (fun idx =>
      match lookupAssoc rc idx with
      | some c => if c ≠ 0 then !((st.bcl.getD b1 []).contains c) else true
      | none => true)

/-- Move one record into block `b1`, discarding its cluster mark from
`b2` (the body of the consolidation move loop, lines 801-807). -/
def miStep (rc : List (Nat × Nat)) (b1 b2 : Nat) (acc : DState) (idx : Nat) :
    DState :=
  let c := (lookupAssoc rc idx).getD 0
  let blocks := acc.blocks.set b1 ((acc.blocks.getD b1 []) ++ [idx])
  let bcl := if c ≠ 0 then acc.bcl.set b1 (insertSet (acc.bcl.getD b1 []) c) else acc.bcl
  let bcl := if c ≠ 0 then bcl.set b2 (discardSet (bcl.getD b2 []) c) else bcl
  ⟨blocks, bcl⟩

/-- Move every record of block `b2` into block `b1` and clear `b2`
(lines 801-810). -/
def mergeInto (rc : List (Nat × Nat)) (st : DState) (b1 b2 : Nat) : DState :=
  let st' := (st.blocks.getD b2 []).foldl (miStep rc b1 b2) st
  ⟨st'.blocks.set b2 [], st'.bcl⟩

/-- Inner loop of consolidation for a fixed `b1` over the later undersized
blocks, with the break once `b1` reaches `min_block_size`. -/
def consolidateInner (rc : List (Nat × Nat)) (maxB minB b1 : Nat) :
    List Nat → DState → DState
  | [], st => st
  | b2 :: rest, st =>
    if (st.blocks.getD b2 []).length = 0 then consolidateInner rc maxB minB b1 rest st
    else if maxB < (st.blocks.getD b1 []).length + (st.blocks.getD b2 []).length then
      consolidateInner rc maxB minB b1 rest st
    else if canConsolidate rc st b1 b2 then
      let st' := mergeInto rc st b1 b2
      if minB ≤ (st'.blocks.getD b1 []).length then st'
      else consolidateInner rc maxB minB b1 rest st'
    else consolidateInner rc maxB minB b1 rest st

/-- Rebalancing pass 2 (lines 777-814): pairwise consolidation of the
still-undersized blocks. -/
def consolidatePass (rc : List (Nat × Nat)) (maxB minB : Nat) :
    List Nat → DState → DState
  | [], st => st
  | b1 :: rest, st =>
    if (st.blocks.getD b1 []).length = 0 then consolidatePass rc maxB minB rest st
    else consolidatePass rc maxB minB rest (consolidateInner rc maxB minB b1 rest st)

/-- Cleanup (lines 817-818): drop empty blocks; `block_clusters` is merely
truncated to the new length (position-based, as in the source). -/
def cleanupBlocks (st : DState) : DState :=
  let blocks' := st.blocks.filter (fun b => 0 < b.length)
  ⟨blocks', st.bcl.take blocks'.length⟩

/-- Defensive reassignment of unassigned records (lines 820-833);
membership is tested against the blocks as of entry to the loop. -/
def fallbackAssign (maxB n : Nat) (st : DState) : DState :=
  let assigned := fun idx => st.blocks.any (fun b => b.contains idx)
  (List.range n).foldl
    (fun st' idx =>
      if assigned idx then st'
      else
        match st'.blocks.getLast? with
        | some lastB =>
          if lastB.length < maxB then
            ⟨st'.blocks.set (st'.blocks.length - 1) (lastB ++ [idx]), st'.bcl⟩
          else ⟨st'.blocks ++ [[idx]], st'.bcl ++ [[]]⟩
        | none => ⟨st'.blocks ++ [[idx]], st'.bcl ++ [[]]⟩)
    st

/-- Number the blocks sequentially from `start` (lines 837-839), writing
each member's `'Bloco'` value. -/
def numberBlocks (start : Nat) (blocks : List (List Nat))
    (asg : List (Option Nat)) : List (Option Nat) :=
  blocks.enum.foldl
    (fun a p => p.2.foldl (fun a' idx => a'.set idx (some (start + p.1))) a)
    asg

/-- One step of the final guarantee loop: a record still without a
`'Bloco'` gets `len(blocks) + start - 1`, or `start` plus a fresh block
when no block exists yet. -/
def fgStep (start : Nat) (acc : List (Option Nat) × Nat) (idx : Nat) :
    List (Option Nat) × Nat :=
  match acc.1.getD idx none with
  | some _ => acc
  | none =>
    if acc.2 ≠ 0 then (acc.1.set idx (some (acc.2 + start - 1)), acc.2)
    else (acc.1.set idx (some start), 1)

/-- The final guarantee loop (lines 842-850). -/
def finalGuarantee (start n blocksLen : Nat) (asg : List (Option Nat)) :
    List (Option Nat) :=
  ((List.range n).foldl (fgStep start) (asg, blocksLen)).1

/-- The two guarded rebalancing passes with cleanup (lines 727-818),
skipped entirely when at most one block exists. -/
def rebalanced (maxB minB : Nat) (rc : List (Nat × Nat)) (st3 : DState) :
    DState :=
  if 1 < st3.blocks.length then
    let st' := rebalanceLoop minB maxB rc 20 st3
    let smalls := (List.range st'.blocks.length).filter
      (fun b => (st'.blocks.getD b []).length < minB)
    let st'' := if 1 < smalls.length then consolidatePass rc maxB minB smalls st'
      else st'
    cleanupBlocks st''
  else st3

/-- The non-raising tail of `distribute_into_blocks` (lines 679-850):
cyclic cluster placement, standalone placement, the two guarded
rebalancing passes with cleanup, the defensive fallback, numbering, and
the final guarantee loop. -/
def distributeCore (n maxB minB start : Nat) (rc : List (Nat × Nat))
    (z : DState × List (Nat × List Nat) × List Nat) : List (Option Nat) :=
  let st3 := placeStandalone minB maxB z.2.2 (placeClusters maxB z.2.1 z.1)
  let st5 := fallbackAssign maxB n (rebalanced maxB minB rc st3)
  finalGuarantee start n st5.blocks.length
    (numberBlocks start st5.blocks (List.replicate n none))

/-- The raising checks of the cluster-audit phase (lines 853-907) for one
cluster: `records_with_blocks[idx]` raises `IndexError` on an out-of-range
member index (line 857), and `normalize_instagram` raises on a member
handle whose normalization raises (line 881).  The audit rows themselves
are reporting output built from already-assigned fields and affect the
returned `'Bloco'` values only through these two raising paths. -/
def auditClusterOk (recs : List Rec) (p : Nat × List Nat) : Bool :=
  p.2.all (fun idx => decide (idx < recs.length)) &&
  p.2.all (fun idx =>
    (normalize_instagram (instaField (recs.getD idx defaultRec))).isSome)

/-- The cluster-audit loop (lines 854-907) over the caller's cluster map,
as its raise/no-raise outcome. -/
def auditOk (recs : List Rec) (clusters : List (Nat × List Nat)) : Bool :=
  clusters.all (auditClusterOk recs)

/-- `distribute_into_blocks` (restaurant_processor.py:606), as the map
from original index to final `'Bloco'` value. -/
def distribute_into_blocks (recs : List Rec) (clusters : List (Nat × List Nat))
    (maxB minB : Nat) (existing : List (Nat × Nat)) (start : Nat) :
    Option (List (Option Nat)) :=
  if recs.length = 0 then some []
  else
    match (if existing = [] then
        some ((⟨[], []⟩ : DState),
          (splitRecords (buildRecordCluster clusters) recs.length).1,
          (splitRecords (buildRecordCluster clusters) recs.length).2)
      else seedAll (buildRecordCluster clusters) recs.length start existing
        (⟨[], []⟩, (splitRecords (buildRecordCluster clusters) recs.length).1,
          (splitRecords (buildRecordCluster clusters) recs.length).2)) with
    | none => none
    | some z =>
      if auditOk recs clusters then
        some (distributeCore recs.length maxB minB start
          (buildRecordCluster clusters) z)
      else none

example : distribute_into_blocks [defaultRec, defaultRec] [] 10 5 [(0, 3)] 4 =
    none := by decide
example : distribute_into_blocks [defaultRec, defaultRec] [(1, [0, 1])] 10 5
    [] 1 = some [some 1, some 2] := by decide
example : distribute_into_blocks [defaultRec] [] 3 7 [] 1 =
    some [some 1] := by decide
example : distribute_into_blocks (List.replicate 12 defaultRec) [] 10 5 [] 1 =
    some ((List.replicate 10 (some 1)) ++ [some 2, some 2]) := by decide
example : distribute_into_blocks [defaultRec] [(1, [0, 5])] 10 5 [] 1 =
    none := by decide
example : distribute_into_blocks
    [⟨none, some (strL "( )"), none, none, none, none⟩, defaultRec]
    [(1, [0, 1])] 10 5 [] 1 = none := by decide

/-!
## Claims C5, C6, C7, C3, C9 and supporting lemmas
-/

/-- C5, counterexample: `calculate_similarity` is not symmetric.  For
`a = "xpyqz"`, `b = "yzrxs"` the greedy earliest-in-first-argument
tie-break of `find_longest_match` keeps one matching character in one
direction but two in the other: ratio 1/5 versus 2/5. -/
theorem similarity_not_symmetric_cex :
    calculate_similarity (strL "xpyqz") (strL "yzrxs") ≠
      calculate_similarity (strL "yzrxs") (strL "xpyqz") := by
  have hx : pyStrip (pyLower (strL "xpyqz")) = strL "xpyqz" := by decide
  have hy : pyStrip (pyLower (strL "yzrxs")) = strL "yzrxs" := by decide
  have hcond : (strL "xpyqz" = ([] : Str) || strL "yzrxs" = ([] : Str)) = false := by decide
  have hcond' : (strL "yzrxs" = ([] : Str) || strL "xpyqz" = ([] : Str)) = false := by decide
  have m1 : matchesSum (strL "xpyqz") (strL "yzrxs") (chainB (strL "yzrxs"))
      (fun _ => false) 11 0 5 0 5 = 1 := by decide
  have m2 : matchesSum (strL "yzrxs") (strL "xpyqz") (chainB (strL "xpyqz"))
      (fun _ => false) 11 0 5 0 5 = 2 := by decide
  have l1 : (strL "xpyqz").length = 5 := by decide
  have l2 : (strL "yzrxs").length = 5 := by decide
  simp only [calculate_similarity, pyRatio, hx, hy, hcond, hcond', Bool.false_eq_true,
    if_false, m1, m2, l1, l2]
  norm_num

/-- C5, amended: the empty-argument clause of the claim holds —
`calculate_similarity` returns 0.0 whenever either argument is empty; the
symmetry clause fails in general (see the counterexample). -/
theorem similarity_empty_amended (a b : Str) (h : a = [] ∨ b = []) :
    calculate_similarity a b = 0 := by
  unfold calculate_similarity
  rcases h with h | h <;> simp [h]

/-- Witness for `similarity_empty_amended` at `a = ""`, `b = "x"`. -/
theorem similarity_empty_amended_witness :
    calculate_similarity [] (strL "x") = 0 :=
  similarity_empty_amended [] (strL "x") (Or.inl rfl)

/-- C6: `normalize_address_street` does not strip accents; on
`"Avenida José, 10"` the output still contains `é` (the spec and the
function's own docstring say accents are removed). -/
theorem normalize_street_keeps_accents :
    normalize_address_street (strL "Avenida José, 10") = strL "av josé 10" ∧
      ('é' ∈ normalize_address_street (strL "Avenida José, 10")) := by
  constructor
  · decide
  · decide

/-- C7 (Scenario 2): on addresses `"Rua Augusta, 500"` and
`"R. Augusta, 500 - 01305-000"` the strict-address grouping keys differ
(here in both street base and CEP), so `deduplicate_by_address` removes
neither record and emits no audit entry. -/
theorem scenario2_cep_strictness :
    (∀ hc : HistCols,
      deduplicate_by_address hc
        [{ defaultRec with address := some (strL "Rua Augusta, 500") },
         { defaultRec with address := some (strL "R. Augusta, 500 - 01305-000") }] =
      ([{ defaultRec with address := some (strL "Rua Augusta, 500") },
        { defaultRec with address := some (strL "R. Augusta, 500 - 01305-000") }], [])) ∧
    addrKey { defaultRec with address := some (strL "Rua Augusta, 500") } ≠
      addrKey { defaultRec with address := some (strL "R. Augusta, 500 - 01305-000") } := by
  constructor
  · intro hc
    cases hc with
    | mk d p f => cases d <;> cases p <;> cases f <;> decide
  · decide

/-- C3 (Scenario 5): the incremental call of the claim raises instead of
returning.  With `existing_blocos = {0: 3}` and `start_block_num = 4` the
seeding step computes `adjusted_bloco = 3 - 4 + 1 = 0` and evaluates
`blocks[-1]` on an empty list — an `IndexError` (`none` in the model). -/
theorem scenario5_incremental_raises :
    distribute_into_blocks [defaultRec, defaultRec] [] 10 5 [(0, 3)] 4 =
      none := by decide

/-- C9, counterexample: calling the distributor with
`min_block_size = 7 > 3 = max_block_size` raises nothing — the source
performs no size-bound validation and returns normally. -/
theorem distribute_min_gt_max_no_raise_cex :
    distribute_into_blocks [defaultRec] [] 3 7 [] 1 = some [some 1] := by
  decide

/-- C9, amended: the source performs no size-bound validation, so
`min_size > max_size` raises nothing; without pre-existing assignments the
only raising path is the final cluster audit, which needs a cluster member
index out of range or a member handle on which `normalize_instagram`
raises.  On well-formed inputs — every cluster member in range with a
normalizable handle — the call returns normally for every record list and
all size bounds.  (With pre-existing assignments the seeding can also
raise; see C3.) -/
theorem distribute_never_raises_amended (recs : List Rec)
    (clusters : List (Nat × List Nat)) (maxB minB start : Nat)
    (hcl : ∀ p ∈ clusters, ∀ idx ∈ p.2, idx < recs.length ∧
      (normalize_instagram (instaField (recs.getD idx
        defaultRec))).isSome = true) :
    distribute_into_blocks recs clusters maxB minB [] start ≠ none := by
  unfold distribute_into_blocks
  by_cases h : recs.length = 0
  · simp [h]
  · rw [if_neg h]
    have haud : auditOk recs clusters = true := by
      unfold auditOk
      rw [List.all_eq_true]
      intro p hp
      unfold auditClusterOk
      rw [Bool.and_eq_true, List.all_eq_true, List.all_eq_true]
      exact ⟨fun idx hidx => by simpa using (hcl p hp idx hidx).1,
        fun idx hidx => (hcl p hp idx hidx).2⟩
    intro hcon
    have hcon2 : (if auditOk recs clusters then
        some (distributeCore recs.length maxB minB start
          (buildRecordCluster clusters)
          (⟨[], []⟩,
            (splitRecords (buildRecordCluster clusters) recs.length).1,
            (splitRecords (buildRecordCluster clusters) recs.length).2))
      else none) = none := hcon
    rw [if_pos haud] at hcon2
    exact Option.noConfusion hcon2

/-- Witness for `distribute_never_raises_amended`: a two-record clustered
call with `min_size = 7 > 3 = max_size` returns normally. -/
theorem distribute_never_raises_amended_witness :
    distribute_into_blocks [defaultRec, defaultRec] [(1, [0, 1])] 3 7 [] 1 ≠
      none :=
  distribute_never_raises_amended [defaultRec, defaultRec] [(1, [0, 1])] 3 7 1
    (by decide)

/-!
## Claim C2: total coverage of the distributor
-/

/-- A foldl preserves any invariant its step preserves. -/
theorem foldl_inv {σ α : Type} (P : σ → Prop) (f : σ → α → σ)
    (l : List α) (s : σ) (h : P s) (hf : ∀ s' x, x ∈ l → P s' → P (f s' x)) :
    P (l.foldl f s) := by
  induction l generalizing s with
  | nil => exact h
  | cons a as ih =>
    refine ih (f s a) (hf s a (List.mem_cons_self a as) h) ?_
    intro s' y hy hp
    exact hf s' y (List.mem_cons_of_mem a hy) hp

/-- Unpack a doubly-optional assignment entry. -/
theorem getD_none_isSome (o : Option (Option Nat))
    (h : (o.getD none).isSome = true) : ∃ b : Nat, o = some (some b) := by
  rcases o with _ | v
  · simp at h
  · rcases v with _ | b
    · simp at h
    · exact ⟨b, rfl⟩

/-- `fgStep` preserves the assignment length. -/
theorem fgStep_length (start : Nat) (acc : List (Option Nat) × Nat) (idx : Nat) :
    ((fgStep start acc idx).1).length = acc.1.length := by
  rcases hx : acc.1.getD idx none with _ | b
  · simp only [fgStep, hx]
    split <;> simp
  · simp only [fgStep, hx]

/-- `fgStep` never erases an assigned value. -/
theorem fgStep_keeps (start : Nat) (acc : List (Option Nat) × Nat) (idx i : Nat)
    (h : (acc.1[i]?.getD none).isSome = true) :
    (((fgStep start acc idx).1)[i]?.getD none).isSome = true := by
  rcases hx : acc.1.getD idx none with _ | b
  · by_cases hii : idx = i
    · subst hii
      rw [List.getD_eq_getElem?_getD] at hx
      rcases hg : acc.1[idx]? with _ | v
      · rw [hg] at h
        simp at h
      · simp only [hg, Option.getD_some] at hx h
        rw [hx] at h
        simp at h
    · simp only [fgStep, hx]
      split <;> simpa [List.getElem?_set_ne hii] using h
  · simp only [fgStep, hx]
    exact h

/-- After `fgStep` processes an in-range `idx`, its entry is assigned. -/
theorem fgStep_sets (start : Nat) (acc : List (Option Nat) × Nat) (idx : Nat)
    (hlen : idx < acc.1.length) :
    (((fgStep start acc idx).1)[idx]?.getD none).isSome = true := by
  rcases hx : acc.1.getD idx none with _ | b
  · simp only [fgStep, hx]
    split <;> simp [List.getElem?_set_self hlen]
  · simp only [fgStep, hx]
    rw [List.getD_eq_getElem?_getD] at hx
    rcases hg : acc.1[idx]? with _ | v
    · rw [hg] at hx
      simp at hx
    · simp only [hg, Option.getD_some] at hx
      simp [hx]

/-- Every index in range carries an assigned value after the final
guarantee loop. -/
theorem finalGuarantee_total (start n blocksLen : Nat) (asg : List (Option Nat))
    (hlen : asg.length = n) (i : Nat) (hi : i < n) :
    (((finalGuarantee start n blocksLen asg))[i]?.getD none).isSome = true := by
  unfold finalGuarantee
  have main : ∀ (l : List Nat) (acc : List (Option Nat) × Nat),
      acc.1.length = n →
      (i ∈ l ∨ (acc.1[i]?.getD none).isSome = true) →
      (((l.foldl (fgStep start) acc).1)[i]?.getD none).isSome = true := by
    intro l
    induction l with
    | nil =>
      intro acc _ hmem
      exact hmem.resolve_left (by simp)
    | cons x xs ih =>
      intro acc hl hmem
      refine ih (fgStep start acc x) (by rw [fgStep_length, hl]) ?_
      rcases hmem with hmem | hsome
      · rcases List.mem_cons.1 hmem with hx | hxs
        · refine Or.inr ?_
          rw [hx]
          exact fgStep_sets start acc x (by rw [hl, ← hx]; exact hi)
        · exact Or.inl hxs
      · exact Or.inr (fgStep_keeps start acc x i hsome)
  exact main (List.range n) (asg, blocksLen) hlen (Or.inl (List.mem_range.2 hi))

/-- The final guarantee loop preserves length. -/
theorem finalGuarantee_length (start n blocksLen : Nat) (asg : List (Option Nat)) :
    (finalGuarantee start n blocksLen asg).length = asg.length := by
  unfold finalGuarantee
  refine foldl_inv (fun (acc : List (Option Nat) × Nat) => acc.1.length = asg.length)
    (fgStep start) (List.range n) (asg, blocksLen) rfl ?_
  intro s' x _ hs
  rw [fgStep_length, hs]

/-- `numberBlocks` preserves length. -/
theorem numberBlocks_length (start : Nat) (blocks : List (List Nat))
    (asg : List (Option Nat)) :
    (numberBlocks start blocks asg).length = asg.length := by
  unfold numberBlocks
  refine foldl_inv (fun (a : List (Option Nat)) => a.length = asg.length)
    _ blocks.enum asg rfl ?_
  intro a p _ ha
  refine foldl_inv (fun (a' : List (Option Nat)) => a'.length = asg.length)
    _ p.2 a ha ?_
  intro a' idx _ ha'
  rw [List.length_set, ha']

/-- `distributeCore` yields one entry per record. -/
theorem distributeCore_length (n maxB minB start : Nat) (rc : List (Nat × Nat))
    (z : DState × List (Nat × List Nat) × List Nat) :
    (distributeCore n maxB minB start rc z).length = n := by
  simp only [distributeCore]
  rw [finalGuarantee_length, numberBlocks_length, List.length_replicate]

/-- `distributeCore` assigns every in-range index a block number. -/
theorem distributeCore_total (n maxB minB start : Nat) (rc : List (Nat × Nat))
    (z : DState × List (Nat × List Nat) × List Nat) (i : Nat) (hi : i < n) :
    ∃ b : Nat, (distributeCore n maxB minB start rc z)[i]? = some (some b) := by
  simp only [distributeCore]
  exact getD_none_isSome _ (finalGuarantee_total start n _ _
    (by rw [numberBlocks_length, List.length_replicate]) i hi)

/-- C2: whenever `distribute_into_blocks` returns (for any parameters,
including incremental ones) on a non-empty record list, the returned
assignment has one entry per record and every entry is a non-null integer
block number — every record gets exactly one `'Bloco'` value. -/
theorem distribute_total_coverage (recs : List Rec)
    (clusters : List (Nat × List Nat)) (maxB minB : Nat)
    (existing : List (Nat × Nat)) (start : Nat) (asg : List (Option Nat))
    (hn : 0 < recs.length)
    (h : distribute_into_blocks recs clusters maxB minB existing start =
      some asg) :
    asg.length = recs.length ∧
      ∀ i, i < recs.length → ∃ b : Nat, asg[i]? = some (some b) := by
  unfold distribute_into_blocks at h
  rw [if_neg (Nat.pos_iff_ne_zero.1 hn)] at h
  split at h
  · exact absurd h (by simp)
  · by_cases haud : auditOk recs clusters = true
    · rw [if_pos haud, Option.some.injEq] at h
      subst h
      exact ⟨distributeCore_length _ _ _ _ _ _,
        fun i hi => distributeCore_total _ _ _ _ _ _ i hi⟩
    · rw [if_neg haud] at h
      exact absurd h (by simp)

/-- Witness for `distribute_total_coverage` at one record, no clusters. -/
theorem distribute_total_coverage_witness :
    (([some 1] : List (Option Nat)).length = 1 ∧
      ∀ i, i < 1 → ∃ b : Nat, ([some 1] : List (Option Nat))[i]? =
        some (some b)) :=
  distribute_total_coverage [defaultRec] [] 10 5 [] 1 [some 1] (by decide)
    (by decide)

/-!
## Claim C8: records without an extractable house number survive Pass B
-/

/-- Members of an upserted map entry either come from the old map under the
same key or are the newly inserted index under the new key. -/
theorem upsertKV_mem_cases {κ : Type} [DecidableEq κ] (m : List (κ × List Nat))
    (k : κ) (i : Nat) :
    ∀ kg ∈ upsertKV m k i, ∀ j ∈ kg.2,
      (∃ kg' ∈ m, kg'.1 = kg.1 ∧ j ∈ kg'.2) ∨ (j = i ∧ kg.1 = k) := by
  induction m with
  | nil =>
    intro kg hkg j hj
    simp [upsertKV] at hkg
    subst hkg
    simp at hj
    exact Or.inr ⟨hj, rfl⟩
  | cons hd tl ih =>
    intro kg hkg j hj
    rw [upsertKV] at hkg
    by_cases hk : hd.1 = k
    · rw [if_pos hk] at hkg
      rcases List.mem_cons.1 hkg with hkg | hkg
      · subst hkg
        rcases List.mem_append.1 hj with hj | hj
        · exact Or.inl ⟨hd, List.mem_cons_self _ _, rfl, hj⟩
        · simp at hj
          exact Or.inr ⟨hj, hk⟩
      · exact Or.inl ⟨kg, List.mem_cons_of_mem _ hkg, rfl, hj⟩
    · rw [if_neg hk] at hkg
      rcases List.mem_cons.1 hkg with hkg | hkg
      · subst hkg
        exact Or.inl ⟨hd, List.mem_cons_self _ _, rfl, hj⟩
      · rcases ih kg hkg j hj with ⟨kg', hkg', he, hj'⟩ | hr
        · exact Or.inl ⟨kg', List.mem_cons_of_mem _ hkg', he, hj'⟩
        · exact Or.inr hr
  -- the `(hd.1, hd.2)` produced by the definition matches `hd` by eta

/-- Every index grouped by `buildAddrMap` belongs to a record (at that
index) whose strict-address key is the group's key. -/
theorem buildAddrMap_mem (recs : List Rec) :
    ∀ kg ∈ buildAddrMap recs, ∀ j ∈ kg.2,
      ∃ r, (j, r) ∈ recs.enum ∧ addrKey r = some kg.1 := by
  unfold buildAddrMap
  refine foldl_inv
    (fun (m : List ((Str × Str × Str) × List Nat)) => ∀ kg ∈ m, ∀ j ∈ kg.2,
      ∃ r, (j, r) ∈ recs.enum ∧ addrKey r = some kg.1)
    _ recs.enum [] (by simp) ?_
  intro m p hp hm
  rcases hk : addrKey p.2 with _ | k
  · simpa [abStep, hk] using hm
  · simp only [abStep, hk]
    intro kg hkg j hj
    rcases upsertKV_mem_cases m k p.1 kg hkg j hj with ⟨kg', hkg', he, hj'⟩ | ⟨hji, hkk⟩
    · rcases hm kg' hkg' j hj' with ⟨r, hr, hkey⟩
      exact ⟨r, hr, by rw [hkey, he]⟩
    · subst hji
      refine ⟨p.2, ?_, by rw [hk, hkk]⟩
      have : p = (p.1, p.2) := rfl
      rw [← this]
      exact hp

/-- Indices removed by one group decision come from that group. -/
theorem groupDecision_removed_sub (recs : List Rec) (hc : HistCols)
    (g : List Nat) : ∀ j ∈ (groupDecision recs hc g).2.1, j ∈ g := by
  unfold groupDecision
  rcases hw : g.filter (fun idx => has_historical_data hc (recs.getD idx defaultRec)) with _ | ⟨kept, tl⟩
  · rcases g with _ | ⟨k0, g'⟩
    · simp
    · intro j hj
      simp at hj
      simp [hj]
  · intro j hj
    simp at hj
    exact hj.1

/-- Every index removed by `processGroups` belongs to some group of the
map. -/
theorem processGroups_removed {κ : Type} (recs : List Rec) (hc : HistCols)
    (m : List (κ × List Nat)) :
    ∀ j ∈ (processGroups recs hc m).1, ∃ kg ∈ m, j ∈ kg.2 := by
  unfold processGroups
  refine foldl_inv
    (fun (acc : List Nat × List AuditEntry) => ∀ j ∈ acc.1, ∃ kg ∈ m, j ∈ kg.2)
    _ m ([], []) (by simp) ?_
  intro acc kv hkv hacc
  by_cases hlen : kv.2.length ≤ 1
  · simpa [pgStep, hlen] using hacc
  · simp only [pgStep, hlen, if_neg, if_false]
    intro j hj
    rcases List.mem_append.1 hj with hj | hj
    · exact hacc j hj
    · exact ⟨kv, hkv, groupDecision_removed_sub recs hc kv.2 j hj⟩

/-- C8: a record whose address yields no extractable house number is never
removed by `deduplicate_by_address` — it appears in the survivor list for
every input list (and every history-column configuration). -/
theorem passB_numberless_safe (hc : HistCols) (recs : List Rec) (i : Nat)
    (hi : i < recs.length)
    (hnum : extract_address_number ((recs.getD i defaultRec).address.getD []) = none) :
    recs.getD i defaultRec ∈ (deduplicate_by_address hc recs).1 := by
  have hkey : addrKey (recs.getD i defaultRec) = none := by
    unfold addrKey
    rcases ha : (recs.getD i defaultRec).address with _ | a
    · rfl
    · rw [ha] at hnum
      simp only [Option.getD_some] at hnum
      by_cases he : a = []
      · simp [he]
      · simp [he, hnum]
  have hnr : i ∉ (processGroups recs hc (buildAddrMap recs)).1 := by
    intro hmem
    obtain ⟨kg, hkg, hj⟩ := processGroups_removed recs hc (buildAddrMap recs) i hmem
    obtain ⟨r, hre, hrk⟩ := buildAddrMap_mem recs kg hkg i hj
    have hgi : recs[i]? = some r := List.mem_enum_iff_getElem?.1 hre
    have hr : r = recs.getD i defaultRec := by
      rw [List.getD_eq_getElem?_getD, hgi]
      rfl
    rw [hr, hkey] at hrk
    exact absurd hrk (by simp)
  simp only [deduplicate_by_address, keptFromRemoved]
  refine List.mem_map.2 ⟨(i, recs.getD i defaultRec), List.mem_filter.2 ⟨?_, ?_⟩, rfl⟩
  · refine List.mem_enum_iff_getElem?.2 ?_
    rw [List.getD_eq_getElem recs defaultRec hi, List.getElem?_eq_getElem hi]
  · simpa using hnr

/-- Witness for `passB_numberless_safe`: a record whose address carries the
explicit `s/n` marker (no house number) survives Pass B. -/
theorem passB_numberless_safe_witness :
    { defaultRec with address := some (strL "Rua X, s/n") } ∈
      (deduplicate_by_address ⟨true, true, true⟩
        [{ defaultRec with address := some (strL "Rua X, s/n") }]).1 :=
  passB_numberless_safe ⟨true, true, true⟩
    [{ defaultRec with address := some (strL "Rua X, s/n") }] 0
    (by decide) (by decide)

/-!
## Claim C10: stripping `http://` like `https://`
-/

/-- C10, counterexample: `s = " x\ty"` starts with no strippable prefix,
yet `normalize_instagram("http://" + s) ≠ normalize_instagram(s)`: the
leading space survives into the protocol-stripped form only on the left,
where it triggers the `' ' in normalized` split (keeping just `"x"`),
while on the right the space is stripped first and the tab does not
trigger the split (keeping `"x\ty"`). -/
theorem normalize_instagram_http_cex :
    hasPre (strL "https://") (strL " x\ty") = false ∧
    hasPre (strL "http://") (strL " x\ty") = false ∧
    hasPre (strL "www.instagram.com/") (strL " x\ty") = false ∧
    hasPre (strL "instagram.com/") (strL " x\ty") = false ∧
    hasPre (strL "@") (strL " x\ty") = false ∧
    normalize_instagram (strL "http://" ++ strL " x\ty") = some (strL "x") ∧
    normalize_instagram (strL " x\ty") = some (strL "x\ty") ∧
    normalize_instagram (strL "http://" ++ strL " x\ty") ≠
      normalize_instagram (strL " x\ty") := by
  decide

/-- `pyStripRight` distributes over an append whose left part has no
trailing whitespace. -/
theorem pyStripRight_append (p s : Str)
    (h : p.reverse.dropWhile isPySpace = p.reverse) :
    pyStripRight (p ++ s) = p ++ pyStripRight s := by
  unfold pyStripRight
  rw [List.reverse_append, List.dropWhile_append]
  by_cases hc : (s.reverse.dropWhile isPySpace).isEmpty
  · rw [if_pos hc, h]
    have : s.reverse.dropWhile isPySpace = [] := by
      rwa [List.isEmpty_iff] at hc
    rw [this]
    simp
  · rw [if_neg hc, List.reverse_append]
    simp

/-- Stripping the argument of `normalize_instagram` keeps a leading
`"http://"` intact. -/
theorem pyStrip_http_append (s : Str) :
    pyStrip (strL "http://" ++ s) = strL "http://" ++ pyStripRight s := by
  unfold pyStrip
  have h1 : pyStripLeft (strL "http://" ++ s) = strL "http://" ++ s := by
    have he : strL "http://" ++ s = 'h' :: (strL "ttp://" ++ s) := rfl
    rw [he]
    unfold pyStripLeft
    rw [List.dropWhile_cons_of_neg (by decide)]
  rw [h1]
  exact pyStripRight_append _ _ (by decide)

/-- `pyLower` keeps a leading `"http://"` intact. -/
theorem pyLower_http_append (t : Str) :
    pyLower (strL "http://" ++ t) = strL "http://" ++ pyLower t := by
  unfold pyLower
  rw [List.map_append]
  rfl

/-- `httpStrip` removes exactly the prepended `"http://"`. -/
theorem httpStrip_http_append (u : Str) :
    httpStrip (strL "http://" ++ u) = u := by
  unfold httpStrip
  have e1 : strL "https://" =
      'h' :: 't' :: 't' :: 'p' :: 's' :: ':' :: '/' :: '/' :: [] := rfl
  have e0 : strL "http://" = 'h' :: 't' :: 't' :: 'p' :: ':' :: '/' :: '/' :: [] := rfl
  have e2 : strL "http://" ++ u =
      'h' :: 't' :: 't' :: 'p' :: ':' :: '/' :: '/' :: u := rfl
  have h8 : hasPre (strL "https://") (strL "http://" ++ u) = false := by
    show (strL "https://").isPrefixOf (strL "http://" ++ u) = false
    rw [e1, e2]
    simp [List.isPrefixOf]
  have h7 : hasPre (strL "http://") (strL "http://" ++ u) = true := by
    show (strL "http://").isPrefixOf (strL "http://" ++ u) = true
    rw [e0]
    simp [List.isPrefixOf, List.cons_append]
  rw [h8, h7]
  simp only [Bool.false_eq_true, if_false, if_true]
  rw [show (7 : Nat) = (strL "http://").length from rfl, List.drop_left]

/-- C10, amended: the source strips `http://` exactly like `https://`
(the regex is `^https?://`), but the claimed equality additionally needs
`s` not to start with whitespace (see the counterexample).  For every `s`
with no leading whitespace whose lower-cased, stripped form starts with
none of the five strippable prefixes,
`normalize_instagram("http://" + s) = normalize_instagram(s)`. -/
theorem normalize_instagram_http_amended (s : Str)
    (h0 : pyStripLeft s = s)
    (h1 : hasPre (strL "https://") (pyLower (pyStrip s)) = false)
    (h2 : hasPre (strL "http://") (pyLower (pyStrip s)) = false)
    (h3 : hasPre (strL "www.instagram.com/") (pyLower (pyStrip s)) = false)
    (h4 : hasPre (strL "instagram.com/") (pyLower (pyStrip s)) = false)
    (h5 : hasPre (strL "@") (pyLower (pyStrip s)) = false) :
    normalize_instagram (strL "http://" ++ s) = normalize_instagram s := by
  have hs : pyStrip s = pyStripRight s := by
    unfold pyStrip
    rw [h0]
  by_cases hnil : s = []
  · subst hnil
    decide
  · have hne : ¬ (strL "http://" ++ s = []) := by simp [strL]
    unfold normalize_instagram
    rw [if_neg hne, if_neg hnil]
    rw [pyStrip_http_append, pyLower_http_append, httpStrip_http_append, ← hs]
    have hid : httpStrip (pyLower (pyStrip s)) = pyLower (pyStrip s) := by
      unfold httpStrip
      rw [h1, h2]
      simp
    rw [hid]

/-- Witness for `normalize_instagram_http_amended` at `s = "abc"`. -/
theorem normalize_instagram_http_amended_witness :
    normalize_instagram (strL "http://" ++ strL "abc") =
      normalize_instagram (strL "abc") :=
  normalize_instagram_http_amended (strL "abc") (by decide) (by decide)
    (by decide) (by decide) (by decide) (by decide)

/-!
## Claim C4: idempotence of the Deduplicator — map infrastructure
-/

/-- `upsertKV` produces a group of key `k` containing `i`. -/
theorem upsertKV_adds {κ : Type} [DecidableEq κ] (m : List (κ × List Nat))
    (k : κ) (i : Nat) : ∃ g, (k, g) ∈ upsertKV m k i ∧ i ∈ g := by
  induction m with
  | nil => exact ⟨[i], by simp [upsertKV], by simp⟩
  | cons hd tl ih =>
    by_cases hk : hd.1 = k
    · refine ⟨hd.2 ++ [i], ?_, by simp⟩
      simp [upsertKV, hk]
    · obtain ⟨g, hg, hig⟩ := ih
      refine ⟨g, ?_, hig⟩
      simp only [upsertKV, hk, if_neg, if_false]
      exact List.mem_cons_of_mem _ hg

/-- `upsertKV` keeps every existing member in a group of the same key. -/
theorem upsertKV_pres {κ : Type} [DecidableEq κ] (m : List (κ × List Nat))
    (k' : κ) (i : Nat) (k : κ) (g : List Nat) (j : Nat)
    (hm : (k, g) ∈ m) (hj : j ∈ g) :
    ∃ g', (k, g') ∈ upsertKV m k' i ∧ j ∈ g' := by
  induction m with
  | nil => simp at hm
  | cons hd tl ih =>
    by_cases hk : hd.1 = k'
    · rcases List.mem_cons.1 hm with he | hm'
      · refine ⟨hd.2 ++ [i], ?_, ?_⟩
        · have h1 : k = hd.1 := by rw [← he]
          simp [upsertKV, hk, h1]
        · have h2 : g = hd.2 := by rw [← he]
          exact List.mem_append_left _ (h2 ▸ hj)
      · refine ⟨g, ?_, hj⟩
        simp only [upsertKV, hk, if_pos]
        exact List.mem_cons_of_mem _ hm'
    · rcases List.mem_cons.1 hm with he | hm'
      · refine ⟨g, ?_, hj⟩
        simp only [upsertKV, hk, if_neg, if_false]
        exact he ▸ List.mem_cons_self _ _
      · obtain ⟨g', hg', hj'⟩ := ih hm'
        refine ⟨g', ?_, hj'⟩
        simp only [upsertKV, hk, if_neg, if_false]
        exact List.mem_cons_of_mem _ hg'

/-- Keys after an upsert. -/
theorem upsertKV_keys_mem {κ : Type} [DecidableEq κ] (m : List (κ × List Nat))
    (k : κ) (i : Nat) (x : κ) :
    x ∈ (upsertKV m k i).map Prod.fst ↔ x ∈ m.map Prod.fst ∨ x = k := by
  induction m with
  | nil => simp [upsertKV]
  | cons hd tl ih =>
    by_cases hk : hd.1 = k
    · rw [upsertKV, if_pos hk]
      have he : List.map Prod.fst ((hd.1, hd.2 ++ [i]) :: tl) =
          List.map Prod.fst (hd :: tl) := by simp
      rw [he]
      constructor
      · exact Or.inl
      · rintro (h | h)
        · exact h
        · rw [h, ← hk]
          simp
    · rw [upsertKV, if_neg hk]
      simp only [List.map_cons, List.mem_cons]
      rw [ih]
      tauto

/-- `upsertKV` preserves key distinctness. -/
theorem upsertKV_KU {κ : Type} [DecidableEq κ] (m : List (κ × List Nat))
    (k : κ) (i : Nat) (h : (m.map Prod.fst).Nodup) :
    ((upsertKV m k i).map Prod.fst).Nodup := by
  induction m with
  | nil => simp [upsertKV]
  | cons hd tl ih =>
    rw [List.map_cons, List.nodup_cons] at h
    by_cases hk : hd.1 = k
    · rw [upsertKV, if_pos hk]
      rw [List.map_cons, List.nodup_cons]
      exact h
    · simp only [upsertKV, hk, if_neg, if_false]
      rw [List.map_cons, List.nodup_cons]
      refine ⟨?_, ih h.2⟩
      intro hmem
      rcases (upsertKV_keys_mem tl k i hd.1).1 hmem with hmem | hmem
      · exact h.1 hmem
      · exact hk hmem

/-- Distinct-key maps have unique groups per key. -/
theorem KU_unique {κ : Type} (m : List (κ × List Nat))
    (h : (m.map Prod.fst).Nodup) (k : κ) (g₁ g₂ : List Nat)
    (h₁ : (k, g₁) ∈ m) (h₂ : (k, g₂) ∈ m) : g₁ = g₂ := by
  induction m with
  | nil => simp at h₁
  | cons hd tl ih =>
    rw [List.map_cons, List.nodup_cons] at h
    rcases List.mem_cons.1 h₁ with he₁ | h₁' <;> rcases List.mem_cons.1 h₂ with he₂ | h₂'
    · exact congrArg Prod.snd (he₁.trans he₂.symm)
    · exfalso
      refine h.1 ?_
      have : k = hd.1 := by rw [← he₁]
      exact this ▸ List.mem_map.2 ⟨(k, g₂), h₂', rfl⟩
    · exfalso
      refine h.1 ?_
      have : k = hd.1 := by rw [← he₂]
      exact this ▸ List.mem_map.2 ⟨(k, g₁), h₁', rfl⟩
    · exact ih h.2 h₁' h₂'

/-- Members of an upserted map stay duplicate-free and bounded when the
inserted index is fresh (at least the bound). -/
theorem upsertKV_nodup_bound {κ : Type} [DecidableEq κ] (m : List (κ × List Nat))
    (k : κ) (i : Nat)
    (h : ∀ kg ∈ m, kg.2.Nodup ∧ ∀ j ∈ kg.2, j < i) :
    ∀ kg ∈ upsertKV m k i, kg.2.Nodup ∧ ∀ j ∈ kg.2, j < i + 1 := by
  induction m with
  | nil =>
    intro kg hkg
    simp [upsertKV] at hkg
    subst hkg
    simp
  | cons hd tl ih =>
    intro kg hkg
    by_cases hk : hd.1 = k
    · rw [upsertKV, if_pos hk] at hkg
      rcases List.mem_cons.1 hkg with he | h'
      · subst he
        have hh := h hd (List.mem_cons_self _ _)
        constructor
        · rw [List.nodup_append]
          refine ⟨hh.1, by simp, ?_⟩
          intro a ha hb
          simp at hb
          subst hb
          exact absurd (hh.2 a ha) (by omega)
        · intro j hj
          rcases List.mem_append.1 hj with hj | hj
          · exact Nat.lt_succ_of_lt (hh.2 j hj)
          · simp at hj
            omega
      · have hh := h kg (List.mem_cons_of_mem _ h')
        exact ⟨hh.1, fun j hj => Nat.lt_succ_of_lt (hh.2 j hj)⟩
    · rw [upsertKV, if_neg hk] at hkg
      rcases List.mem_cons.1 hkg with he | h'
      · subst he
        have hh := h hd (List.mem_cons_self _ _)
        exact ⟨hh.1, fun j hj => Nat.lt_succ_of_lt (hh.2 j hj)⟩
      · exact ih (fun kg' hkg' => h kg' (List.mem_cons_of_mem _ hkg')) kg h'

/-- Indices in an `enumFrom` are strictly increasing. -/
theorem enumFrom_fst_lt {α : Type} (i : Nat) (l : List α) :
    (List.enumFrom i l).Pairwise (fun p q => p.1 < q.1) := by
  induction l generalizing i with
  | nil => simp
  | cons x xs ih =>
    rw [List.enumFrom_cons]
    refine List.Pairwise.cons ?_ (ih (i + 1))
    intro q hq
    rcases q with ⟨j, y⟩
    have := (List.mem_enumFrom hq).1
    omega

/-- A duplicate-free list of length > 1 has two distinct members. -/
theorem group_two (g : List Nat) (hn : g.Nodup) (hl : 1 < g.length) :
    ∃ j₁ ∈ g, ∃ j₂ ∈ g, j₁ ≠ j₂ := by
  rcases g with _ | ⟨a, _ | ⟨b, rest⟩⟩
  · simp at hl
  · simp at hl
  · rw [List.nodup_cons] at hn
    refine ⟨a, by simp, b, by simp, ?_⟩
    intro he
    exact hn.1 (he ▸ List.mem_cons_self _ _)

/-- A successful grouping pass normalized every handle without raising. -/
theorem buildInstaMap_some (l : List Rec) :
    ∀ (i : Nat) (m₀ m : List (Str × List Nat)),
      buildInstaMap l i m₀ = some m → ∀ r ∈ l, (instaKey r).isSome = true := by
  induction l with
  | nil => intro i m₀ m _ r hr; simp at hr
  | cons r0 rest ih =>
    intro i m₀ m h r hr
    rw [buildInstaMap] at h
    rcases hk : instaKey r0 with _ | k
    · simp [hk] at h
    · simp only [hk] at h
      rcases List.mem_cons.1 hr with he | hr'
      · rw [he, hk]
        rfl
      · exact ih (i + 1) _ m h r hr'

/-- The grouping pass succeeds when every handle normalizes. -/
theorem buildInstaMap_ex (l : List Rec)
    (h : ∀ r ∈ l, (instaKey r).isSome = true) :
    ∀ (i : Nat) (m₀ : List (Str × List Nat)), ∃ m, buildInstaMap l i m₀ = some m := by
  induction l with
  | nil => intro i m₀; exact ⟨m₀, rfl⟩
  | cons r0 rest ih =>
    intro i m₀
    rcases hk : instaKey r0 with _ | k
    · exact absurd (h r0 (List.mem_cons_self _ _)) (by rw [hk]; simp)
    · obtain ⟨m, hm⟩ := ih (fun r hr => h r (List.mem_cons_of_mem _ hr)) (i + 1)
        (if k = [] then m₀ else upsertKV m₀ k i)
      exact ⟨m, by rw [buildInstaMap, hk]; exact hm⟩

/-- Generic invariant of the grouping pass: if every enumerated record's
non-empty key satisfies `Q` and the initial map satisfies `Q`, so does the
final map. -/
theorem buildInstaMap_inv (Q : Str → Nat → Prop) (l : List Rec) :
    ∀ (i : Nat) (m₀ m : List (Str × List Nat)),
      buildInstaMap l i m₀ = some m →
      (∀ p ∈ List.enumFrom i l, ∀ k, instaKey p.2 = some k → k ≠ [] → Q k p.1) →
      (∀ kg ∈ m₀, ∀ j ∈ kg.2, Q kg.1 j) →
      ∀ kg ∈ m, ∀ j ∈ kg.2, Q kg.1 j := by
  induction l with
  | nil =>
    intro i m₀ m h _ h0
    rw [buildInstaMap] at h
    simp at h
    exact h ▸ h0
  | cons r0 rest ih =>
    intro i m₀ m h henum h0
    rw [buildInstaMap] at h
    rcases hk : instaKey r0 with _ | k
    · simp [hk] at h
    · simp only [hk] at h
      refine ih (i + 1) _ m h ?_ ?_
      · intro p hp
        exact henum p (by rw [List.enumFrom_cons]; exact List.mem_cons_of_mem _ hp)
      · by_cases hke : k = []
        · simpa [hke] using h0
        · rw [if_neg hke]
          intro kg hkg j hj
          rcases upsertKV_mem_cases m₀ k i kg hkg j hj with ⟨kg', hkg', he, hj'⟩ | ⟨hji, hkk⟩
          · exact he ▸ h0 kg' hkg' j hj'
          · rw [hkk, hji]
            exact henum (i, r0) (by rw [List.enumFrom_cons]; exact List.mem_cons_self _ _)
              k hk hke

/-- Existing members survive the rest of the grouping pass. -/
theorem buildInstaMap_mono (l : List Rec) :
    ∀ (i : Nat) (m₀ m : List (Str × List Nat)),
      buildInstaMap l i m₀ = some m →
      ∀ k g j, (k, g) ∈ m₀ → j ∈ g → ∃ g', (k, g') ∈ m ∧ j ∈ g' := by
  induction l with
  | nil =>
    intro i m₀ m h k g j hg hj
    rw [buildInstaMap] at h
    simp at h
    exact ⟨g, h ▸ hg, hj⟩
  | cons r0 rest ih =>
    intro i m₀ m h k g j hg hj
    rw [buildInstaMap] at h
    rcases hk : instaKey r0 with _ | k0
    · simp [hk] at h
    · simp only [hk] at h
      by_cases hke : k0 = []
      · rw [if_pos hke] at h
        exact ih (i + 1) m₀ m h k g j hg hj
      · rw [if_neg hke] at h
        obtain ⟨g', hg', hj'⟩ := upsertKV_pres m₀ k0 i k g j hg hj
        exact ih (i + 1) _ m h k g' j hg' hj'

/-- Completeness: every record with a non-empty key lands in that key's
group. -/
theorem buildInstaMap_complete (l : List Rec) :
    ∀ (i : Nat) (m₀ m : List (Str × List Nat)),
      buildInstaMap l i m₀ = some m →
      ∀ p ∈ List.enumFrom i l, ∀ k, instaKey p.2 = some k → k ≠ [] →
      ∃ g, (k, g) ∈ m ∧ p.1 ∈ g := by
  induction l with
  | nil =>
    intro i m₀ m _ p hp
    simp at hp
  | cons r0 rest ih =>
    intro i m₀ m h p hp k hpk hkne
    rw [buildInstaMap] at h
    rcases hk : instaKey r0 with _ | k0
    · simp [hk] at h
    · simp only [hk] at h
      rw [List.enumFrom_cons] at hp
      rcases List.mem_cons.1 hp with he | hp'
      · have hk0 : k0 = k := by
          rw [he] at hpk
          simp only at hpk
          rw [hk] at hpk
          exact Option.some.inj hpk
        subst hk0
        rw [if_neg hkne] at h
        obtain ⟨g, hg, hig⟩ := upsertKV_adds m₀ k0 i
        obtain ⟨g', hg', hig'⟩ := buildInstaMap_mono rest (i + 1) _ m h k0 g i hg hig
        refine ⟨g', hg', ?_⟩
        have : p.1 = i := by rw [he]
        rwa [this]
      · exact ih (i + 1) _ m h p hp' k hpk hkne

/-- The grouping pass keeps keys distinct. -/
theorem buildInstaMap_KU (l : List Rec) :
    ∀ (i : Nat) (m₀ m : List (Str × List Nat)),
      buildInstaMap l i m₀ = some m → (m₀.map Prod.fst).Nodup →
      (m.map Prod.fst).Nodup := by
  induction l with
  | nil =>
    intro i m₀ m h h0
    rw [buildInstaMap] at h
    simp at h
    exact h ▸ h0
  | cons r0 rest ih =>
    intro i m₀ m h h0
    rw [buildInstaMap] at h
    rcases hk : instaKey r0 with _ | k0
    · simp [hk] at h
    · simp only [hk] at h
      by_cases hke : k0 = []
      · rw [if_pos hke] at h
        exact ih (i + 1) m₀ m h h0
      · rw [if_neg hke] at h
        exact ih (i + 1) _ m h (upsertKV_KU m₀ k0 i h0)

/-- The grouping pass produces duplicate-free groups. -/
theorem buildInstaMap_nodup (l : List Rec) :
    ∀ (i : Nat) (m₀ m : List (Str × List Nat)),
      buildInstaMap l i m₀ = some m →
      (∀ kg ∈ m₀, kg.2.Nodup ∧ ∀ j ∈ kg.2, j < i) →
      ∀ kg ∈ m, kg.2.Nodup := by
  induction l with
  | nil =>
    intro i m₀ m h h0 kg hkg
    rw [buildInstaMap] at h
    simp at h
    exact (h0 kg (h ▸ hkg)).1
  | cons r0 rest ih =>
    intro i m₀ m h h0 kg hkg
    rw [buildInstaMap] at h
    rcases hk : instaKey r0 with _ | k0
    · simp [hk] at h
    · simp only [hk] at h
      by_cases hke : k0 = []
      · rw [if_pos hke] at h
        refine ih (i + 1) m₀ m h ?_ kg hkg
        intro kg' hkg'
        exact ⟨(h0 kg' hkg').1, fun j hj => Nat.lt_succ_of_lt ((h0 kg' hkg').2 j hj)⟩
      · rw [if_neg hke] at h
        exact ih (i + 1) _ m h (upsertKV_nodup_bound m₀ k0 i h0) kg hkg

/-!
## Claim C4: Pass A properties
-/

/-- Two records whose non-empty normalized handles never coincide. -/
def handleSeparated (r₁ r₂ : Rec) : Prop :=
  ∀ k, k ≠ [] → instaKey r₁ = some k → instaKey r₂ ≠ some k

/-- Two records whose strict-address keys never coincide. -/
def addrSeparated (r₁ r₂ : Rec) : Prop :=
  ∀ k, addrKey r₁ = some k → addrKey r₂ ≠ some k

/-- Two distinct members force length > 1. -/
theorem one_lt_length_of_two (l : List Nat) (a b : Nat) (ha : a ∈ l)
    (hb : b ∈ l) (hab : a ≠ b) : 1 < l.length := by
  rcases l with _ | ⟨x, _ | ⟨y, rest⟩⟩
  · simp at ha
  · simp at ha hb
    exact absurd (ha.trans hb.symm) hab
  · simp

/-- A group member other than the chosen one lands in the removed list. -/
theorem groupDecision_removed_complete (recs : List Rec) (hc : HistCols)
    (g : List Nat) (j : Nat) (hj : j ∈ g)
    (hne : j ≠ (groupDecision recs hc g).1) :
    j ∈ (groupDecision recs hc g).2.1 := by
  unfold groupDecision at hne ⊢
  rcases hw : g.filter (fun idx => has_historical_data hc (recs.getD idx defaultRec)) with _ | ⟨kept, tl⟩
  · rw [hw] at hne
    rcases g with _ | ⟨k0, g'⟩
    · simp at hj
    · simp at hne ⊢
      rcases List.mem_cons.1 hj with he | hj'
      · exact absurd he hne
      · exact hj'
  · rw [hw] at hne
    simp only at hne ⊢
    exact List.mem_filter.2 ⟨hj, by simpa using hne⟩

/-- The removed accumulator of `processGroups` only grows. -/
theorem processGroups_acc_mono {κ : Type} (recs : List Rec) (hc : HistCols) :
    ∀ (m : List (κ × List Nat)) (acc : List Nat × List AuditEntry) (j : Nat),
      j ∈ acc.1 → j ∈ (m.foldl (pgStep recs hc) acc).1 := by
  intro m
  induction m with
  | nil => intro acc j hj; exact hj
  | cons kv tl ih =>
    intro acc j hj
    refine ih (pgStep recs hc acc kv) j ?_
    unfold pgStep
    split
    · exact hj
    · exact List.mem_append_left _ hj

/-- Non-chosen members of every oversized group are removed. -/
theorem processGroups_removed_complete {κ : Type} (recs : List Rec)
    (hc : HistCols) :
    ∀ (m : List (κ × List Nat)) (acc : List Nat × List AuditEntry),
      ∀ kg ∈ m, 1 < kg.2.length → ∀ j ∈ kg.2,
        j ≠ (groupDecision recs hc kg.2).1 →
        j ∈ (m.foldl (pgStep recs hc) acc).1 := by
  intro m
  induction m with
  | nil => intro acc kg hkg; simp at hkg
  | cons kv tl ih =>
    intro acc kg hkg hlen j hj hne
    rcases List.mem_cons.1 hkg with he | hkg'
    · subst he
      refine processGroups_acc_mono recs hc tl (pgStep recs hc acc kg) j ?_
      unfold pgStep
      rw [if_neg (by omega)]
      exact List.mem_append_right _ (groupDecision_removed_complete recs hc kg.2 j hj hne)
    · exact ih (pgStep recs hc acc kv) kg hkg' hlen j hj hne

/-- `processGroups` is inert when every group is small. -/
theorem processGroups_small {κ : Type} (recs : List Rec) (hc : HistCols) :
    ∀ (m : List (κ × List Nat)), (∀ kg ∈ m, kg.2.length ≤ 1) →
      ∀ acc, m.foldl (pgStep recs hc) acc = acc := by
  intro m
  induction m with
  | nil => intro _ acc; rfl
  | cons kv tl ih =>
    intro hs acc
    have h1 : pgStep recs hc acc kv = acc := by
      unfold pgStep
      rw [if_pos (hs kv (List.mem_cons_self _ _))]
    rw [List.foldl_cons, h1]
    exact ih (fun kg hkg => hs kg (List.mem_cons_of_mem _ hkg)) acc

/-- With no removals, the survivor list is the input. -/
theorem keptFromRemoved_nil (l : List Rec) : keptFromRemoved l [] = l := by
  unfold keptFromRemoved
  have h : l.enum.filter (fun p => !(List.contains [] p.1)) = l.enum := by
    apply List.filter_eq_self.2
    intro p _
    rfl
  rw [h, List.enum_map_snd]

/-- Unpacking a successful Pass A. -/
theorem dedupInsta_eq (hc : HistCols) (recs s : List Rec) (a : List AuditEntry)
    (h : deduplicate_by_instagram hc recs = some (s, a)) :
    ∃ m, buildInstaMap recs 0 [] = some m ∧
      s = keptFromRemoved recs (processGroups recs hc m).1 ∧
      a = (processGroups recs hc m).2 := by
  unfold deduplicate_by_instagram at h
  rcases hb : buildInstaMap recs 0 [] with _ | m
  · rw [hb] at h
    simp at h
  · rw [hb] at h
    simp only [Option.map_some', Option.some.injEq] at h
    exact ⟨m, rfl, congrArg Prod.fst h.symm, congrArg Prod.snd h.symm⟩

/-- Pass A survivors: two survivors never share a non-empty handle key. -/
theorem passA_survivors_separated (hc : HistCols) (recs s : List Rec)
    (a : List AuditEntry) (h : deduplicate_by_instagram hc recs = some (s, a)) :
    s.Pairwise handleSeparated := by
  obtain ⟨m, hb, hs, _⟩ := dedupInsta_eq hc recs s a h
  subst hs
  unfold keptFromRemoved
  rw [List.pairwise_map]
  have henum : (recs.enum.filter
      (fun p => !(List.contains (processGroups recs hc m).1 p.1))).Pairwise
      (fun p q => p.1 < q.1) :=
    List.Pairwise.sublist (List.filter_sublist _) (enumFrom_fst_lt 0 recs)
  refine List.Pairwise.imp_of_mem ?_ henum
  intro p q hp hq hlt
  intro k hkne hpk hqk
  have hpe := List.mem_filter.1 hp
  have hqe := List.mem_filter.1 hq
  obtain ⟨g₁, hg₁, hpg⟩ := buildInstaMap_complete recs 0 [] m hb p hpe.1 k hpk hkne
  obtain ⟨g₂, hg₂, hqg⟩ := buildInstaMap_complete recs 0 [] m hb q hqe.1 k hqk hkne
  have hgg : g₁ = g₂ :=
    KU_unique m (buildInstaMap_KU recs 0 [] m hb (by simp)) k g₁ g₂ hg₁ hg₂
  subst hgg
  have h2 : 1 < g₁.length :=
    one_lt_length_of_two g₁ p.1 q.1 hpg hqg (Nat.ne_of_lt hlt)
  have hpnr : p.1 ∉ (processGroups recs hc m).1 := by simpa using hpe.2
  have hqnr : q.1 ∉ (processGroups recs hc m).1 := by simpa using hqe.2
  by_cases hpc : p.1 = (groupDecision recs hc g₁).1
  · exact hqnr (processGroups_removed_complete recs hc m ([], []) (k, g₁) hg₁ h2
      q.1 hqg (by rw [← hpc]; omega))
  · exact hpnr (processGroups_removed_complete recs hc m ([], []) (k, g₁) hg₁ h2
      p.1 hpg hpc)

/-- Pass A is inert on a list with pairwise-separated handles. -/
theorem passA_fixed (hc : HistCols) (l : List Rec)
    (hsome : ∀ r ∈ l, (instaKey r).isSome = true)
    (hp : l.Pairwise handleSeparated) :
    deduplicate_by_instagram hc l = some (l, []) := by
  obtain ⟨m, hm⟩ := buildInstaMap_ex l hsome 0 []
  have hsmall : ∀ kg ∈ m, kg.2.length ≤ 1 := by
    intro kg hkg
    by_contra hlen
    push_neg at hlen
    have hnd := buildInstaMap_nodup l 0 [] m hm (by simp) kg hkg
    obtain ⟨j₁, hj₁, j₂, hj₂, hne⟩ := group_two kg.2 hnd hlen
    have hsound := buildInstaMap_inv
      (fun k j => ∃ r, (j, r) ∈ l.enum ∧ instaKey r = some k ∧ k ≠ []) l 0 [] m hm
      (fun p hp' k hk hkne => ⟨p.2, by simpa using hp', hk, hkne⟩) (by simp)
    obtain ⟨r₁, hr₁, hk₁, hkne⟩ := hsound kg hkg j₁ hj₁
    obtain ⟨r₂, hr₂, hk₂, _⟩ := hsound kg hkg j₂ hj₂
    obtain ⟨hlt₁, he₁⟩ := List.getElem?_eq_some.1 (List.mem_enum_iff_getElem?.1 hr₁)
    obtain ⟨hlt₂, he₂⟩ := List.getElem?_eq_some.1 (List.mem_enum_iff_getElem?.1 hr₂)
    have hpg := List.pairwise_iff_getElem.1 hp
    rcases Nat.lt_or_ge j₁ j₂ with hlt | hge
    · exact (hpg j₁ j₂ hlt₁ hlt₂ hlt) kg.1 hkne (he₁ ▸ hk₁) (he₂ ▸ hk₂)
    · have hlt' : j₂ < j₁ := by omega
      exact (hpg j₂ j₁ hlt₂ hlt₁ hlt') kg.1 hkne (he₂ ▸ hk₂) (he₁ ▸ hk₁)
  have hpg0 : processGroups l hc m = ([], []) := processGroups_small l hc m hsmall ([], [])
  unfold deduplicate_by_instagram
  rw [hm]
  simp only [Option.map_some', Option.some.injEq]
  rw [hpg0]
  simp only [keptFromRemoved_nil]

/-!
## Claim C4: Pass B properties and the idempotence theorem
-/

/-- Existing members survive the rest of the address-grouping fold. -/
theorem abFold_mono (ps : List (Nat × Rec)) :
    ∀ (m₀ : List ((Str × Str × Str) × List Nat)) (k : Str × Str × Str)
      (g : List Nat) (j : Nat), (k, g) ∈ m₀ → j ∈ g →
      ∃ g', (k, g') ∈ ps.foldl abStep m₀ ∧ j ∈ g' := by
  induction ps with
  | nil => intro m₀ k g j hg hj; exact ⟨g, hg, hj⟩
  | cons p tl ih =>
    intro m₀ k g j hg hj
    rw [List.foldl_cons]
    rcases hk : addrKey p.2 with _ | k'
    · rw [show abStep m₀ p = m₀ from by rw [abStep, hk]]
      exact ih m₀ k g j hg hj
    · rw [show abStep m₀ p = upsertKV m₀ k' p.1 from by rw [abStep, hk]]
      obtain ⟨g', hg', hj'⟩ := upsertKV_pres m₀ k' p.1 k g j hg hj
      exact ih _ k g' j hg' hj'

/-- Every eligible pair lands in its key's group. -/
theorem abFold_complete (ps : List (Nat × Rec)) :
    ∀ (m₀ : List ((Str × Str × Str) × List Nat)), ∀ p ∈ ps,
      ∀ k, addrKey p.2 = some k →
      ∃ g, (k, g) ∈ ps.foldl abStep m₀ ∧ p.1 ∈ g := by
  induction ps with
  | nil => intro m₀ p hp; simp at hp
  | cons q tl ih =>
    intro m₀ p hp k hk
    rw [List.foldl_cons]
    rcases List.mem_cons.1 hp with he | hp'
    · subst he
      rw [show abStep m₀ p = upsertKV m₀ k p.1 from by rw [abStep, hk]]
      obtain ⟨g, hg, hig⟩ := upsertKV_adds m₀ k p.1
      exact abFold_mono tl _ k g p.1 hg hig
    · exact ih (abStep m₀ q) p hp' k hk

/-- The address-grouping fold keeps keys distinct. -/
theorem abFold_KU (ps : List (Nat × Rec)) :
    ∀ (m₀ : List ((Str × Str × Str) × List Nat)),
      (m₀.map Prod.fst).Nodup → ((ps.foldl abStep m₀).map Prod.fst).Nodup := by
  induction ps with
  | nil => intro m₀ h; exact h
  | cons p tl ih =>
    intro m₀ h
    rw [List.foldl_cons]
    rcases hk : addrKey p.2 with _ | k
    · rw [show abStep m₀ p = m₀ from by rw [abStep, hk]]
      exact ih m₀ h
    · rw [show abStep m₀ p = upsertKV m₀ k p.1 from by rw [abStep, hk]]
      exact ih _ (upsertKV_KU m₀ k p.1 h)

/-- Groups of the address-grouping fold over an `enumFrom` are
duplicate-free. -/
theorem abFold_nodup (l : List Rec) :
    ∀ (i : Nat) (m₀ : List ((Str × Str × Str) × List Nat)),
      (∀ kg ∈ m₀, kg.2.Nodup ∧ ∀ j ∈ kg.2, j < i) →
      ∀ kg ∈ (List.enumFrom i l).foldl abStep m₀, kg.2.Nodup := by
  induction l with
  | nil => intro i m₀ h kg hkg; exact (h kg (by simpa using hkg)).1
  | cons r tl ih =>
    intro i m₀ h kg hkg
    rw [List.enumFrom_cons, List.foldl_cons] at hkg
    rcases hk : addrKey r with _ | k
    · rw [show abStep m₀ (i, r) = m₀ from by rw [abStep]; simp only; rw [hk]] at hkg
      refine ih (i + 1) m₀ ?_ kg hkg
      intro kg' hkg'
      exact ⟨(h kg' hkg').1, fun j hj => Nat.lt_succ_of_lt ((h kg' hkg').2 j hj)⟩
    · rw [show abStep m₀ (i, r) = upsertKV m₀ k i from by rw [abStep]; simp only; rw [hk]] at hkg
      exact ih (i + 1) _ (upsertKV_nodup_bound m₀ k i h) kg hkg

/-- The survivor list is always a sublist of the input. -/
theorem keptFromRemoved_sublist (l : List Rec) (removed : List Nat) :
    (keptFromRemoved l removed).Sublist l := by
  unfold keptFromRemoved
  have h := List.Sublist.map Prod.snd
    (List.filter_sublist (p := fun p => !(List.contains removed p.1)) l.enum)
  rwa [List.enum_map_snd] at h

/-- Pass B output is a sublist of its input. -/
theorem dedupAddr_sublist (hc : HistCols) (l : List Rec) :
    ((deduplicate_by_address hc l).1).Sublist l := by
  unfold deduplicate_by_address
  exact keptFromRemoved_sublist l _

/-- Pass B survivors: two survivors never share a strict-address key. -/
theorem passB_survivors_separated (hc : HistCols) (l : List Rec) :
    ((deduplicate_by_address hc l).1).Pairwise addrSeparated := by
  unfold deduplicate_by_address keptFromRemoved
  rw [List.pairwise_map]
  have henum : (l.enum.filter
      (fun p => !(List.contains (processGroups l hc (buildAddrMap l)).1 p.1))).Pairwise
      (fun p q => p.1 < q.1) :=
    List.Pairwise.sublist (List.filter_sublist _) (enumFrom_fst_lt 0 l)
  refine List.Pairwise.imp_of_mem ?_ henum
  intro p q hp hq hlt
  intro k hpk hqk
  have hpe := List.mem_filter.1 hp
  have hqe := List.mem_filter.1 hq
  obtain ⟨g₁, hg₁, hpg⟩ := abFold_complete l.enum [] p hpe.1 k hpk
  obtain ⟨g₂, hg₂, hqg⟩ := abFold_complete l.enum [] q hqe.1 k hqk
  have hgg : g₁ = g₂ :=
    KU_unique _ (abFold_KU l.enum [] (by simp)) k g₁ g₂ hg₁ hg₂
  subst hgg
  have h2 : 1 < g₁.length :=
    one_lt_length_of_two g₁ p.1 q.1 hpg hqg (Nat.ne_of_lt hlt)
  have hpnr : p.1 ∉ (processGroups l hc (buildAddrMap l)).1 := by simpa using hpe.2
  have hqnr : q.1 ∉ (processGroups l hc (buildAddrMap l)).1 := by simpa using hqe.2
  by_cases hpc : p.1 = (groupDecision l hc g₁).1
  · exact hqnr (processGroups_removed_complete l hc (buildAddrMap l) ([], []) (k, g₁)
      hg₁ h2 q.1 hqg (by rw [← hpc]; omega))
  · exact hpnr (processGroups_removed_complete l hc (buildAddrMap l) ([], []) (k, g₁)
      hg₁ h2 p.1 hpg hpc)

/-- Pass B is inert on a list with pairwise-separated address keys. -/
theorem passB_fixed (hc : HistCols) (l : List Rec)
    (hp : l.Pairwise addrSeparated) :
    deduplicate_by_address hc l = (l, []) := by
  have hsmall : ∀ kg ∈ buildAddrMap l, kg.2.length ≤ 1 := by
    intro kg hkg
    by_contra hlen
    push_neg at hlen
    have hnd : kg.2.Nodup := by
      refine abFold_nodup l 0 [] (by simp) kg ?_
      exact hkg
    obtain ⟨j₁, hj₁, j₂, hj₂, hne⟩ := group_two kg.2 hnd hlen
    obtain ⟨r₁, hr₁, hk₁⟩ := buildAddrMap_mem l kg hkg j₁ hj₁
    obtain ⟨r₂, hr₂, hk₂⟩ := buildAddrMap_mem l kg hkg j₂ hj₂
    obtain ⟨hlt₁, he₁⟩ := List.getElem?_eq_some.1 (List.mem_enum_iff_getElem?.1 hr₁)
    obtain ⟨hlt₂, he₂⟩ := List.getElem?_eq_some.1 (List.mem_enum_iff_getElem?.1 hr₂)
    have hpg := List.pairwise_iff_getElem.1 hp
    rcases Nat.lt_or_ge j₁ j₂ with hlt | hge
    · exact (hpg j₁ j₂ hlt₁ hlt₂ hlt) kg.1 (he₁ ▸ hk₁) (he₂ ▸ hk₂)
    · have hlt' : j₂ < j₁ := by omega
      exact (hpg j₂ j₁ hlt₂ hlt₁ hlt') kg.1 (he₂ ▸ hk₂) (he₁ ▸ hk₁)
  have hpg0 : processGroups l hc (buildAddrMap l) = ([], []) :=
    processGroups_small l hc (buildAddrMap l) hsmall ([], [])
  unfold deduplicate_by_address
  rw [hpg0]
  simp [keptFromRemoved_nil]

/-- C4: the Deduplicator (Pass A then Pass B) is idempotent — re-running it
on its own survivor list removes nothing and emits no audit entries. -/
theorem dedup_idempotent (hc : HistCols) (recs s : List Rec)
    (a : List AuditEntry) (h : runDeduplicator hc recs = some (s, a)) :
    runDeduplicator hc s = some (s, []) := by
  unfold runDeduplicator at h
  rcases h1 : deduplicate_by_instagram hc recs with _ | p1
  · rw [h1] at h
    simp at h
  · rw [h1] at h
    rcases p1 with ⟨s1, a1⟩
    simp only [Option.some.injEq] at h
    have hs : s = (deduplicate_by_address hc s1).1 := (congrArg Prod.fst h).symm
    have hAsep : s1.Pairwise handleSeparated :=
      passA_survivors_separated hc recs s1 a1 h1
    have hsub1 : s.Sublist s1 := hs ▸ dedupAddr_sublist hc s1
    have hAsep' : s.Pairwise handleSeparated := List.Pairwise.sublist hsub1 hAsep
    have hBsep : s.Pairwise addrSeparated := hs ▸ passB_survivors_separated hc s1
    obtain ⟨m, hbm, hs1, _⟩ := dedupInsta_eq hc recs s1 a1 h1
    have hsubr : s1.Sublist recs := hs1 ▸ keptFromRemoved_sublist recs _
    have hksome : ∀ r ∈ s, (instaKey r).isSome = true := fun r hr =>
      buildInstaMap_some recs 0 [] m hbm r (hsubr.subset (hsub1.subset hr))
    have hA2 := passA_fixed hc s hksome hAsep'
    have hB2 : deduplicate_by_address hc s = (s, []) := passB_fixed hc s hBsep
    unfold runDeduplicator
    rw [hA2]
    simp [hB2]

/-- Witness for `dedup_idempotent`: two records with the same handle; the
first application keeps one, the second application is inert. -/
theorem dedup_idempotent_witness :
    runDeduplicator ⟨true, true, true⟩
      [{ defaultRec with instagram := some (strL "@foo") },
       { defaultRec with instagram := some (strL "foo ") }] =
      some ([{ defaultRec with instagram := some (strL "@foo") }],
        [⟨0, [1], false⟩]) ∧
    runDeduplicator ⟨true, true, true⟩
      [{ defaultRec with instagram := some (strL "@foo") }] =
      some ([{ defaultRec with instagram := some (strL "@foo") }], []) :=
  ⟨by decide,
    dedup_idempotent ⟨true, true, true⟩
      [{ defaultRec with instagram := some (strL "@foo") },
       { defaultRec with instagram := some (strL "foo ") }]
      [{ defaultRec with instagram := some (strL "@foo") }]
      [⟨0, [1], false⟩] (by decide)⟩

/-!
## Claim C1: cluster exclusivity — record_cluster lookups
-/

/-- Functional membership: each index belongs to at most one cluster entry. -/
def ClustersSep (cl : List (Nat × List Nat)) : Prop :=
  ∀ p ∈ cl, ∀ q ∈ cl, ∀ m, m ∈ p.2 → m ∈ q.2 → p = q

/-- Dict write then read at the same key. -/
theorem lookupAssoc_setKV_self (m : List (Nat × Nat)) (k v : Nat) :
    lookupAssoc (setKV m k v) k = some v := by
  induction m with
  | nil => simp [setKV, lookupAssoc]
  | cons hd tl ih =>
    by_cases hk : hd.1 = k
    · rw [setKV, if_pos hk]
      simp [lookupAssoc]
    · rw [setKV, if_neg hk]
      unfold lookupAssoc at ih ⊢
      rw [List.find?_cons_of_neg _ (by simpa using hk)]
      exact ih

/-- Dict write then read at another key. -/
theorem lookupAssoc_setKV_ne (m : List (Nat × Nat)) (k v k' : Nat)
    (h : k' ≠ k) : lookupAssoc (setKV m k v) k' = lookupAssoc m k' := by
  induction m with
  | nil =>
    unfold lookupAssoc setKV
    rw [List.find?_cons_of_neg _ (by simp [Ne.symm h])]
  | cons hd tl ih =>
    by_cases hk : hd.1 = k
    · rw [setKV, if_pos hk]
      unfold lookupAssoc
      rw [List.find?_cons_of_neg _ (by simp [Ne.symm h]),
        List.find?_cons_of_neg _ (by simp [hk, Ne.symm h])]
    · rw [setKV, if_neg hk]
      unfold lookupAssoc at ih ⊢
      by_cases hx : hd.1 = k'
      · rw [List.find?_cons_of_pos _ (by simpa using hx),
          List.find?_cons_of_pos _ (by simpa using hx)]
      · rw [List.find?_cons_of_neg _ (by simpa using hx),
          List.find?_cons_of_neg _ (by simpa using hx)]
        exact ih

/-- Reading back after writing a whole member list. -/
theorem rcStep_lookup (p : Nat × List Nat) (m : List (Nat × Nat)) (j : Nat) :
    lookupAssoc (rcStep m p) j = if j ∈ p.2 then some p.1 else lookupAssoc m j := by
  unfold rcStep
  rcases p with ⟨c, g⟩
  simp only
  induction g generalizing m with
  | nil => simp
  | cons x g' ih =>
    rw [List.foldl_cons, ih]
    by_cases hx : j = x
    · subst hx
      by_cases hg : j ∈ g'
      · simp [hg]
      · simp [hg, lookupAssoc_setKV_self]
    · by_cases hg : j ∈ g'
      · simp [hg, hx]
      · simp [hg, hx, lookupAssoc_setKV_ne m x c j hx]

/-- Clusters not containing `j` leave its binding alone. -/
theorem bRC_untouched (cl : List (Nat × List Nat)) :
    ∀ (m : List (Nat × Nat)) (j : Nat), (∀ p ∈ cl, j ∉ p.2) →
      lookupAssoc (cl.foldl rcStep m) j = lookupAssoc m j := by
  induction cl with
  | nil => intro m j _; rfl
  | cons p rest ih =>
    intro m j h
    rw [List.foldl_cons, ih (rcStep m p) j (fun q hq => h q (List.mem_cons_of_mem _ hq)),
      rcStep_lookup, if_neg (h p (List.mem_cons_self _ _))]

/-- With functional membership, `record_cluster` maps each member to its
cluster id. -/
theorem bRC_lookup (cl : List (Nat × List Nat)) :
    ∀ (m : List (Nat × Nat)) (cid : Nat) (g : List Nat) (j : Nat),
      (cid, g) ∈ cl → j ∈ g → (∀ p ∈ cl, j ∈ p.2 → p = (cid, g)) →
      lookupAssoc (cl.foldl rcStep m) j = some cid := by
  induction cl with
  | nil => intro m cid g j hg; simp at hg
  | cons p rest ih =>
    intro m cid g j hg hj huniq
    rw [List.foldl_cons]
    by_cases hex : ∃ q ∈ rest, j ∈ q.2
    · obtain ⟨q, hq, hjq⟩ := hex
      have hqe : q = (cid, g) := huniq q (List.mem_cons_of_mem _ hq) hjq
      refine ih (rcStep m p) cid g j (hqe ▸ hq) hj ?_
      intro p' hp' hjp'
      exact huniq p' (List.mem_cons_of_mem _ hp') hjp'
    · push_neg at hex
      have hpe : p = (cid, g) := by
        rcases List.mem_cons.1 hg with he | hg'
        · exact he.symm
        · exact absurd hj (hex (cid, g) hg')
      rw [bRC_untouched rest (rcStep m p) j hex, rcStep_lookup, hpe,
        if_pos hj]

/-- `record_cluster` lookup for members of separated clusters. -/
theorem buildRecordCluster_lookup (cl : List (Nat × List Nat))
    (hCS : ClustersSep cl) (cid : Nat) (g : List Nat) (j : Nat)
    (hg : (cid, g) ∈ cl) (hj : j ∈ g) :
    lookupAssoc (buildRecordCluster cl) j = some cid := by
  unfold buildRecordCluster
  exact bRC_lookup cl [] cid g j hg hj
    (fun p hp hjp => hCS p hp (cid, g) hg j hjp hj)

/-!
## Claim C1: well-formedness of `identify_clusters` output
-/

/-- The invariant of the `identify_clusters` loop before processing
record `i`. -/
def ICInv (i : Nat) (st : ICState) : Prop :=
  1 ≤ st.nextId ∧
  (st.clusters.map Prod.fst).Nodup ∧
  st.clusters.Pairwise (fun p q => ∀ m, m ∈ p.2 → m ∉ q.2) ∧
  ∀ p ∈ st.clusters, p.2.Nodup ∧ (∀ m ∈ p.2, m < i) ∧ 1 ≤ p.1 ∧ p.1 < st.nextId

/-- `appendMember` does not change the keys. -/
theorem appendMember_keys (cl : List (Nat × List Nat)) (cid i : Nat) :
    (appendMember cl cid i).map Prod.fst = cl.map Prod.fst := by
  unfold appendMember
  rw [List.map_map]
  apply List.map_congr_left
  intro p _
  by_cases hp : p.1 = cid <;> simp [hp]

/-- `icStep` preserves the loop invariant. -/
theorem icStep_inv (st : ICState) (i : Nat) (r : Rec) (st' : ICState)
    (h : icStep st i r = some st') (hinv : ICInv i st) : ICInv (i + 1) st' := by
  obtain ⟨hnext, hkeys, hpw, hent⟩ := hinv
  unfold icStep at h
  rcases hn : normalize_instagram (instaField r) with _ | insta_i
  · rw [hn] at h
    simp at h
  · rw [hn] at h
    simp only at h
    rcases hf : icFindAux st.keys st.rtc (nameOf r, insta_i, addrOf r) (List.range i)
      with _ | cid
    · rw [hf] at h
      simp only [Option.some.injEq] at h
      subst h
      refine ⟨Nat.le_succ_of_le hnext, ?_, ?_, ?_⟩
      · simp only [List.map_append, List.map_cons, List.map_nil]
        rw [List.nodup_append]
        refine ⟨hkeys, by simp, ?_⟩
        intro a ha hb
        simp at hb
        subst hb
        obtain ⟨p, hp, hpa⟩ := List.mem_map.1 ha
        exact absurd (hpa ▸ (hent p hp).2.2.2) (by omega)
      · rw [List.pairwise_append]
        refine ⟨hpw, by simp, ?_⟩
        intro a ha b hb m hma
        simp at hb
        subst hb
        simp only [List.mem_singleton]
        intro hmi
        exact absurd ((hent a ha).2.1 m hma) (by omega)
      · intro p hp
        rcases List.mem_append.1 hp with hp' | hp'
        · obtain ⟨h1, h2, h3, h4⟩ := hent p hp'
          exact ⟨h1, fun m hm => Nat.lt_succ_of_lt (h2 m hm), h3, by simpa using Nat.lt_succ_of_lt h4⟩
        · simp at hp'
          subst hp'
          refine ⟨by simp, ?_, ?_, ?_⟩
          · intro m hm
            simp at hm
            omega
          · exact hnext
          · exact Nat.lt_succ_self _
    · rw [hf] at h
      simp only [Option.some.injEq] at h
      subst h
      simp only [ICInv, appendMember_keys]
      refine ⟨hnext, hkeys, ?_, ?_⟩
      · unfold appendMember
        rw [List.pairwise_iff_getElem] at hpw ⊢
        intro k₁ k₂ hk₁ hk₂ hlt
        rw [List.length_map] at hk₁ hk₂
        rw [List.getElem_map, List.getElem_map]
        have hdisj := hpw k₁ k₂ hk₁ hk₂ hlt
        have hkne : (st.clusters[k₁]).1 ≠ (st.clusters[k₂]).1 := by
          have hndk := hkeys
          rw [List.Nodup, List.pairwise_iff_getElem] at hndk
          have := hndk k₁ k₂ (by simpa using hk₁) (by simpa using hk₂) hlt
          simpa using this
        have hm₁ := fun m hm => ((hent _ (List.getElem_mem hk₁)).2.1 m hm)
        have hm₂ := fun m hm => ((hent _ (List.getElem_mem hk₂)).2.1 m hm)
        by_cases h₁ : (st.clusters[k₁]).1 = cid <;>
          by_cases h₂ : (st.clusters[k₂]).1 = cid
        · exact absurd (h₁.trans h₂.symm) hkne
        · simp only [h₁, if_pos, h₂, if_neg, if_false]
          intro m hm
          rcases List.mem_append.1 hm with hm' | hm'
          · exact hdisj m hm'
          · simp at hm'
            subst hm'
            intro hmc
            exact absurd (hm₂ m hmc) (by omega)
        · simp only [h₁, if_neg, h₂, if_pos, if_false]
          intro m hm hmc
          rcases List.mem_append.1 hmc with hm' | hm'
          · exact hdisj m hm hm'
          · simp at hm'
            subst hm'
            exact absurd (hm₁ m hm) (by omega)
        · simp only [h₁, h₂, if_neg, if_false]
          exact hdisj
      · intro p hp
        obtain ⟨q, hq, hqp⟩ := List.mem_map.1 hp
        obtain ⟨h1, h2, h3, h4⟩ := hent q hq
        by_cases hqc : q.1 = cid
        · rw [if_pos hqc] at hqp
          subst hqp
          refine ⟨?_, ?_, h3, h4⟩
          · rw [List.nodup_append]
            refine ⟨h1, by simp, ?_⟩
            intro a ha hb
            simp at hb
            subst hb
            exact absurd (h2 a ha) (by omega)
          · intro m hm
            rcases List.mem_append.1 hm with hm' | hm'
            · exact Nat.lt_succ_of_lt (h2 m hm')
            · simp at hm'
              omega
        · rw [if_neg hqc] at hqp
          subst hqp
          exact ⟨h1, fun m hm => Nat.lt_succ_of_lt (h2 m hm), h3, h4⟩

/-- `icFold` preserves the loop invariant across the remaining records. -/
theorem icFold_inv (l : List Rec) :
    ∀ (i : Nat) (st st' : ICState), icFold l i st = some st' →
      ICInv i st → ICInv (i + l.length) st' := by
  induction l with
  | nil =>
    intro i st st' h hinv
    unfold icFold at h
    simp only [Option.some.injEq] at h
    simpa using h ▸ hinv
  | cons r rest ih =>
    intro i st st' h hinv
    unfold icFold at h
    rcases hs : icStep st i r with _ | st₁
    · rw [hs] at h
      simp at h
    · rw [hs] at h
      have := ih (i + 1) st₁ st' h (icStep_inv st i r st₁ hs hinv)
      simpa [Nat.add_comm, Nat.add_assoc, Nat.add_left_comm] using this

/-- Pairwise-disjoint cluster lists give functional membership. -/
theorem pairwise_disj_sep (cl : List (Nat × List Nat))
    (h : cl.Pairwise (fun p q => ∀ m, m ∈ p.2 → m ∉ q.2)) : ClustersSep cl := by
  intro p hp q hq m hmp hmq
  obtain ⟨k₁, hk₁, he₁⟩ := List.mem_iff_getElem.1 hp
  obtain ⟨k₂, hk₂, he₂⟩ := List.mem_iff_getElem.1 hq
  rw [List.pairwise_iff_getElem] at h
  rcases Nat.lt_trichotomy k₁ k₂ with hlt | heq | hgt
  · exact absurd hmq (he₂ ▸ (h k₁ k₂ hk₁ hk₂ hlt) m (he₁ ▸ hmp))
  · subst heq
    rw [← he₁, ← he₂]
  · exact absurd hmp (he₁ ▸ (h k₂ k₁ hk₂ hk₁ hgt) m (he₂ ▸ hmq))

/-- Well-formedness of the `identify_clusters` output: functional
membership, duplicate-free member lists, members in range, positive ids. -/
theorem identify_clusters_wf (recs : List Rec) (cl : List (Nat × List Nat))
    (h : identify_clusters recs = some cl) :
    ClustersSep cl ∧ ∀ p ∈ cl, p.2.Nodup ∧ (∀ m ∈ p.2, m < recs.length) ∧ 1 ≤ p.1 := by
  unfold identify_clusters at h
  rcases hf : icFold recs 0 ⟨[], [], 1, []⟩ with _ | st
  · rw [hf] at h
    simp at h
  · rw [hf] at h
    simp only [Option.map_some', Option.some.injEq] at h
    subst h
    have hinv := icFold_inv recs 0 ⟨[], [], 1, []⟩ st hf
      ⟨by simp, by simp, by simp, by simp⟩
    obtain ⟨_, _, hpw, hent⟩ := hinv
    constructor
    · exact pairwise_disj_sep _
        (List.Pairwise.sublist (List.filter_sublist _) hpw)
    · intro p hp
      have hp' := List.mem_of_mem_filter hp
      obtain ⟨h1, h2, h3, _⟩ := hent p hp'
      exact ⟨h1, by simpa using h2, h3⟩

/-!
## Claim C1: list-of-blocks access helpers
-/

/-- `getD` after `set` at the written index. -/
theorem getD_set_self {α : Type} (l : List α) (k : Nat) (v d : α)
    (h : k < l.length) : (l.set k v).getD k d = v := by
  rw [List.getD_eq_getElem?_getD, List.getElem?_set_self h]
  rfl

/-- `getD` after `set` at another index. -/
theorem getD_set_ne {α : Type} (l : List α) (k m : Nat) (v d : α)
    (h : m ≠ k) : (l.set k v).getD m d = l.getD m d := by
  rw [List.getD_eq_getElem?_getD, List.getD_eq_getElem?_getD,
    List.getElem?_set_ne (Ne.symm h)]

/-- `getD` inside the left part of an append. -/
theorem getD_append_lt {α : Type} (l l' : List α) (k : Nat) (d : α)
    (h : k < l.length) : (l ++ l').getD k d = l.getD k d := by
  rw [List.getD_eq_getElem?_getD, List.getD_eq_getElem?_getD,
    List.getElem?_append_left h]

/-- `getD` at the first appended position. -/
theorem getD_append_len {α : Type} (l : List α) (w d : α) :
    (l ++ [w]).getD l.length d = w := by
  rw [List.getD_eq_getElem?_getD, List.getElem?_append_right (Nat.le_refl _)]
  simp

/-- `getD` beyond the length gives the default. -/
theorem getD_eq_default_of_le {α : Type} (l : List α) (k : Nat) (d : α)
    (h : l.length ≤ k) : l.getD k d = d := by
  rw [List.getD_eq_getElem?_getD, List.getElem?_eq_none h]
  rfl

/-- `getD` below the length is the element. -/
theorem getD_eq_getElem_of_lt {α : Type} (l : List α) (k : Nat) (d : α)
    (h : k < l.length) : l.getD k d = l[k] := by
  rw [List.getD_eq_getElem?_getD, List.getElem?_eq_getElem h]
  rfl

/-- A nonempty `getD` slot is in range. -/
theorem lt_length_of_mem_getD {α : Type} (l : List (List α)) (k : Nat) (x : α)
    (h : x ∈ l.getD k []) : k < l.length := by
  by_contra hk
  push_neg at hk
  rw [getD_eq_default_of_le l k [] hk] at h
  simp at h

/-- Slot membership is list membership of a block. -/
theorem mem_getD_iff (l : List (List Nat)) (idx : Nat) :
    (∃ k, idx ∈ l.getD k []) ↔ ∃ b ∈ l, idx ∈ b := by
  constructor
  · rintro ⟨k, hk⟩
    have hlt := lt_length_of_mem_getD l k idx hk
    rw [getD_eq_getElem_of_lt l k [] hlt] at hk
    exact ⟨l[k], List.getElem_mem hlt, hk⟩
  · rintro ⟨b, hb, hidx⟩
    obtain ⟨k, hk, he⟩ := List.mem_iff_getElem.1 hb
    refine ⟨k, ?_⟩
    rw [getD_eq_getElem_of_lt l k [] hk, he]
    exact hidx

/-- Element-wise disjointness of two blocks. -/
def BDisj (a b : List Nat) : Prop := ∀ idx ∈ a, idx ∉ b

/-- Pairwise-disjoint blocks: membership at one position excludes all
others. -/
theorem disj_getD (l : List (List Nat)) (h : l.Pairwise BDisj) (k1 k2 : Nat)
    (hne : k1 ≠ k2) (idx : Nat) (h1 : idx ∈ l.getD k1 []) :
    idx ∉ l.getD k2 [] := by
  intro h2
  have hk1 := lt_length_of_mem_getD l k1 idx h1
  have hk2 := lt_length_of_mem_getD l k2 idx h2
  rw [getD_eq_getElem_of_lt l k1 [] hk1] at h1
  rw [getD_eq_getElem_of_lt l k2 [] hk2] at h2
  rw [List.pairwise_iff_getElem] at h
  rcases Nat.lt_trichotomy k1 k2 with hlt | heq | hgt
  · exact h k1 k2 hk1 hk2 hlt idx h1 h2
  · exact hne heq
  · exact h k2 k1 hk2 hk1 hgt idx h2 h1

/-- An element of a `set` result, via `getD`. -/
theorem getElem_set_eq_getD (l : List (List Nat)) (k a : Nat) (v : List Nat)
    (ha : a < (l.set k v).length) :
    (l.set k v)[a] = if a = k then v else l.getD a [] := by
  have ha' : a < l.length := by simpa using ha
  by_cases hak : a = k
  · subst hak
    rw [if_pos rfl]
    have h1 : (l.set a v)[a]? = some v := List.getElem?_set_self ha'
    rw [List.getElem?_eq_getElem ha] at h1
    exact Option.some.inj h1
  · rw [if_neg hak]
    have h1 : (l.set k v)[a]? = l[a]? :=
      List.getElem?_set_ne (fun he => hak he.symm)
    rw [List.getElem?_eq_getElem ha, List.getElem?_eq_getElem ha'] at h1
    rw [getD_eq_getElem_of_lt l a [] ha']
    exact Option.some.inj h1

/-- Replacing a block by a subset of itself keeps blocks disjoint. -/
theorem pairwise_bdisj_set_sub (l : List (List Nat)) (k : Nat) (v : List Nat)
    (hpw : l.Pairwise BDisj) (hv : ∀ idx ∈ v, idx ∈ l.getD k []) :
    (l.set k v).Pairwise BDisj := by
  rw [List.pairwise_iff_getElem]
  intro a b ha hb hab
  rw [getElem_set_eq_getD l k a v ha, getElem_set_eq_getD l k b v hb]
  by_cases hak : a = k <;> by_cases hbk : b = k
  · exact absurd (hak.trans hbk.symm) (Nat.ne_of_lt hab)
  · rw [if_pos hak, if_neg hbk]
    intro idx hidx
    exact disj_getD l hpw k b (fun he => hbk he.symm) idx (hv idx hidx)
  · rw [if_neg hak, if_pos hbk]
    intro idx hidx h2
    exact disj_getD l hpw a k hak idx hidx (hv idx h2)
  · rw [if_neg hak, if_neg hbk]
    exact fun idx hidx => disj_getD l hpw a b (Nat.ne_of_lt hab) idx hidx

/-- Appending fresh indices to one block keeps blocks disjoint. -/
theorem pairwise_bdisj_set_append (l : List (List Nat)) (k : Nat) (w : List Nat)
    (hpw : l.Pairwise BDisj)
    (hw : ∀ idx ∈ w, ∀ m, m ≠ k → idx ∉ l.getD m []) :
    (l.set k (l.getD k [] ++ w)).Pairwise BDisj := by
  rw [List.pairwise_iff_getElem]
  intro a b ha hb hab
  rw [getElem_set_eq_getD _ _ _ _ ha, getElem_set_eq_getD _ _ _ _ hb]
  by_cases hak : a = k <;> by_cases hbk : b = k
  · exact absurd (hak.trans hbk.symm) (Nat.ne_of_lt hab)
  · rw [if_pos hak, if_neg hbk]
    intro idx hidx
    rcases List.mem_append.1 hidx with h1 | h1
    · exact disj_getD l hpw k b (fun he => hbk he.symm) idx h1
    · exact hw idx h1 b hbk
  · rw [if_neg hak, if_pos hbk]
    intro idx hidx h2
    rcases List.mem_append.1 h2 with h1 | h1
    · exact disj_getD l hpw a k hak idx hidx h1
    · exact hw idx h1 a hak hidx
  · rw [if_neg hak, if_neg hbk]
    exact fun idx hidx => disj_getD l hpw a b (Nat.ne_of_lt hab) idx hidx

/-- Appending a fresh singleton block keeps blocks disjoint. -/
theorem pairwise_bdisj_append_fresh (l : List (List Nat)) (w : List Nat)
    (hpw : l.Pairwise BDisj) (hw : ∀ idx ∈ w, ∀ m, idx ∉ l.getD m []) :
    (l ++ [w]).Pairwise BDisj := by
  rw [List.pairwise_append]
  refine ⟨hpw, by simp, ?_⟩
  intro a ha b hb idx hidx
  simp only [List.mem_singleton] at hb
  subst hb
  intro h2
  obtain ⟨k, hk, he⟩ := List.mem_iff_getElem.1 ha
  refine hw idx h2 k ?_
  rw [getD_eq_getElem_of_lt l k [] hk, he]
  exact hidx

/-- `set.add` contains the added element. -/
theorem mem_insertSet_self (l : List Nat) (x : Nat) : x ∈ insertSet l x := by
  unfold insertSet
  split
  · next h => simpa using h
  · exact List.mem_append_right _ (List.mem_singleton.2 rfl)

/-- `set.add` keeps the old elements. -/
theorem mem_insertSet_of_mem (l : List Nat) (x y : Nat) (h : y ∈ l) :
    y ∈ insertSet l x := by
  unfold insertSet
  split
  · exact h
  · exact List.mem_append_left _ h

/-- Elements of a `set.add` result. -/
theorem mem_insertSet_cases (l : List Nat) (x y : Nat) (h : y ∈ insertSet l x) :
    y ∈ l ∨ y = x := by
  unfold insertSet at h
  split at h
  · exact Or.inl h
  · rcases List.mem_append.1 h with h1 | h1
    · exact Or.inl h1
    · exact Or.inr (List.mem_singleton.1 h1)

/-- Membership in a `set.discard` result. -/
theorem mem_discardSet (l : List Nat) (x y : Nat) :
    y ∈ discardSet l x ↔ y ∈ l ∧ y ≠ x := by
  unfold discardSet
  simp [List.mem_filter]

/-- A falsy `dict.get` is `None` or `0`. -/
theorem getD_zero_eq_some (o : Option Nat) (c : Nat) (h : o.getD 0 = c)
    (hc : c ≠ 0) : o = some c := by
  rcases o with _ | v
  · exact absurd h.symm (by simpa using hc)
  · simpa using h

/-- A falsy `dict.get` result equals no nonzero id. -/
theorem getD_zero_ne (o : Option Nat) (h : o.getD 0 = 0) (c : Nat)
    (hc : c ≠ 0) : o ≠ some c := by
  rcases o with _ | v
  · simp
  · simp only [Option.getD_some] at h
    subst h
    simp [Ne.symm hc]

/-!
## Claim C1: facts about the cluster/standalone split
-/

/-- Invariant of the `cluster_records`/`standalone_records` split after
processing records `0..i-1`: distinct nonzero keys, duplicate-free member
lists keyed by their `record_cluster` id, duplicate-free standalone list of
falsy-id records, and full coverage of the processed range. -/
def SRInv (rc : List (Nat × Nat)) (i : Nat)
    (acc : List (Nat × List Nat) × List Nat) : Prop :=
  (acc.1.map Prod.fst).Nodup ∧
  (∀ p ∈ acc.1, p.1 ≠ 0 ∧ p.2.Nodup ∧
    ∀ idx ∈ p.2, idx < i ∧ (lookupAssoc rc idx).getD 0 = p.1) ∧
  (acc.2.Nodup ∧ ∀ idx ∈ acc.2, idx < i ∧ (lookupAssoc rc idx).getD 0 = 0) ∧
  (∀ idx, idx < i → (∃ p ∈ acc.1, idx ∈ p.2) ∨ idx ∈ acc.2)

/-- The split loop body preserves the split invariant. -/
theorem srStep_inv (rc : List (Nat × Nat)) (i : Nat)
    (acc : List (Nat × List Nat) × List Nat) (h : SRInv rc i acc) :
    SRInv rc (i + 1) (srStep rc acc i) := by
  obtain ⟨hku, hcr, ⟨hsand, hsa⟩, hcov⟩ := h
  by_cases hc : (lookupAssoc rc i).getD 0 = 0
  · have hstep : srStep rc acc i = (acc.1, acc.2 ++ [i]) := by
      unfold srStep
      rw [if_neg (not_not_intro hc)]
    rw [hstep]
    refine ⟨hku, ?_, ⟨?_, ?_⟩, ?_⟩
    · intro p hp
      obtain ⟨h1, h2, h3⟩ := hcr p hp
      exact ⟨h1, h2, fun idx hidx =>
        ⟨Nat.lt_succ_of_lt (h3 idx hidx).1, (h3 idx hidx).2⟩⟩
    · rw [List.nodup_append]
      refine ⟨hsand, by simp, ?_⟩
      intro a ha hb
      simp only [List.mem_singleton] at hb
      subst hb
      exact absurd (hsa a ha).1 (by omega)
    · intro idx hidx
      rcases List.mem_append.1 hidx with h1 | h1
      · exact ⟨Nat.lt_succ_of_lt (hsa idx h1).1, (hsa idx h1).2⟩
      · simp only [List.mem_singleton] at h1
        subst h1
        exact ⟨Nat.lt_succ_self _, hc⟩
    · intro idx hidx
      rcases Nat.lt_succ_iff_lt_or_eq.1 hidx with h1 | h1
      · rcases hcov idx h1 with h2 | h2
        · exact Or.inl h2
        · exact Or.inr (List.mem_append_left _ h2)
      · subst h1
        exact Or.inr (List.mem_append_right _ (by simp))
  · have hstep : srStep rc acc i =
        (upsertKV acc.1 ((lookupAssoc rc i).getD 0) i, acc.2) := by
      unfold srStep
      rw [if_pos hc]
    rw [hstep]
    refine ⟨upsertKV_KU _ _ _ hku, ?_, ⟨hsand, fun idx hidx =>
      ⟨Nat.lt_succ_of_lt (hsa idx hidx).1, (hsa idx hidx).2⟩⟩, ?_⟩
    · intro p hp
      have hnd := upsertKV_nodup_bound acc.1 ((lookupAssoc rc i).getD 0) i
        (fun kg hkg => ⟨(hcr kg hkg).2.1, fun j hj => ((hcr kg hkg).2.2 j hj).1⟩)
        p hp
      refine ⟨?_, hnd.1, ?_⟩
      · have hkey : p.1 ∈ (upsertKV acc.1 ((lookupAssoc rc i).getD 0) i).map
            Prod.fst := List.mem_map.2 ⟨p, hp, rfl⟩
        rcases (upsertKV_keys_mem acc.1 _ i p.1).1 hkey with h1 | h1
        · obtain ⟨q, hq, hq1⟩ := List.mem_map.1 h1
          exact hq1 ▸ (hcr q hq).1
        · exact h1 ▸ hc
      · intro idx hidx
        refine ⟨hnd.2 idx hidx, ?_⟩
        rcases upsertKV_mem_cases acc.1 _ i p hp idx hidx with ⟨q, hq, hq1, hq2⟩ | ⟨h1, h2⟩
        · exact hq1 ▸ ((hcr q hq).2.2 idx hq2).2
        · subst h1
          exact h2.symm
    · intro idx hidx
      rcases Nat.lt_succ_iff_lt_or_eq.1 hidx with h1 | h1
      · rcases hcov idx h1 with ⟨p, hp, hin⟩ | h2
        · obtain ⟨g', hg', hin'⟩ := upsertKV_pres acc.1 _ i p.1 p.2 idx hp hin
          exact Or.inl ⟨(p.1, g'), hg', hin'⟩
        · exact Or.inr h2
      · subst h1
        obtain ⟨g, hg, hig⟩ := upsertKV_adds acc.1 ((lookupAssoc rc idx).getD 0) idx
        exact Or.inl ⟨(_, g), hg, hig⟩

/-- Unfolding the split at the last record. -/
theorem splitRecords_succ (rc : List (Nat × Nat)) (n : Nat) :
    splitRecords rc (n + 1) = srStep rc (splitRecords rc n) n := by
  unfold splitRecords
  rw [List.range_succ, List.foldl_append]
  rfl

/-- The split invariant holds of the full split. -/
theorem splitRecords_inv (rc : List (Nat × Nat)) (n : Nat) :
    SRInv rc n (splitRecords rc n) := by
  induction n with
  | zero =>
    refine ⟨by simp [splitRecords], by simp [splitRecords], ⟨by simp [splitRecords],
      by simp [splitRecords]⟩, ?_⟩
    intro idx hidx
    exact absurd hidx (by omega)
  | succ m ih =>
    rw [splitRecords_succ]
    exact srStep_inv rc m _ ih

/-!
## Claim C1: the distributor invariant
-/

/-- `cluster_id == cid` test against `record_cluster`. -/
def cidP (rc : List (Nat × Nat)) (cid idx : Nat) : Bool :=
  decide (lookupAssoc rc idx = some cid)

/-- The distributor invariant while `block_clusters` is aligned with
`blocks`: lengths agree, blocks are pairwise-disjoint duplicate-free lists
of in-range indices, each block holds at most one member of every cluster,
and each clustered member's id is recorded in its block's cluster set. -/
def DInv (n : Nat) (rc : List (Nat × Nat)) (st : DState) : Prop :=
  st.bcl.length = st.blocks.length ∧
  st.blocks.Pairwise BDisj ∧
  (∀ b ∈ st.blocks, b.Nodup ∧ ∀ idx ∈ b, idx < n) ∧
  (∀ b ∈ st.blocks, ∀ cid, cid ≠ 0 → b.countP (cidP rc cid) ≤ 1) ∧
  (∀ k, ∀ idx ∈ st.blocks.getD k [], ∀ cid, lookupAssoc rc idx = some cid →
    cid ≠ 0 → cid ∈ st.bcl.getD k [])

/-- The post-cleanup invariant (`block_clusters` no longer consulted). -/
def CInv (n : Nat) (rc : List (Nat × Nat)) (st : DState) : Prop :=
  st.blocks.Pairwise BDisj ∧
  (∀ b ∈ st.blocks, b.Nodup ∧ ∀ idx ∈ b, idx < n) ∧
  (∀ b ∈ st.blocks, ∀ cid, cid ≠ 0 → b.countP (cidP rc cid) ≤ 1)

/-- Membership of a record index in some block. -/
def memB (blocks : List (List Nat)) (idx : Nat) : Prop :=
  ∃ k, idx ∈ blocks.getD k []

/-- The aligned invariant implies the post-cleanup one. -/
theorem DInv_CInv (n : Nat) (rc : List (Nat × Nat)) (st : DState)
    (h : DInv n rc st) : CInv n rc st := ⟨h.2.1, h.2.2.1, h.2.2.2.1⟩

/-- A block whose cluster set avoids `cid` has no member of cluster `cid`. -/
theorem countP_zero_of_not_bcl (n : Nat) (rc : List (Nat × Nat)) (st : DState)
    (hinv : DInv n rc st) (k cid : Nat) (hcid : cid ≠ 0)
    (hnot : cid ∉ st.bcl.getD k []) :
    (st.blocks.getD k []).countP (cidP rc cid) = 0 := by
  rw [List.countP_eq_zero]
  intro idx hidx hP
  simp only [cidP, decide_eq_true_eq] at hP
  exact hnot (hinv.2.2.2.2 k idx hidx cid hP hcid)

/-- Adding a fresh clustered record to a block whose cluster set does not
contain its cluster preserves the distributor invariant. -/
theorem addToBlock_inv (n : Nat) (rc : List (Nat × Nat)) (st : DState)
    (hinv : DInv n rc st) (b idx cid : Nat)
    (hb : b < st.blocks.length)
    (hfresh : ∀ k, idx ∉ st.blocks.getD k [])
    (hn : idx < n) (hlook : lookupAssoc rc idx = some cid) (hcid : cid ≠ 0)
    (hnot : cid ∉ st.bcl.getD b []) :
    DInv n rc ⟨st.blocks.set b ((st.blocks.getD b []) ++ [idx]),
        st.bcl.set b (insertSet (st.bcl.getD b []) cid)⟩ ∧
      ∀ y, memB (st.blocks.set b ((st.blocks.getD b []) ++ [idx])) y ↔
        (y = idx ∨ memB st.blocks y) := by
  obtain ⟨hlen, hpw, hnd, hcnt, hsnd⟩ := hinv
  have hb2 : b < st.bcl.length := by omega
  have hgb : st.blocks.getD b [] ∈ st.blocks := by
    rw [getD_eq_getElem_of_lt _ _ _ hb]
    exact List.getElem_mem hb
  refine ⟨⟨by simpa using hlen, ?_, ?_, ?_, ?_⟩, ?_⟩
  · exact pairwise_bdisj_set_append st.blocks b [idx] hpw
      (fun i' hi' m _ => by
        simp only [List.mem_singleton] at hi'
        exact hi' ▸ hfresh m)
  · intro b' hb'
    rcases List.mem_or_eq_of_mem_set hb' with h1 | h1
    · exact hnd b' h1
    · subst h1
      constructor
      · rw [List.nodup_append]
        refine ⟨(hnd _ hgb).1, by simp, ?_⟩
        intro a ha hb3
        simp only [List.mem_singleton] at hb3
        subst hb3
        exact hfresh b ha
      · intro i' hi'
        rcases List.mem_append.1 hi' with h2 | h2
        · exact (hnd _ hgb).2 i' h2
        · simp only [List.mem_singleton] at h2
          exact h2 ▸ hn
  · intro b' hb' cid' hcid'
    rcases List.mem_or_eq_of_mem_set hb' with h1 | h1
    · exact hcnt b' h1 cid' hcid'
    · subst h1
      rw [List.countP_append]
      by_cases hcc : cid' = cid
      · subst hcc
        have hz : (st.blocks.getD b []).countP (cidP rc cid') = 0 :=
          countP_zero_of_not_bcl n rc st ⟨hlen, hpw, hnd, hcnt, hsnd⟩ b cid'
            hcid' hnot
        rw [hz]
        simp only [List.countP_cons, List.countP_nil]
        split <;> omega
      · have hzi : ([idx] : List Nat).countP (cidP rc cid') = 0 := by
          rw [List.countP_eq_zero]
          intro a ha
          simp only [List.mem_singleton] at ha
          subst ha
          simp only [cidP, decide_eq_true_eq, hlook]
          simp [Ne.symm hcc]
        rw [hzi]
        simpa using hcnt _ hgb cid' hcid'
  · intro k idx' hmem cid' hl' hc'
    by_cases hkb : k = b
    · subst hkb
      rw [getD_set_self st.blocks k _ _ hb] at hmem
      rw [getD_set_self st.bcl k _ _ hb2]
      rcases List.mem_append.1 hmem with h1 | h1
      · exact mem_insertSet_of_mem _ _ _ (hsnd k idx' h1 cid' hl' hc')
      · simp only [List.mem_singleton] at h1
        subst h1
        rw [hlook] at hl'
        rw [← Option.some.inj hl']
        exact mem_insertSet_self _ _
    · rw [getD_set_ne st.blocks b k _ _ hkb] at hmem
      rw [getD_set_ne st.bcl b k _ _ hkb]
      exact hsnd k idx' hmem cid' hl' hc'
  · intro y
    constructor
    · rintro ⟨k, hk⟩
      by_cases hkb : k = b
      · subst hkb
        rw [getD_set_self st.blocks k _ _ hb] at hk
        rcases List.mem_append.1 hk with h1 | h1
        · exact Or.inr ⟨k, h1⟩
        · simp only [List.mem_singleton] at h1
          exact Or.inl h1
      · rw [getD_set_ne st.blocks b k _ _ hkb] at hk
        exact Or.inr ⟨k, hk⟩
    · rintro (h1 | ⟨k, hk⟩)
      · subst h1
        refine ⟨b, ?_⟩
        rw [getD_set_self st.blocks b _ _ hb]
        exact List.mem_append_right _ (by simp)
      · by_cases hkb : k = b
        · subst hkb
          refine ⟨k, ?_⟩
          rw [getD_set_self st.blocks k _ _ hb]
          exact List.mem_append_left _ hk
        · refine ⟨k, ?_⟩
          rw [getD_set_ne st.blocks b k _ _ hkb]
          exact hk

/-- Adding a fresh standalone (falsy-cluster) record to an existing block
preserves the distributor invariant. -/
theorem addFalsyToBlock_inv (n : Nat) (rc : List (Nat × Nat)) (st : DState)
    (hinv : DInv n rc st) (b idx : Nat)
    (hb : b < st.blocks.length)
    (hfresh : ∀ k, idx ∉ st.blocks.getD k [])
    (hn : idx < n) (hlook : (lookupAssoc rc idx).getD 0 = 0) :
    DInv n rc ⟨st.blocks.set b ((st.blocks.getD b []) ++ [idx]), st.bcl⟩ ∧
      ∀ y, memB (st.blocks.set b ((st.blocks.getD b []) ++ [idx])) y ↔
        (y = idx ∨ memB st.blocks y) := by
  obtain ⟨hlen, hpw, hnd, hcnt, hsnd⟩ := hinv
  have hgb : st.blocks.getD b [] ∈ st.blocks := by
    rw [getD_eq_getElem_of_lt _ _ _ hb]
    exact List.getElem_mem hb
  refine ⟨⟨by simpa using hlen, ?_, ?_, ?_, ?_⟩, ?_⟩
  · exact pairwise_bdisj_set_append st.blocks b [idx] hpw
      (fun i' hi' m _ => by
        simp only [List.mem_singleton] at hi'
        exact hi' ▸ hfresh m)
  · intro b' hb'
    rcases List.mem_or_eq_of_mem_set hb' with h1 | h1
    · exact hnd b' h1
    · subst h1
      constructor
      · rw [List.nodup_append]
        refine ⟨(hnd _ hgb).1, by simp, ?_⟩
        intro a ha hb3
        simp only [List.mem_singleton] at hb3
        subst hb3
        exact hfresh b ha
      · intro i' hi'
        rcases List.mem_append.1 hi' with h2 | h2
        · exact (hnd _ hgb).2 i' h2
        · simp only [List.mem_singleton] at h2
          exact h2 ▸ hn
  · intro b' hb' cid' hcid'
    rcases List.mem_or_eq_of_mem_set hb' with h1 | h1
    · exact hcnt b' h1 cid' hcid'
    · subst h1
      rw [List.countP_append]
      have hzi : ([idx] : List Nat).countP (cidP rc cid') = 0 := by
        rw [List.countP_eq_zero]
        intro a ha
        simp only [List.mem_singleton] at ha
        subst ha
        simp only [cidP, decide_eq_true_eq]
        exact getD_zero_ne _ hlook cid' hcid'
      rw [hzi]
      simpa using hcnt _ hgb cid' hcid'
  · intro k idx' hmem cid' hl' hc'
    by_cases hkb : k = b
    · subst hkb
      rw [getD_set_self st.blocks k _ _ hb] at hmem
      rcases List.mem_append.1 hmem with h1 | h1
      · exact hsnd k idx' h1 cid' hl' hc'
      · simp only [List.mem_singleton] at h1
        subst h1
        exact absurd hl' (getD_zero_ne _ hlook cid' hc')
    · rw [getD_set_ne st.blocks b k _ _ hkb] at hmem
      exact hsnd k idx' hmem cid' hl' hc'
  · intro y
    constructor
    · rintro ⟨k, hk⟩
      by_cases hkb : k = b
      · subst hkb
        rw [getD_set_self st.blocks k _ _ hb] at hk
        rcases List.mem_append.1 hk with h1 | h1
        · exact Or.inr ⟨k, h1⟩
        · simp only [List.mem_singleton] at h1
          exact Or.inl h1
      · rw [getD_set_ne st.blocks b k _ _ hkb] at hk
        exact Or.inr ⟨k, hk⟩
    · rintro (h1 | ⟨k, hk⟩)
      · subst h1
        refine ⟨b, ?_⟩
        rw [getD_set_self st.blocks b _ _ hb]
        exact List.mem_append_right _ (by simp)
      · by_cases hkb : k = b
        · subst hkb
          refine ⟨k, ?_⟩
          rw [getD_set_self st.blocks k _ _ hb]
          exact List.mem_append_left _ hk
        · refine ⟨k, ?_⟩
          rw [getD_set_ne st.blocks b k _ _ hkb]
          exact hk

/-- Opening a fresh block for a clustered record preserves the invariant. -/
theorem addFreshBlockC_inv (n : Nat) (rc : List (Nat × Nat)) (st : DState)
    (hinv : DInv n rc st) (idx cid : Nat)
    (hfresh : ∀ k, idx ∉ st.blocks.getD k [])
    (hn : idx < n) (hlook : lookupAssoc rc idx = some cid)
    (_hcid : cid ≠ 0) :
    DInv n rc ⟨st.blocks ++ [[idx]], st.bcl ++ [[cid]]⟩ ∧
      ∀ y, memB (st.blocks ++ [[idx]]) y ↔ (y = idx ∨ memB st.blocks y) := by
  obtain ⟨hlen, hpw, hnd, hcnt, hsnd⟩ := hinv
  refine ⟨⟨by simp [hlen], ?_, ?_, ?_, ?_⟩, ?_⟩
  · exact pairwise_bdisj_append_fresh st.blocks [idx] hpw
      (fun i' hi' m => by
        simp only [List.mem_singleton] at hi'
        exact hi' ▸ hfresh m)
  · intro b' hb'
    rcases List.mem_append.1 hb' with h1 | h1
    · exact hnd b' h1
    · simp only [List.mem_singleton] at h1
      subst h1
      refine ⟨by simp, fun i' hi' => ?_⟩
      simp only [List.mem_singleton] at hi'
      exact hi' ▸ hn
  · intro b' hb' cid' hcid'
    rcases List.mem_append.1 hb' with h1 | h1
    · exact hcnt b' h1 cid' hcid'
    · simp only [List.mem_singleton] at h1
      subst h1
      simp only [List.countP_cons, List.countP_nil]
      split <;> omega
  · intro k idx' hmem cid' hl' hc'
    rcases Nat.lt_trichotomy k st.blocks.length with hk | hk | hk
    · rw [getD_append_lt st.blocks _ k [] hk] at hmem
      rw [getD_append_lt st.bcl _ k [] (by omega)]
      exact hsnd k idx' hmem cid' hl' hc'
    · subst hk
      rw [getD_append_len] at hmem
      simp only [List.mem_singleton] at hmem
      subst hmem
      rw [hlook] at hl'
      have hbl : st.blocks.length = st.bcl.length := hlen.symm
      rw [hbl, getD_append_len, ← Option.some.inj hl']
      simp
    · rw [getD_eq_default_of_le _ k [] (by simp; omega)] at hmem
      simp at hmem
  · intro y
    constructor
    · rintro ⟨k, hk⟩
      rcases Nat.lt_trichotomy k st.blocks.length with h1 | h1 | h1
      · rw [getD_append_lt st.blocks _ k [] h1] at hk
        exact Or.inr ⟨k, hk⟩
      · subst h1
        rw [getD_append_len] at hk
        simp only [List.mem_singleton] at hk
        exact Or.inl hk
      · rw [getD_eq_default_of_le _ k [] (by simp; omega)] at hk
        simp at hk
    · rintro (h1 | ⟨k, hk⟩)
      · subst h1
        refine ⟨st.blocks.length, ?_⟩
        rw [getD_append_len]
        simp
      · have hlt := lt_length_of_mem_getD st.blocks k y hk
        refine ⟨k, ?_⟩
        rw [getD_append_lt st.blocks _ k [] hlt]
        exact hk

/-- Opening a fresh block for a standalone record preserves the
invariant. -/
theorem addFreshBlockS_inv (n : Nat) (rc : List (Nat × Nat)) (st : DState)
    (hinv : DInv n rc st) (idx : Nat)
    (hfresh : ∀ k, idx ∉ st.blocks.getD k [])
    (hn : idx < n) (hlook : (lookupAssoc rc idx).getD 0 = 0) :
    DInv n rc ⟨st.blocks ++ [[idx]], st.bcl ++ [[]]⟩ ∧
      ∀ y, memB (st.blocks ++ [[idx]]) y ↔ (y = idx ∨ memB st.blocks y) := by
  obtain ⟨hlen, hpw, hnd, hcnt, hsnd⟩ := hinv
  refine ⟨⟨by simp [hlen], ?_, ?_, ?_, ?_⟩, ?_⟩
  · exact pairwise_bdisj_append_fresh st.blocks [idx] hpw
      (fun i' hi' m => by
        simp only [List.mem_singleton] at hi'
        exact hi' ▸ hfresh m)
  · intro b' hb'
    rcases List.mem_append.1 hb' with h1 | h1
    · exact hnd b' h1
    · simp only [List.mem_singleton] at h1
      subst h1
      refine ⟨by simp, fun i' hi' => ?_⟩
      simp only [List.mem_singleton] at hi'
      exact hi' ▸ hn
  · intro b' hb' cid' hcid'
    rcases List.mem_append.1 hb' with h1 | h1
    · exact hcnt b' h1 cid' hcid'
    · simp only [List.mem_singleton] at h1
      subst h1
      simp only [List.countP_cons, List.countP_nil]
      split <;> omega
  · intro k idx' hmem cid' hl' hc'
    rcases Nat.lt_trichotomy k st.blocks.length with hk | hk | hk
    · rw [getD_append_lt st.blocks _ k [] hk] at hmem
      rw [getD_append_lt st.bcl _ k [] (by omega)]
      exact hsnd k idx' hmem cid' hl' hc'
    · subst hk
      rw [getD_append_len] at hmem
      simp only [List.mem_singleton] at hmem
      subst hmem
      exact absurd hl' (getD_zero_ne _ hlook cid' hc')
    · rw [getD_eq_default_of_le _ k [] (by simp; omega)] at hmem
      simp at hmem
  · intro y
    constructor
    · rintro ⟨k, hk⟩
      rcases Nat.lt_trichotomy k st.blocks.length with h1 | h1 | h1
      · rw [getD_append_lt st.blocks _ k [] h1] at hk
        exact Or.inr ⟨k, hk⟩
      · subst h1
        rw [getD_append_len] at hk
        simp only [List.mem_singleton] at hk
        exact Or.inl hk
      · rw [getD_eq_default_of_le _ k [] (by simp; omega)] at hk
        simp at hk
    · rintro (h1 | ⟨k, hk⟩)
      · subst h1
        refine ⟨st.blocks.length, ?_⟩
        rw [getD_append_len]
        simp
      · have hlt := lt_length_of_mem_getD st.blocks k y hk
        refine ⟨k, ?_⟩
        rw [getD_append_lt st.blocks _ k [] hlt]
        exact hk

/-!
## Claim C1: the placement phases preserve the invariant
-/

/-- Placing one cluster member preserves the invariant and adds exactly
that member. -/
theorem placeClusterMember_inv (n : Nat) (rc : List (Nat × Nat))
    (maxB cid idx : Nat) (st : DState) (hinv : DInv n rc st)
    (hfresh : ∀ k, idx ∉ st.blocks.getD k [])
    (hn : idx < n) (hlook : lookupAssoc rc idx = some cid) (hcid : cid ≠ 0) :
    DInv n rc (placeClusterMember maxB cid idx st) ∧
      ∀ y, memB (placeClusterMember maxB cid idx st).blocks y ↔
        (y = idx ∨ memB st.blocks y) := by
  unfold placeClusterMember
  rcases hf : (List.range st.blocks.length).find?
      (fun b => decide ((st.blocks.getD b []).length < maxB) &&
        !((st.bcl.getD b []).contains cid)) with _ | b
  · exact addFreshBlockC_inv n rc st hinv idx cid hfresh hn hlook hcid
  · have hb : b < st.blocks.length :=
      List.mem_range.1 (List.mem_of_find?_eq_some hf)
    have hp := List.find?_some hf
    simp only [Bool.and_eq_true, Bool.not_eq_true', decide_eq_true_eq] at hp
    have hnot : cid ∉ st.bcl.getD b [] := by
      intro hmem
      rw [(by simpa using hmem : (st.bcl.getD b []).contains cid = true)] at hp
      exact Bool.noConfusion hp.2
    exact addToBlock_inv n rc st hinv b idx cid hb hfresh hn hlook hcid hnot

/-- Placing a whole cluster's member list preserves the invariant and adds
exactly its members. -/
theorem placeGroup_inv (n : Nat) (rc : List (Nat × Nat)) (maxB cid : Nat) :
    ∀ (g : List Nat) (st : DState), DInv n rc st → g.Nodup →
      (∀ idx ∈ g, lookupAssoc rc idx = some cid ∧ idx < n ∧
        ¬ memB st.blocks idx) →
      cid ≠ 0 →
      DInv n rc (g.foldl (fun st'' idx => placeClusterMember maxB cid idx st'') st) ∧
        ∀ y, memB (g.foldl (fun st'' idx =>
            placeClusterMember maxB cid idx st'') st).blocks y ↔
          (y ∈ g ∨ memB st.blocks y) := by
  intro g
  induction g with
  | nil =>
    intro st h _ _ _
    exact ⟨h, fun y => by simp⟩
  | cons x xs ih =>
    intro st h hnd hprop hcid
    rw [List.foldl_cons]
    have hx := hprop x (List.mem_cons_self _ _)
    have hfresh : ∀ k, x ∉ st.blocks.getD k [] := by
      intro k hk
      exact hx.2.2 ⟨k, hk⟩
    obtain ⟨h1, h1m⟩ :=
      placeClusterMember_inv n rc maxB cid x st h hfresh hx.2.1 hx.1 hcid
    rw [List.nodup_cons] at hnd
    have hprop' : ∀ idx ∈ xs, lookupAssoc rc idx = some cid ∧ idx < n ∧
        ¬ memB (placeClusterMember maxB cid x st).blocks idx := by
      intro idx hidx
      have hp := hprop idx (List.mem_cons_of_mem _ hidx)
      refine ⟨hp.1, hp.2.1, ?_⟩
      intro hm
      rcases (h1m idx).1 hm with h3 | h3
      · exact hnd.1 (h3 ▸ hidx)
      · exact hp.2.2 h3
    obtain ⟨h2, h2m⟩ := ih (placeClusterMember maxB cid x st) h1 hnd.2 hprop' hcid
    refine ⟨h2, fun y => ?_⟩
    rw [h2m y, h1m y]
    constructor
    · rintro (h3 | h3 | h3)
      · exact Or.inl (List.mem_cons_of_mem _ h3)
      · exact Or.inl (h3 ▸ List.mem_cons_self _ _)
      · exact Or.inr h3
    · rintro (h3 | h3)
      · rcases List.mem_cons.1 h3 with h4 | h4
        · exact Or.inr (Or.inl h4)
        · exact Or.inl h4
      · exact Or.inr (Or.inr h3)

/-- The cyclic cluster-placement loop preserves the invariant and places
exactly the cluster members. -/
theorem placeClusters_inv (n : Nat) (rc : List (Nat × Nat)) (maxB : Nat) :
    ∀ (cr : List (Nat × List Nat)) (st : DState), DInv n rc st →
      (cr.map Prod.fst).Nodup →
      (∀ p ∈ cr, p.1 ≠ 0 ∧ p.2.Nodup ∧
        ∀ idx ∈ p.2, lookupAssoc rc idx = some p.1 ∧ idx < n) →
      (∀ p ∈ cr, ∀ idx ∈ p.2, ¬ memB st.blocks idx) →
      DInv n rc (placeClusters maxB cr st) ∧
        ∀ y, memB (placeClusters maxB cr st).blocks y ↔
          ((∃ p ∈ cr, y ∈ p.2) ∨ memB st.blocks y) := by
  intro cr
  induction cr with
  | nil =>
    intro st h _ _ _
    exact ⟨h, fun y => by simp [placeClusters]⟩
  | cons p ps ih =>
    intro st h hku hprops hfresh
    have hstep : placeClusters maxB (p :: ps) st =
        placeClusters maxB ps (p.2.foldl
          (fun st'' idx => placeClusterMember maxB p.1 idx st'') st) := rfl
    rw [hstep]
    have hp := hprops p (List.mem_cons_self _ _)
    obtain ⟨h1, h1m⟩ := placeGroup_inv n rc maxB p.1 p.2 st h hp.2.1
      (fun idx hidx => ⟨(hp.2.2 idx hidx).1, (hp.2.2 idx hidx).2,
        hfresh p (List.mem_cons_self _ _) idx hidx⟩)
      hp.1
    rw [List.map_cons, List.nodup_cons] at hku
    have hfresh' : ∀ q ∈ ps, ∀ idx ∈ q.2,
        ¬ memB (p.2.foldl (fun st'' idx =>
          placeClusterMember maxB p.1 idx st'') st).blocks idx := by
      intro q hq idx hidx hm
      rcases (h1m idx).1 hm with h3 | h3
      · have e1 := (hp.2.2 idx h3).1
        have e2 := ((hprops q (List.mem_cons_of_mem _ hq)).2.2 idx hidx).1
        rw [e1] at e2
        exact hku.1 ((Option.some.inj e2).symm ▸ List.mem_map.2 ⟨q, hq, rfl⟩)
      · exact hfresh q (List.mem_cons_of_mem _ hq) idx hidx h3
    obtain ⟨h2, h2m⟩ := ih _ h1 hku.2
      (fun q hq => hprops q (List.mem_cons_of_mem _ hq)) hfresh'
    refine ⟨h2, fun y => ?_⟩
    rw [h2m y, h1m y]
    constructor
    · rintro (⟨q, hq, hyq⟩ | h3 | h3)
      · exact Or.inl ⟨q, List.mem_cons_of_mem _ hq, hyq⟩
      · exact Or.inl ⟨p, List.mem_cons_self _ _, h3⟩
      · exact Or.inr h3
    · rintro (⟨q, hq, hyq⟩ | h3)
      · rcases List.mem_cons.1 hq with h4 | h4
        · exact Or.inr (Or.inl (h4 ▸ hyq))
        · exact Or.inl ⟨q, h4, hyq⟩
      · exact Or.inr (Or.inr h3)

/-- Placing one standalone record preserves the invariant and adds exactly
that record. -/
theorem psStep_inv (n : Nat) (rc : List (Nat × Nat)) (minB maxB idx : Nat)
    (st : DState) (hinv : DInv n rc st)
    (hfresh : ∀ k, idx ∉ st.blocks.getD k [])
    (hn : idx < n) (hlook : (lookupAssoc rc idx).getD 0 = 0) :
    DInv n rc (psStep minB maxB st idx) ∧
      ∀ y, memB (psStep minB maxB st idx).blocks y ↔
        (y = idx ∨ memB st.blocks y) := by
  unfold psStep
  rcases hf1 : (List.range st.bcl.length).find?
      (fun b => decide ((st.blocks.getD b []).length < minB) &&
        decide ((st.blocks.getD b []).length < maxB)) with _ | b
  · rcases hf2 : (List.range st.bcl.length).find?
        (fun b => decide ((st.blocks.getD b []).length < maxB)) with _ | b2
    · exact addFreshBlockS_inv n rc st hinv idx hfresh hn hlook
    · have hb2 : b2 < st.blocks.length := by
        have h0 := List.mem_range.1 (List.mem_of_find?_eq_some hf2)
        exact hinv.1 ▸ h0
      exact addFalsyToBlock_inv n rc st hinv b2 idx hb2 hfresh hn hlook
  · have hb : b < st.blocks.length := by
      have h0 := List.mem_range.1 (List.mem_of_find?_eq_some hf1)
      exact hinv.1 ▸ h0
    exact addFalsyToBlock_inv n rc st hinv b idx hb hfresh hn hlook

/-- The standalone-placement loop preserves the invariant and places
exactly the standalone records. -/
theorem placeStandalone_inv (n : Nat) (rc : List (Nat × Nat)) (minB maxB : Nat) :
    ∀ (sa : List Nat) (st : DState), DInv n rc st → sa.Nodup →
      (∀ idx ∈ sa, (lookupAssoc rc idx).getD 0 = 0 ∧ idx < n ∧
        ¬ memB st.blocks idx) →
      DInv n rc (placeStandalone minB maxB sa st) ∧
        ∀ y, memB (placeStandalone minB maxB sa st).blocks y ↔
          (y ∈ sa ∨ memB st.blocks y) := by
  intro sa
  induction sa with
  | nil =>
    intro st h _ _
    exact ⟨h, fun y => by simp [placeStandalone]⟩
  | cons x xs ih =>
    intro st h hnd hprop
    have hstep : placeStandalone minB maxB (x :: xs) st =
        placeStandalone minB maxB xs (psStep minB maxB st x) := rfl
    rw [hstep]
    have hx := hprop x (List.mem_cons_self _ _)
    have hfresh : ∀ k, x ∉ st.blocks.getD k [] := fun k hk => hx.2.2 ⟨k, hk⟩
    obtain ⟨h1, h1m⟩ := psStep_inv n rc minB maxB x st h hfresh hx.2.1 hx.1
    rw [List.nodup_cons] at hnd
    have hprop' : ∀ idx ∈ xs, (lookupAssoc rc idx).getD 0 = 0 ∧ idx < n ∧
        ¬ memB (psStep minB maxB st x).blocks idx := by
      intro idx hidx
      have hp := hprop idx (List.mem_cons_of_mem _ hidx)
      refine ⟨hp.1, hp.2.1, ?_⟩
      intro hm
      rcases (h1m idx).1 hm with h3 | h3
      · exact hnd.1 (h3 ▸ hidx)
      · exact hp.2.2 h3
    obtain ⟨h2, h2m⟩ := ih (psStep minB maxB st x) h1 hnd.2 hprop'
    refine ⟨h2, fun y => ?_⟩
    rw [h2m y, h1m y]
    constructor
    · rintro (h3 | h3 | h3)
      · exact Or.inl (List.mem_cons_of_mem _ h3)
      · exact Or.inl (h3 ▸ List.mem_cons_self _ _)
      · exact Or.inr h3
    · rintro (h3 | h3)
      · rcases List.mem_cons.1 h3 with h4 | h4
        · exact Or.inr (Or.inl h4)
        · exact Or.inl h4
      · exact Or.inr (Or.inr h3)

/-!
## Claim C1: one rebalancing move preserves the invariant
-/

/-- The pure-blocks effect of one move: pairwise disjointness,
per-block well-formedness, membership equivalence, and the slot values. -/
theorem moveBlocks_facts (n : Nat) (st : DState) (t bIdx idx : Nat)
    (hpw : st.blocks.Pairwise BDisj)
    (hnd : ∀ b ∈ st.blocks, b.Nodup ∧ ∀ i' ∈ b, i' < n)
    (ht : t < st.blocks.length) (htb : t ≠ bIdx)
    (hmem : idx ∈ st.blocks.getD bIdx []) :
    ((st.blocks.set t ((st.blocks.getD t []) ++ [idx])).set bIdx
        ((st.blocks.getD bIdx []).erase idx)).Pairwise BDisj ∧
    (∀ b' ∈ (st.blocks.set t ((st.blocks.getD t []) ++ [idx])).set bIdx
        ((st.blocks.getD bIdx []).erase idx), b'.Nodup ∧ ∀ i' ∈ b', i' < n) ∧
    (∀ y, memB ((st.blocks.set t ((st.blocks.getD t []) ++ [idx])).set bIdx
        ((st.blocks.getD bIdx []).erase idx)) y ↔ memB st.blocks y) ∧
    ((st.blocks.set t ((st.blocks.getD t []) ++ [idx])).set bIdx
        ((st.blocks.getD bIdx []).erase idx)).getD t [] =
      (st.blocks.getD t []) ++ [idx] ∧
    ((st.blocks.set t ((st.blocks.getD t []) ++ [idx])).set bIdx
        ((st.blocks.getD bIdx []).erase idx)).getD bIdx [] =
      (st.blocks.getD bIdx []).erase idx ∧
    (∀ m, m ≠ t → m ≠ bIdx →
      ((st.blocks.set t ((st.blocks.getD t []) ++ [idx])).set bIdx
        ((st.blocks.getD bIdx []).erase idx)).getD m [] = st.blocks.getD m []) := by
  have hbI : bIdx < st.blocks.length := lt_length_of_mem_getD _ _ _ hmem
  have hgbmem : st.blocks.getD bIdx [] ∈ st.blocks := by
    rw [getD_eq_getElem_of_lt _ _ _ hbI]
    exact List.getElem_mem hbI
  have hgtmem : st.blocks.getD t [] ∈ st.blocks := by
    rw [getD_eq_getElem_of_lt _ _ _ ht]
    exact List.getElem_mem ht
  have hgbnd : (st.blocks.getD bIdx []).Nodup := (hnd _ hgbmem).1
  have hidx_not_t : idx ∉ st.blocks.getD t [] :=
    disj_getD st.blocks hpw bIdx t (Ne.symm htb) idx hmem
  have hgt : ((st.blocks.set t ((st.blocks.getD t []) ++ [idx])).set bIdx
      ((st.blocks.getD bIdx []).erase idx)).getD t [] =
      (st.blocks.getD t []) ++ [idx] := by
    rw [getD_set_ne _ bIdx t _ _ htb, getD_set_self st.blocks t _ _ ht]
  have hgb : ((st.blocks.set t ((st.blocks.getD t []) ++ [idx])).set bIdx
      ((st.blocks.getD bIdx []).erase idx)).getD bIdx [] =
      (st.blocks.getD bIdx []).erase idx := by
    rw [getD_set_self _ bIdx _ _ (by simpa using hbI)]
  have hm0 : ∀ m, m ≠ t → m ≠ bIdx →
      ((st.blocks.set t ((st.blocks.getD t []) ++ [idx])).set bIdx
        ((st.blocks.getD bIdx []).erase idx)).getD m [] =
      st.blocks.getD m [] := by
    intro m hmt hmb
    rw [getD_set_ne _ bIdx m _ _ hmb, getD_set_ne st.blocks t m _ _ hmt]
  refine ⟨?_, ?_, ?_, hgt, hgb, hm0⟩
  · rw [List.set_comm _ _ _ htb]
    have e1 : (st.blocks.set bIdx ((st.blocks.getD bIdx []).erase idx)).getD t []
        = st.blocks.getD t [] := getD_set_ne st.blocks bIdx t _ _ htb
    rw [← e1]
    refine pairwise_bdisj_set_append _ t [idx] ?_ ?_
    · refine pairwise_bdisj_set_sub st.blocks bIdx _ hpw ?_
      intro i' hi'
      exact (List.erase_sublist idx _).subset hi'
    · intro i' hi' m hmt
      simp only [List.mem_singleton] at hi'
      by_cases hmb : m = bIdx
      · rw [hmb, getD_set_self st.blocks bIdx _ _ hbI, hgbnd.mem_erase_iff]
        intro hcon
        exact hcon.1 hi'
      · rw [getD_set_ne st.blocks bIdx m _ _ hmb]
        exact fun hcon =>
          disj_getD st.blocks hpw bIdx m (fun he => hmb he.symm) idx hmem
            (hi' ▸ hcon)
  · intro b' hb'
    rcases List.mem_or_eq_of_mem_set hb' with h1 | h1
    · rcases List.mem_or_eq_of_mem_set h1 with h2 | h2
      · exact hnd b' h2
      · subst h2
        constructor
        · rw [List.nodup_append]
          refine ⟨(hnd _ hgtmem).1, by simp, ?_⟩
          intro a ha hb3
          simp only [List.mem_singleton] at hb3
          subst hb3
          exact hidx_not_t ha
        · intro i' hi'
          rcases List.mem_append.1 hi' with h3 | h3
          · exact (hnd _ hgtmem).2 i' h3
          · simp only [List.mem_singleton] at h3
            subst h3
            exact (hnd _ hgbmem).2 i' hmem
    · subst h1
      exact ⟨hgbnd.erase idx, fun i' hi' =>
        (hnd _ hgbmem).2 i' ((List.erase_sublist idx _).subset hi')⟩
  · intro y
    constructor
    · rintro ⟨k, hk⟩
      by_cases hkb : k = bIdx
      · rw [hkb, hgb] at hk
        exact ⟨bIdx, (List.erase_sublist idx _).subset hk⟩
      · by_cases hkt : k = t
        · rw [hkt, hgt] at hk
          rcases List.mem_append.1 hk with h1 | h1
          · exact ⟨t, h1⟩
          · simp only [List.mem_singleton] at h1
            subst h1
            exact ⟨bIdx, hmem⟩
        · rw [hm0 k hkt hkb] at hk
          exact ⟨k, hk⟩
    · rintro ⟨k, hk⟩
      by_cases hkb : k = bIdx
      · by_cases hy : y = idx
        · subst hy
          refine ⟨t, ?_⟩
          rw [hgt]
          exact List.mem_append_right _ (by simp)
        · refine ⟨bIdx, ?_⟩
          rw [hgb, hgbnd.mem_erase_iff]
          exact ⟨hy, hkb ▸ hk⟩
      · by_cases hkt : k = t
        · refine ⟨t, ?_⟩
          rw [hgt]
          exact List.mem_append_left _ (hkt ▸ hk)
        · refine ⟨k, ?_⟩
          rw [hm0 k hkt hkb]
          exact hk

/-- A move of an unclustered record preserves the invariant. -/
theorem moveFalsy_inv (n : Nat) (rc : List (Nat × Nat)) (st : DState)
    (hinv : DInv n rc st) (t bIdx idx : Nat)
    (ht : t < st.blocks.length) (htb : t ≠ bIdx)
    (hmem : idx ∈ st.blocks.getD bIdx [])
    (hlook : (lookupAssoc rc idx).getD 0 = 0) :
    DInv n rc ⟨(st.blocks.set t ((st.blocks.getD t []) ++ [idx])).set bIdx
        ((st.blocks.getD bIdx []).erase idx), st.bcl⟩ ∧
      ∀ y, memB ((st.blocks.set t ((st.blocks.getD t []) ++ [idx])).set bIdx
        ((st.blocks.getD bIdx []).erase idx)) y ↔ memB st.blocks y := by
  obtain ⟨hlen, hpw, hnd, hcnt, hsnd⟩ := hinv
  obtain ⟨mpw, mnd, mmem, mgt, mgb, mm0⟩ :=
    moveBlocks_facts n st t bIdx idx hpw hnd ht htb hmem
  have hgtmem : st.blocks.getD t [] ∈ st.blocks := by
    rw [getD_eq_getElem_of_lt _ _ _ ht]
    exact List.getElem_mem ht
  have hbI : bIdx < st.blocks.length := lt_length_of_mem_getD _ _ _ hmem
  have hgbmem : st.blocks.getD bIdx [] ∈ st.blocks := by
    rw [getD_eq_getElem_of_lt _ _ _ hbI]
    exact List.getElem_mem hbI
  refine ⟨⟨by simpa using hlen, mpw, mnd, ?_, ?_⟩, mmem⟩
  · intro b' hb' cid' hcid'
    rcases List.mem_or_eq_of_mem_set hb' with h1 | h1
    · rcases List.mem_or_eq_of_mem_set h1 with h2 | h2
      · exact hcnt b' h2 cid' hcid'
      · subst h2
        rw [List.countP_append]
        have hzi : ([idx] : List Nat).countP (cidP rc cid') = 0 := by
          rw [List.countP_eq_zero]
          intro a ha
          simp only [List.mem_singleton] at ha
          subst ha
          simp only [cidP, decide_eq_true_eq]
          exact getD_zero_ne _ hlook cid' hcid'
        rw [hzi]
        simpa using hcnt _ hgtmem cid' hcid'
    · subst h1
      exact le_trans ((List.erase_sublist idx _).countP_le _)
        (hcnt _ hgbmem cid' hcid')
  · intro k idx' hmemk cid' hl' hc'
    by_cases hkb : k = bIdx
    · rw [hkb, mgb] at hmemk
      rw [hkb]
      exact hsnd bIdx idx' ((List.erase_sublist idx _).subset hmemk) cid' hl' hc'
    · by_cases hkt : k = t
      · rw [hkt, mgt] at hmemk
        rw [hkt]
        rcases List.mem_append.1 hmemk with h1 | h1
        · exact hsnd t idx' h1 cid' hl' hc'
        · simp only [List.mem_singleton] at h1
          subst h1
          exact absurd hl' (getD_zero_ne _ hlook cid' hc')
      · rw [mm0 k hkt hkb] at hmemk
        exact hsnd k idx' hmemk cid' hl' hc'

/-- A move of a clustered record to a conflict-free target preserves the
invariant. -/
theorem moveCluster_inv (n : Nat) (rc : List (Nat × Nat)) (st : DState)
    (hinv : DInv n rc st) (t bIdx idx c : Nat)
    (ht : t < st.blocks.length) (htb : t ≠ bIdx)
    (hmem : idx ∈ st.blocks.getD bIdx [])
    (hlook : lookupAssoc rc idx = some c) (hc : c ≠ 0)
    (hguard : c ∉ st.bcl.getD t []) :
    DInv n rc ⟨(st.blocks.set t ((st.blocks.getD t []) ++ [idx])).set bIdx
        ((st.blocks.getD bIdx []).erase idx),
      (st.bcl.set t (insertSet (st.bcl.getD t []) c)).set bIdx
        (discardSet (st.bcl.getD bIdx []) c)⟩ ∧
      ∀ y, memB ((st.blocks.set t ((st.blocks.getD t []) ++ [idx])).set bIdx
        ((st.blocks.getD bIdx []).erase idx)) y ↔ memB st.blocks y := by
  obtain ⟨hlen, hpw, hnd, hcnt, hsnd⟩ := hinv
  obtain ⟨mpw, mnd, mmem, mgt, mgb, mm0⟩ :=
    moveBlocks_facts n st t bIdx idx hpw hnd ht htb hmem
  have hbI : bIdx < st.blocks.length := lt_length_of_mem_getD _ _ _ hmem
  have ht2 : t < st.bcl.length := by omega
  have hbI2 : bIdx < st.bcl.length := by omega
  have hgtmem : st.blocks.getD t [] ∈ st.blocks := by
    rw [getD_eq_getElem_of_lt _ _ _ ht]
    exact List.getElem_mem ht
  have hgbmem : st.blocks.getD bIdx [] ∈ st.blocks := by
    rw [getD_eq_getElem_of_lt _ _ _ hbI]
    exact List.getElem_mem hbI
  have hgbnd := (hnd _ hgbmem).1
  have bgt : ((st.bcl.set t (insertSet (st.bcl.getD t []) c)).set bIdx
      (discardSet (st.bcl.getD bIdx []) c)).getD t [] =
      insertSet (st.bcl.getD t []) c := by
    rw [getD_set_ne _ bIdx t _ _ htb, getD_set_self st.bcl t _ _ ht2]
  have bgb : ((st.bcl.set t (insertSet (st.bcl.getD t []) c)).set bIdx
      (discardSet (st.bcl.getD bIdx []) c)).getD bIdx [] =
      discardSet (st.bcl.getD bIdx []) c := by
    rw [getD_set_self _ bIdx _ _ (by simpa using hbI2)]
  have bm0 : ∀ m, m ≠ t → m ≠ bIdx →
      ((st.bcl.set t (insertSet (st.bcl.getD t []) c)).set bIdx
        (discardSet (st.bcl.getD bIdx []) c)).getD m [] = st.bcl.getD m [] := by
    intro m hmt hmb
    rw [getD_set_ne _ bIdx m _ _ hmb, getD_set_ne st.bcl t m _ _ hmt]
  refine ⟨⟨by simpa using hlen, mpw, mnd, ?_, ?_⟩, mmem⟩
  · intro b' hb' cid' hcid'
    rcases List.mem_or_eq_of_mem_set hb' with h1 | h1
    · rcases List.mem_or_eq_of_mem_set h1 with h2 | h2
      · exact hcnt b' h2 cid' hcid'
      · subst h2
        rw [List.countP_append]
        by_cases hcc : cid' = c
        · subst hcc
          have hz : (st.blocks.getD t []).countP (cidP rc cid') = 0 :=
            countP_zero_of_not_bcl n rc st ⟨hlen, hpw, hnd, hcnt, hsnd⟩ t cid'
              hcid' hguard
          rw [hz]
          simp only [List.countP_cons, List.countP_nil]
          split <;> omega
        · have hzi : ([idx] : List Nat).countP (cidP rc cid') = 0 := by
            rw [List.countP_eq_zero]
            intro a ha
            simp only [List.mem_singleton] at ha
            subst ha
            simp only [cidP, decide_eq_true_eq, hlook]
            simp [Ne.symm hcc]
          rw [hzi]
          simpa using hcnt _ hgtmem cid' hcid'
    · subst h1
      exact le_trans ((List.erase_sublist idx _).countP_le _)
        (hcnt _ hgbmem cid' hcid')
  · intro k idx' hmemk cid' hl' hc'
    by_cases hkb : k = bIdx
    · rw [hkb, mgb] at hmemk
      rw [hkb, bgb]
      have h3 := hgbnd.mem_erase_iff.1 hmemk
      have h4 := hsnd bIdx idx' h3.2 cid' hl' hc'
      rw [mem_discardSet]
      refine ⟨h4, ?_⟩
      intro hcc
      subst hcc
      have hm1 : idx' ∈ (st.blocks.getD bIdx []).filter (cidP rc cid') :=
        List.mem_filter.2 ⟨h3.2, by simp [cidP, hl']⟩
      have hm2 : idx ∈ (st.blocks.getD bIdx []).filter (cidP rc cid') :=
        List.mem_filter.2 ⟨hmem, by simp [cidP, hlook]⟩
      have h5 := one_lt_length_of_two _ idx' idx hm1 hm2 h3.1
      have h6 := hcnt _ hgbmem cid' hc'
      rw [List.countP_eq_length_filter] at h6
      omega
    · by_cases hkt : k = t
      · rw [hkt, mgt] at hmemk
        rw [hkt, bgt]
        rcases List.mem_append.1 hmemk with h1 | h1
        · exact mem_insertSet_of_mem _ _ _ (hsnd t idx' h1 cid' hl' hc')
        · simp only [List.mem_singleton] at h1
          subst h1
          rw [hlook] at hl'
          rw [← Option.some.inj hl']
          exact mem_insertSet_self _ _
      · rw [mm0 k hkt hkb] at hmemk
        rw [bm0 k hkt hkb]
        exact hsnd k idx' hmemk cid' hl' hc'

/-- `dmMove` preserves the invariant, the assigned-record set and the block
count, and removes the moved record from the source block. -/
theorem dmMove_facts (n : Nat) (rc : List (Nat × Nat)) (st : DState)
    (hinv : DInv n rc st) (t bIdx idx : Nat)
    (ht : t < st.blocks.length) (htb : t ≠ bIdx)
    (hmem : idx ∈ st.blocks.getD bIdx [])
    (hguard : ∀ c', lookupAssoc rc idx = some c' → c' ≠ 0 →
      c' ∉ st.bcl.getD t []) :
    DInv n rc (dmMove rc bIdx t idx st) ∧
      (∀ y, memB (dmMove rc bIdx t idx st).blocks y ↔ memB st.blocks y) ∧
      (dmMove rc bIdx t idx st).blocks.getD bIdx [] =
        (st.blocks.getD bIdx []).erase idx := by
  have hblocks : (dmMove rc bIdx t idx st).blocks =
      (st.blocks.set t ((st.blocks.getD t []) ++ [idx])).set bIdx
        ((st.blocks.getD bIdx []).erase idx) := by
    have hproj : (dmMove rc bIdx t idx st).blocks =
        (st.blocks.set t ((st.blocks.getD t []) ++ [idx])).set bIdx
          (((st.blocks.set t ((st.blocks.getD t []) ++ [idx])).getD bIdx
            []).erase idx) := rfl
    rw [hproj, getD_set_ne st.blocks t bIdx _ _ (Ne.symm htb)]
  have hbI : bIdx < st.blocks.length := lt_length_of_mem_getD _ _ _ hmem
  by_cases hc : (lookupAssoc rc idx).getD 0 = 0
  · have hbcl : (dmMove rc bIdx t idx st).bcl = st.bcl := by
      have hproj : (dmMove rc bIdx t idx st).bcl =
          (if (lookupAssoc rc idx).getD 0 ≠ 0 then
            (st.bcl.set t (insertSet (st.bcl.getD t [])
                ((lookupAssoc rc idx).getD 0))).set bIdx
              (discardSet ((st.bcl.set t (insertSet (st.bcl.getD t [])
                  ((lookupAssoc rc idx).getD 0))).getD bIdx [])
                ((lookupAssoc rc idx).getD 0))
          else st.bcl) := rfl
      rw [hproj, if_neg (not_not_intro hc)]
    have he : dmMove rc bIdx t idx st =
        ⟨(st.blocks.set t ((st.blocks.getD t []) ++ [idx])).set bIdx
          ((st.blocks.getD bIdx []).erase idx), st.bcl⟩ := by
      rw [← hblocks, ← hbcl]
    obtain ⟨h1, h1m⟩ := moveFalsy_inv n rc st hinv t bIdx idx ht htb hmem hc
    rw [he]
    refine ⟨h1, h1m, ?_⟩
    rw [getD_set_self _ bIdx _ _ (by simpa using hbI)]
  · have hsome : lookupAssoc rc idx = some ((lookupAssoc rc idx).getD 0) :=
      getD_zero_eq_some _ _ rfl hc
    have hbcl : (dmMove rc bIdx t idx st).bcl =
        (st.bcl.set t (insertSet (st.bcl.getD t [])
            ((lookupAssoc rc idx).getD 0))).set bIdx
          (discardSet (st.bcl.getD bIdx []) ((lookupAssoc rc idx).getD 0)) := by
      have hproj : (dmMove rc bIdx t idx st).bcl =
          (if (lookupAssoc rc idx).getD 0 ≠ 0 then
            (st.bcl.set t (insertSet (st.bcl.getD t [])
                ((lookupAssoc rc idx).getD 0))).set bIdx
              (discardSet ((st.bcl.set t (insertSet (st.bcl.getD t [])
                  ((lookupAssoc rc idx).getD 0))).getD bIdx [])
                ((lookupAssoc rc idx).getD 0))
          else st.bcl) := rfl
      rw [hproj, if_pos hc, getD_set_ne st.bcl t bIdx _ _ (Ne.symm htb)]
    have he : dmMove rc bIdx t idx st =
        ⟨(st.blocks.set t ((st.blocks.getD t []) ++ [idx])).set bIdx
          ((st.blocks.getD bIdx []).erase idx),
        (st.bcl.set t (insertSet (st.bcl.getD t [])
            ((lookupAssoc rc idx).getD 0))).set bIdx
          (discardSet (st.bcl.getD bIdx [])
            ((lookupAssoc rc idx).getD 0))⟩ := by
      rw [← hblocks, ← hbcl]
    obtain ⟨h1, h1m⟩ := moveCluster_inv n rc st hinv t bIdx idx
      ((lookupAssoc rc idx).getD 0) ht htb hmem hsome hc (hguard _ hsome hc)
    rw [he]
    refine ⟨h1, h1m, ?_⟩
    rw [getD_set_self _ bIdx _ _ (by simpa using hbI)]

/-- Unfolding `drainMoves` when a target is found. -/
theorem drainMoves_cons_some (minB maxB : Nat) (rc : List (Nat × Nat))
    (bIdx idx : Nat) (rest : List Nat) (st : DState) (changed : Bool) (t : Nat)
    (hf : dmFind minB maxB rc bIdx st idx = some t) :
    drainMoves minB maxB rc bIdx (idx :: rest) st changed =
      if ((dmMove rc bIdx t idx st).blocks.getD bIdx []).length = 0 then
        (dmMove rc bIdx t idx st, true)
      else drainMoves minB maxB rc bIdx rest (dmMove rc bIdx t idx st) true := by
  rw [drainMoves, hf]

/-- Unfolding `drainMoves` when no target is found. -/
theorem drainMoves_cons_none (minB maxB : Nat) (rc : List (Nat × Nat))
    (bIdx idx : Nat) (rest : List Nat) (st : DState) (changed : Bool)
    (hf : dmFind minB maxB rc bIdx st idx = none) :
    drainMoves minB maxB rc bIdx (idx :: rest) st changed =
      drainMoves minB maxB rc bIdx rest st changed := by
  rw [drainMoves, hf]

/-- The move loop out of one undersized block preserves the invariant and
the assigned-record set. -/
theorem drainMoves_inv (n : Nat) (rc : List (Nat × Nat)) (minB maxB bIdx : Nat) :
    ∀ (l : List Nat) (st : DState) (changed : Bool), DInv n rc st →
      (∀ x ∈ l, x ∈ st.blocks.getD bIdx []) → l.Nodup →
      DInv n rc (drainMoves minB maxB rc bIdx l st changed).1 ∧
        ∀ y, memB (drainMoves minB maxB rc bIdx l st changed).1.blocks y ↔
          memB st.blocks y := by
  intro l
  induction l with
  | nil =>
    intro st changed h _ _
    exact ⟨h, fun y => Iff.rfl⟩
  | cons x rest ih =>
    intro st changed h hsub hnd
    rw [List.nodup_cons] at hnd
    rcases hf : dmFind minB maxB rc bIdx st x with _ | t
    · rw [drainMoves_cons_none minB maxB rc bIdx x rest st changed hf]
      exact ih st changed h (fun y hy => hsub y (List.mem_cons_of_mem _ hy)) hnd.2
    · have htmem : t < st.blocks.length :=
        List.mem_range.1 (List.mem_of_find?_eq_some hf)
      have hp := List.find?_some hf
      simp only [Bool.and_eq_true, decide_eq_true_eq] at hp
      have htb : t ≠ bIdx := hp.1.1.1
      have hguard : ∀ c', lookupAssoc rc x = some c' → c' ≠ 0 →
          c' ∉ st.bcl.getD t [] := by
        intro c' he' hc' hmem'
        have h2 := hp.2
        simp only [he'] at h2
        rw [Bool.not_eq_true'] at h2
        rw [(by simpa using hmem' : (st.bcl.getD t []).contains c' = true)] at h2
        exact Bool.noConfusion h2
      have hxmem : x ∈ st.blocks.getD bIdx [] := hsub x (List.mem_cons_self _ _)
      obtain ⟨hinv', hmem', herase⟩ :=
        dmMove_facts n rc st h t bIdx x htmem htb hxmem hguard
      rw [drainMoves_cons_some minB maxB rc bIdx x rest st changed t hf]
      by_cases hz : ((dmMove rc bIdx t x st).blocks.getD bIdx []).length = 0
      · rw [if_pos hz]
        exact ⟨hinv', hmem'⟩
      · rw [if_neg hz]
        have hsub' : ∀ y ∈ rest,
            y ∈ (dmMove rc bIdx t x st).blocks.getD bIdx [] := by
          intro y hy
          rw [herase]
          refine (List.mem_erase_of_ne (fun he => hnd.1 ?_)).2
            (hsub y (List.mem_cons_of_mem _ hy))
          rw [← he]
          exact hy
        obtain ⟨h2, h2m⟩ := ih (dmMove rc bIdx t x st) true hinv' hsub' hnd.2
        exact ⟨h2, fun y => (h2m y).trans (hmem' y)⟩

/-- One pass over the undersized blocks preserves the invariant and the
assigned-record set. -/
theorem drainIteration_inv (n : Nat) (rc : List (Nat × Nat)) (minB maxB : Nat)
    (smalls : List Nat) (st : DState) (hinv : DInv n rc st) :
    DInv n rc (drainIteration minB maxB rc smalls st).1 ∧
      ∀ y, memB (drainIteration minB maxB rc smalls st).1.blocks y ↔
        memB st.blocks y := by
  have main : ∀ (l : List Nat) (acc : DState × Bool),
      DInv n rc acc.1 → (∀ y, memB acc.1.blocks y ↔ memB st.blocks y) →
      DInv n rc (l.foldl (fun acc bIdx =>
        if (acc.1.blocks.getD bIdx []).length = 0 then acc
        else drainMoves minB maxB rc bIdx (acc.1.blocks.getD bIdx [])
          acc.1 acc.2) acc).1 ∧
      ∀ y, memB (l.foldl (fun acc bIdx =>
        if (acc.1.blocks.getD bIdx []).length = 0 then acc
        else drainMoves minB maxB rc bIdx (acc.1.blocks.getD bIdx [])
          acc.1 acc.2) acc).1.blocks y ↔ memB st.blocks y := by
    intro l
    induction l with
    | nil =>
      intro acc h hm
      exact ⟨h, hm⟩
    | cons b bs ih =>
      intro acc h hm
      rw [List.foldl_cons]
      by_cases hz : (acc.1.blocks.getD b []).length = 0
      · rw [if_pos hz]
        exact ih acc h hm
      · rw [if_neg hz]
        have hbl : b < acc.1.blocks.length := by
          by_contra hcon
          push_neg at hcon
          rw [getD_eq_default_of_le _ _ _ hcon] at hz
          simp at hz
        have hsnod : (acc.1.blocks.getD b []).Nodup := by
          have hmem2 : acc.1.blocks.getD b [] ∈ acc.1.blocks := by
            rw [getD_eq_getElem_of_lt _ _ _ hbl]
            exact List.getElem_mem hbl
          exact (h.2.2.1 _ hmem2).1
        obtain ⟨h2, h2m⟩ := drainMoves_inv n rc minB maxB b
          (acc.1.blocks.getD b []) acc.1 acc.2 h (fun x hx => hx) hsnod
        refine ih (drainMoves minB maxB rc b (acc.1.blocks.getD b [])
          acc.1 acc.2) h2 ?_
        intro y
        exact (h2m y).trans (hm y)
  exact main smalls (st, false) hinv (fun y => Iff.rfl)

/-- The bounded rebalancing loop preserves the invariant and the
assigned-record set. -/
theorem rebalanceLoop_inv (n : Nat) (rc : List (Nat × Nat)) (minB maxB : Nat) :
    ∀ (fuel : Nat) (st : DState), DInv n rc st →
      DInv n rc (rebalanceLoop minB maxB rc fuel st) ∧
        ∀ y, memB (rebalanceLoop minB maxB rc fuel st).blocks y ↔
          memB st.blocks y := by
  intro fuel
  induction fuel with
  | zero =>
    intro st h
    exact ⟨h, fun y => Iff.rfl⟩
  | succ it ih =>
    intro st h
    simp only [rebalanceLoop]
    by_cases hs : (List.range st.blocks.length).filter
        (fun b => decide ((st.blocks.getD b []).length < minB)) = []
    · rw [if_pos hs]
      exact ⟨h, fun y => Iff.rfl⟩
    · rw [if_neg hs]
      obtain ⟨h1, h1m⟩ := drainIteration_inv n rc minB maxB
        ((List.range st.blocks.length).filter
          (fun b => decide ((st.blocks.getD b []).length < minB))) st h
      by_cases hr : (drainIteration minB maxB rc
          ((List.range st.blocks.length).filter
            (fun b => decide ((st.blocks.getD b []).length < minB))) st).2
      · rw [if_pos hr]
        obtain ⟨h2, h2m⟩ := ih _ h1
        exact ⟨h2, fun y => (h2m y).trans (h1m y)⟩
      · rw [if_neg hr]
        exact ⟨h1, h1m⟩

/-!
## Claim C1: consolidation, cleanup and fallback
-/

/-- Writing a slot's own value back is a no-op. -/
theorem set_getD_self {α : Type} (l : List α) (k : Nat) (d : α)
    (h : k < l.length) : l.set k (l.getD k d) = l := by
  apply List.ext_getElem?
  intro m
  by_cases hm : m = k
  · subst hm
    rw [List.getElem?_set_self h, List.getElem?_eq_getElem h,
      getD_eq_getElem_of_lt l m d h]
  · rw [List.getElem?_set_ne (fun he => hm he.symm)]

/-- The cluster sets after one consolidation move, unclustered case. -/
theorem miStep_bcl_falsy (rc : List (Nat × Nat)) (b1 b2 : Nat) (st : DState)
    (x : Nat) (hc : (lookupAssoc rc x).getD 0 = 0) :
    (miStep rc b1 b2 st x).bcl = st.bcl := by
  have hproj : (miStep rc b1 b2 st x).bcl =
      (if (lookupAssoc rc x).getD 0 ≠ 0 then
        ((if (lookupAssoc rc x).getD 0 ≠ 0 then
            st.bcl.set b1 (insertSet (st.bcl.getD b1 [])
              ((lookupAssoc rc x).getD 0))
          else st.bcl).set b2
          (discardSet ((if (lookupAssoc rc x).getD 0 ≠ 0 then
              st.bcl.set b1 (insertSet (st.bcl.getD b1 [])
                ((lookupAssoc rc x).getD 0))
            else st.bcl).getD b2 []) ((lookupAssoc rc x).getD 0)))
      else (if (lookupAssoc rc x).getD 0 ≠ 0 then
          st.bcl.set b1 (insertSet (st.bcl.getD b1 [])
            ((lookupAssoc rc x).getD 0))
        else st.bcl)) := rfl
  rw [hproj, if_neg (not_not_intro hc), if_neg (not_not_intro hc)]

/-- The cluster sets after one consolidation move, clustered case. -/
theorem miStep_bcl_cluster (rc : List (Nat × Nat)) (b1 b2 : Nat) (st : DState)
    (x c : Nat) (hne : b1 ≠ b2)
    (hsome : lookupAssoc rc x = some c) (hc : c ≠ 0) :
    (miStep rc b1 b2 st x).bcl =
      (st.bcl.set b1 (insertSet (st.bcl.getD b1 []) c)).set b2
        (discardSet (st.bcl.getD b2 []) c) := by
  have hgd : (lookupAssoc rc x).getD 0 = c := by rw [hsome]; rfl
  have hproj : (miStep rc b1 b2 st x).bcl =
      (if (lookupAssoc rc x).getD 0 ≠ 0 then
        ((if (lookupAssoc rc x).getD 0 ≠ 0 then
            st.bcl.set b1 (insertSet (st.bcl.getD b1 [])
              ((lookupAssoc rc x).getD 0))
          else st.bcl).set b2
          (discardSet ((if (lookupAssoc rc x).getD 0 ≠ 0 then
              st.bcl.set b1 (insertSet (st.bcl.getD b1 [])
                ((lookupAssoc rc x).getD 0))
            else st.bcl).getD b2 []) ((lookupAssoc rc x).getD 0)))
      else (if (lookupAssoc rc x).getD 0 ≠ 0 then
          st.bcl.set b1 (insertSet (st.bcl.getD b1 [])
            ((lookupAssoc rc x).getD 0))
        else st.bcl)) := rfl
  rw [hproj, hgd, if_pos hc, if_pos hc,
    getD_set_ne st.bcl b1 b2 _ _ (Ne.symm hne)]

/-- The blocks after all consolidation moves of one pair: everything of the
source appended to the destination. -/
theorem miFold_blocks (rc : List (Nat × Nat)) (b1 b2 : Nat) :
    ∀ (l : List Nat) (st : DState), b1 < st.blocks.length →
      (l.foldl (miStep rc b1 b2) st).blocks =
        st.blocks.set b1 ((st.blocks.getD b1 []) ++ l) := by
  intro l
  induction l with
  | nil =>
    intro st hb1
    rw [List.foldl_nil, List.append_nil, set_getD_self st.blocks b1 [] hb1]
  | cons x xs ih =>
    intro st hb1
    rw [List.foldl_cons]
    have hstep : (miStep rc b1 b2 st x).blocks =
        st.blocks.set b1 ((st.blocks.getD b1 []) ++ [x]) := rfl
    rw [ih (miStep rc b1 b2 st x) (by rw [hstep]; simpa using hb1), hstep,
      getD_set_self st.blocks b1 _ _ hb1, List.set_set, List.append_assoc]
    rfl

/-- Consolidation moves keep the cluster-set list length. -/
theorem miFold_bcl_len (rc : List (Nat × Nat)) (b1 b2 : Nat) :
    ∀ (l : List Nat) (st : DState),
      (l.foldl (miStep rc b1 b2) st).bcl.length = st.bcl.length := by
  intro l
  induction l with
  | nil => intro st; rfl
  | cons x xs ih =>
    intro st
    rw [List.foldl_cons, ih]
    by_cases hc : (lookupAssoc rc x).getD 0 = 0
    · rw [miStep_bcl_falsy rc b1 b2 st x hc]
    · have hsome := getD_zero_eq_some (lookupAssoc rc x) _ rfl hc
      by_cases hne : b1 = b2
      · subst hne
        have hproj : (miStep rc b1 b1 st x).bcl.length = st.bcl.length := by
          have h2 : (miStep rc b1 b1 st x).bcl =
              (if (lookupAssoc rc x).getD 0 ≠ 0 then
                ((if (lookupAssoc rc x).getD 0 ≠ 0 then
                    st.bcl.set b1 (insertSet (st.bcl.getD b1 [])
                      ((lookupAssoc rc x).getD 0))
                  else st.bcl).set b1
                  (discardSet ((if (lookupAssoc rc x).getD 0 ≠ 0 then
                      st.bcl.set b1 (insertSet (st.bcl.getD b1 [])
                        ((lookupAssoc rc x).getD 0))
                    else st.bcl).getD b1 []) ((lookupAssoc rc x).getD 0)))
              else (if (lookupAssoc rc x).getD 0 ≠ 0 then
                  st.bcl.set b1 (insertSet (st.bcl.getD b1 [])
                    ((lookupAssoc rc x).getD 0))
                else st.bcl)) := rfl
          rw [h2, if_pos hc, if_pos hc]
          simp
        exact hproj
      · rw [miStep_bcl_cluster rc b1 b2 st x _ hne hsome hc]
        simp

/-- Consolidation moves leave unrelated cluster sets alone. -/
theorem miFold_bcl_other (rc : List (Nat × Nat)) (b1 b2 k : Nat)
    (hk1 : k ≠ b1) (hk2 : k ≠ b2) :
    ∀ (l : List Nat) (st : DState),
      (l.foldl (miStep rc b1 b2) st).bcl.getD k [] = st.bcl.getD k [] := by
  intro l
  induction l with
  | nil => intro st; rfl
  | cons x xs ih =>
    intro st
    rw [List.foldl_cons, ih]
    by_cases hc : (lookupAssoc rc x).getD 0 = 0
    · rw [miStep_bcl_falsy rc b1 b2 st x hc]
    · have hsome := getD_zero_eq_some (lookupAssoc rc x) _ rfl hc
      by_cases hne : b1 = b2
      · subst hne
        have h2 : (miStep rc b1 b1 st x).bcl =
            ((st.bcl.set b1 (insertSet (st.bcl.getD b1 [])
              ((lookupAssoc rc x).getD 0))).set b1
              (discardSet ((st.bcl.set b1 (insertSet (st.bcl.getD b1 [])
                ((lookupAssoc rc x).getD 0))).getD b1 [])
                ((lookupAssoc rc x).getD 0))) := by
          have h3 : (miStep rc b1 b1 st x).bcl =
              (if (lookupAssoc rc x).getD 0 ≠ 0 then
                ((if (lookupAssoc rc x).getD 0 ≠ 0 then
                    st.bcl.set b1 (insertSet (st.bcl.getD b1 [])
                      ((lookupAssoc rc x).getD 0))
                  else st.bcl).set b1
                  (discardSet ((if (lookupAssoc rc x).getD 0 ≠ 0 then
                      st.bcl.set b1 (insertSet (st.bcl.getD b1 [])
                        ((lookupAssoc rc x).getD 0))
                    else st.bcl).getD b1 []) ((lookupAssoc rc x).getD 0)))
              else (if (lookupAssoc rc x).getD 0 ≠ 0 then
                  st.bcl.set b1 (insertSet (st.bcl.getD b1 [])
                    ((lookupAssoc rc x).getD 0))
                else st.bcl)) := rfl
          rw [h3, if_pos hc, if_pos hc]
        rw [h2, getD_set_ne _ b1 k _ _ hk1, getD_set_ne st.bcl b1 k _ _ hk1]
      · rw [miStep_bcl_cluster rc b1 b2 st x _ hne hsome hc,
          getD_set_ne _ b2 k _ _ hk2, getD_set_ne st.bcl b1 k _ _ hk1]

/-- Consolidation moves never remove ids from the destination cluster
set. -/
theorem miFold_bcl_b1_mono (rc : List (Nat × Nat)) (b1 b2 : Nat)
    (hne : b1 ≠ b2) :
    ∀ (l : List Nat) (st : DState) (y : Nat), y ∈ st.bcl.getD b1 [] →
      y ∈ (l.foldl (miStep rc b1 b2) st).bcl.getD b1 [] := by
  intro l
  induction l with
  | nil => intro st y hy; exact hy
  | cons x xs ih =>
    intro st y hy
    rw [List.foldl_cons]
    refine ih (miStep rc b1 b2 st x) y ?_
    by_cases hc : (lookupAssoc rc x).getD 0 = 0
    · rw [miStep_bcl_falsy rc b1 b2 st x hc]
      exact hy
    · have hsome := getD_zero_eq_some (lookupAssoc rc x) _ rfl hc
      rw [miStep_bcl_cluster rc b1 b2 st x _ hne hsome hc]
      rw [getD_set_ne _ b2 b1 _ _ hne]
      by_cases hb1 : b1 < st.bcl.length
      · rw [getD_set_self st.bcl b1 _ _ hb1]
        exact mem_insertSet_of_mem _ _ _ hy
      · push_neg at hb1
        rw [getD_eq_default_of_le st.bcl b1 [] hb1] at hy
        simp at hy

/-- Every clustered id moved by consolidation lands in the destination
cluster set. -/
theorem miFold_bcl_b1_adds (rc : List (Nat × Nat)) (b1 b2 : Nat)
    (hne : b1 ≠ b2) :
    ∀ (l : List Nat) (st : DState), b1 < st.bcl.length →
      ∀ x ∈ l, ∀ c, lookupAssoc rc x = some c → c ≠ 0 →
        c ∈ (l.foldl (miStep rc b1 b2) st).bcl.getD b1 [] := by
  intro l
  induction l with
  | nil =>
    intro st _ x hx
    simp at hx
  | cons x0 xs ih =>
    intro st hb1 x hx c hcl hc
    rw [List.foldl_cons]
    rcases List.mem_cons.1 hx with h1 | h1
    · subst h1
      refine miFold_bcl_b1_mono rc b1 b2 hne xs (miStep rc b1 b2 st x) c ?_
      have hcd : (lookupAssoc rc x).getD 0 = c := by rw [hcl]; rfl
      have hc0 : ¬ (lookupAssoc rc x).getD 0 = 0 := by rw [hcd]; exact hc
      rw [miStep_bcl_cluster rc b1 b2 st x c hne hcl hc,
        getD_set_ne _ b2 b1 _ _ hne, getD_set_self st.bcl b1 _ _ hb1]
      exact mem_insertSet_self _ _
    · refine ih (miStep rc b1 b2 st x0) ?_ x h1 c hcl hc
      have hlen : (miStep rc b1 b2 st x0).bcl.length = st.bcl.length := by
        have := miFold_bcl_len rc b1 b2 [x0] st
        simpa using this
      omega

/-- What `canConsolidate` checks. -/
theorem canConsolidate_spec (rc : List (Nat × Nat)) (st : DState) (b1 b2 : Nat)
    (h : canConsolidate rc st b1 b2 = true) :
    ∀ idx ∈ st.blocks.getD b2 [], ∀ c, lookupAssoc rc idx = some c → c ≠ 0 →
      c ∉ st.bcl.getD b1 [] := by
  intro idx hidx c hc hcne hmem
  have h2 := List.all_eq_true.1 h idx hidx
  simp only [hc] at h2
  rw [if_pos hcne, Bool.not_eq_true'] at h2
  rw [(by simpa using hmem : (st.bcl.getD b1 []).contains c = true)] at h2
  exact Bool.noConfusion h2

/-- Merging a consolidation-safe block preserves the invariant, the
assigned-record set and the block count. -/
theorem mergeInto_inv (n : Nat) (rc : List (Nat × Nat)) (st : DState)
    (hinv : DInv n rc st) (b1 b2 : Nat) (hne : b1 ≠ b2)
    (hb1 : b1 < st.blocks.length) (hb2 : b2 < st.blocks.length)
    (hcan : canConsolidate rc st b1 b2 = true) :
    DInv n rc (mergeInto rc st b1 b2) ∧
      (∀ y, memB (mergeInto rc st b1 b2).blocks y ↔ memB st.blocks y) ∧
      (mergeInto rc st b1 b2).blocks.length = st.blocks.length := by
  obtain ⟨hlen, hpw, hnd, hcnt, hsnd⟩ := hinv
  have hb1c : b1 < st.bcl.length := by omega
  have hMb : (mergeInto rc st b1 b2).blocks =
      (st.blocks.set b1 ((st.blocks.getD b1 []) ++ (st.blocks.getD b2 []))).set
        b2 [] := by
    have hproj : (mergeInto rc st b1 b2).blocks =
        ((st.blocks.getD b2 []).foldl (miStep rc b1 b2) st).blocks.set b2 [] :=
      rfl
    rw [hproj, miFold_blocks rc b1 b2 _ st hb1]
  have hMc : (mergeInto rc st b1 b2).bcl =
      ((st.blocks.getD b2 []).foldl (miStep rc b1 b2) st).bcl := rfl
  have hg1mem : st.blocks.getD b1 [] ∈ st.blocks := by
    rw [getD_eq_getElem_of_lt _ _ _ hb1]
    exact List.getElem_mem hb1
  have hg2mem : st.blocks.getD b2 [] ∈ st.blocks := by
    rw [getD_eq_getElem_of_lt _ _ _ hb2]
    exact List.getElem_mem hb2
  have hlen3 : b2 < (st.blocks.set b1 ((st.blocks.getD b1 []) ++
      (st.blocks.getD b2 []))).length := by simpa using hb2
  have Bg1 : ((st.blocks.set b1 ((st.blocks.getD b1 []) ++
      (st.blocks.getD b2 []))).set b2 []).getD b1 [] =
      (st.blocks.getD b1 []) ++ (st.blocks.getD b2 []) := by
    rw [getD_set_ne _ b2 b1 _ _ hne, getD_set_self st.blocks b1 _ _ hb1]
  have Bg2 : ((st.blocks.set b1 ((st.blocks.getD b1 []) ++
      (st.blocks.getD b2 []))).set b2 []).getD b2 [] = [] := by
    rw [getD_set_self _ b2 _ _ hlen3]
  have Bm : ∀ m, m ≠ b1 → m ≠ b2 →
      ((st.blocks.set b1 ((st.blocks.getD b1 []) ++
        (st.blocks.getD b2 []))).set b2 []).getD m [] =
      st.blocks.getD m [] := by
    intro m hm1 hm2
    rw [getD_set_ne _ b2 m _ _ hm2, getD_set_ne st.blocks b1 m _ _ hm1]
  refine ⟨⟨?_, ?_, ?_, ?_, ?_⟩, ?_, ?_⟩
  · rw [hMb, hMc, miFold_bcl_len rc b1 b2 (st.blocks.getD b2 []) st]
    simpa using hlen
  · rw [hMb, List.set_comm _ _ _ hne]
    have e1 : (st.blocks.set b2 []).getD b1 [] = st.blocks.getD b1 [] :=
      getD_set_ne st.blocks b2 b1 _ _ hne
    rw [← e1]
    refine pairwise_bdisj_set_append _ b1 (st.blocks.getD b2 []) ?_ ?_
    · refine pairwise_bdisj_set_sub st.blocks b2 [] hpw ?_
      intro i' hi'
      simp at hi'
    · intro idx hidx m hm1
      by_cases hm2 : m = b2
      · rw [hm2, getD_set_self st.blocks b2 _ _ hb2]
        simp
      · rw [getD_set_ne st.blocks b2 m _ _ hm2]
        exact disj_getD st.blocks hpw b2 m (fun he => hm2 he.symm) idx hidx
  · rw [hMb]
    intro b' hb'
    rcases List.mem_or_eq_of_mem_set hb' with h1 | h1
    · rcases List.mem_or_eq_of_mem_set h1 with h2 | h2
      · exact hnd b' h2
      · subst h2
        constructor
        · rw [List.nodup_append]
          exact ⟨(hnd _ hg1mem).1, (hnd _ hg2mem).1,
            fun a ha => disj_getD st.blocks hpw b1 b2 hne a ha⟩
        · intro i' hi'
          rcases List.mem_append.1 hi' with h3 | h3
          · exact (hnd _ hg1mem).2 i' h3
          · exact (hnd _ hg2mem).2 i' h3
    · subst h1
      exact ⟨by simp, by simp⟩
  · rw [hMb]
    intro b' hb' cid' hcid'
    rcases List.mem_or_eq_of_mem_set hb' with h1 | h1
    · rcases List.mem_or_eq_of_mem_set h1 with h2 | h2
      · exact hcnt b' h2 cid' hcid'
      · subst h2
        rw [List.countP_append]
        by_cases hz : (st.blocks.getD b2 []).countP (cidP rc cid') = 0
        · rw [hz]
          have h4 := hcnt _ hg1mem cid' hcid'
          omega
        · obtain ⟨y, hy, hpy⟩ := List.countP_pos_iff.1 (Nat.pos_of_ne_zero hz)
          simp only [cidP, decide_eq_true_eq] at hpy
          have hnot := canConsolidate_spec rc st b1 b2 hcan y hy cid' hpy hcid'
          have hz1 : (st.blocks.getD b1 []).countP (cidP rc cid') = 0 :=
            countP_zero_of_not_bcl n rc st ⟨hlen, hpw, hnd, hcnt, hsnd⟩ b1 cid'
              hcid' hnot
          rw [hz1]
          have h4 := hcnt _ hg2mem cid' hcid'
          omega
    · subst h1
      simp
  · intro k idx' hmemk cid' hl' hc'
    rw [hMb] at hmemk
    rw [hMc]
    by_cases hk2 : k = b2
    · rw [hk2, Bg2] at hmemk
      simp at hmemk
    · by_cases hk1 : k = b1
      · rw [hk1, Bg1] at hmemk
        rw [hk1]
        rcases List.mem_append.1 hmemk with h1 | h1
        · exact miFold_bcl_b1_mono rc b1 b2 hne _ st cid'
            (hsnd b1 idx' h1 cid' hl' hc')
        · exact miFold_bcl_b1_adds rc b1 b2 hne _ st hb1c idx' h1 cid' hl' hc'
      · rw [Bm k hk1 hk2] at hmemk
        rw [miFold_bcl_other rc b1 b2 k hk1 hk2]
        exact hsnd k idx' hmemk cid' hl' hc'
  · intro y
    rw [hMb]
    constructor
    · rintro ⟨k, hk⟩
      by_cases hk2 : k = b2
      · rw [hk2, Bg2] at hk
        simp at hk
      · by_cases hk1 : k = b1
        · rw [hk1, Bg1] at hk
          rcases List.mem_append.1 hk with h1 | h1
          · exact ⟨b1, h1⟩
          · exact ⟨b2, h1⟩
        · rw [Bm k hk1 hk2] at hk
          exact ⟨k, hk⟩
    · rintro ⟨k, hk⟩
      by_cases hk2 : k = b2
      · refine ⟨b1, ?_⟩
        rw [Bg1]
        exact List.mem_append_right _ (hk2 ▸ hk)
      · by_cases hk1 : k = b1
        · refine ⟨b1, ?_⟩
          rw [Bg1]
          exact List.mem_append_left _ (hk1 ▸ hk)
        · refine ⟨k, ?_⟩
          rw [Bm k hk1 hk2]
          exact hk
  · rw [hMb]
    simp

/-- The inner consolidation loop preserves the invariant, the
assigned-record set and the block count. -/
theorem consolidateInner_inv (n : Nat) (rc : List (Nat × Nat))
    (maxB minB b1 : Nat) :
    ∀ (rest : List Nat) (st : DState), DInv n rc st →
      b1 < st.blocks.length → (∀ b ∈ rest, b < st.blocks.length) →
      b1 ∉ rest →
      DInv n rc (consolidateInner rc maxB minB b1 rest st) ∧
        (∀ y, memB (consolidateInner rc maxB minB b1 rest st).blocks y ↔
          memB st.blocks y) ∧
        (consolidateInner rc maxB minB b1 rest st).blocks.length =
          st.blocks.length := by
  intro rest
  induction rest with
  | nil =>
    intro st h _ _ _
    exact ⟨h, fun y => Iff.rfl, rfl⟩
  | cons b2 bs ih =>
    intro st h hb1 hbs hb1n
    have hb2 : b2 < st.blocks.length := hbs b2 (List.mem_cons_self _ _)
    have hb1ne : b1 ≠ b2 := fun he => hb1n (he ▸ List.mem_cons_self _ _)
    have hbs' : ∀ b ∈ bs, b < st.blocks.length :=
      fun b hb => hbs b (List.mem_cons_of_mem _ hb)
    have hb1n' : b1 ∉ bs := fun hc => hb1n (List.mem_cons_of_mem _ hc)
    rw [consolidateInner]
    by_cases h1 : (st.blocks.getD b2 []).length = 0
    · rw [if_pos h1]
      exact ih st h hb1 hbs' hb1n'
    · rw [if_neg h1]
      by_cases h2 : maxB < (st.blocks.getD b1 []).length +
          (st.blocks.getD b2 []).length
      · rw [if_pos h2]
        exact ih st h hb1 hbs' hb1n'
      · rw [if_neg h2]
        by_cases h3 : canConsolidate rc st b1 b2 = true
        · rw [if_pos h3]
          obtain ⟨hm, hmm, hml⟩ := mergeInto_inv n rc st h b1 b2 hb1ne hb1 hb2 h3
          by_cases h4 : minB ≤ ((mergeInto rc st b1 b2).blocks.getD b1 []).length
          · rw [if_pos h4]
            exact ⟨hm, hmm, hml⟩
          · rw [if_neg h4]
            obtain ⟨k1, k2, k3⟩ := ih (mergeInto rc st b1 b2) hm
              (by rw [hml]; exact hb1)
              (fun b hb => by rw [hml]; exact hbs' b hb) hb1n'
            exact ⟨k1, fun y => (k2 y).trans (hmm y), k3.trans hml⟩
        · rw [if_neg h3]
          exact ih st h hb1 hbs' hb1n'

/-- The pairwise consolidation pass preserves the invariant, the
assigned-record set and the block count. -/
theorem consolidatePass_inv (n : Nat) (rc : List (Nat × Nat))
    (maxB minB : Nat) :
    ∀ (l : List Nat) (st : DState), DInv n rc st →
      (∀ b ∈ l, b < st.blocks.length) → l.Nodup →
      DInv n rc (consolidatePass rc maxB minB l st) ∧
        (∀ y, memB (consolidatePass rc maxB minB l st).blocks y ↔
          memB st.blocks y) ∧
        (consolidatePass rc maxB minB l st).blocks.length =
          st.blocks.length := by
  intro l
  induction l with
  | nil =>
    intro st h _ _
    exact ⟨h, fun y => Iff.rfl, rfl⟩
  | cons b1 bs ih =>
    intro st h hbl hnd
    rw [List.nodup_cons] at hnd
    have hb1 : b1 < st.blocks.length := hbl b1 (List.mem_cons_self _ _)
    have hbs : ∀ b ∈ bs, b < st.blocks.length :=
      fun b hb => hbl b (List.mem_cons_of_mem _ hb)
    rw [consolidatePass]
    by_cases h1 : (st.blocks.getD b1 []).length = 0
    · rw [if_pos h1]
      exact ih st h hbs hnd.2
    · rw [if_neg h1]
      obtain ⟨k1, k2, k3⟩ := consolidateInner_inv n rc maxB minB b1 bs st h
        hb1 hbs hnd.1
      obtain ⟨m1, m2, m3⟩ := ih (consolidateInner rc maxB minB b1 bs st) k1
        (fun b hb => by rw [k3]; exact hbs b hb) hnd.2
      exact ⟨m1, fun y => (m2 y).trans (k2 y), m3.trans k3⟩

/-- Cleanup keeps the post-cleanup invariant and the assigned-record
set. -/
theorem cleanupBlocks_facts (n : Nat) (rc : List (Nat × Nat)) (st : DState)
    (hinv : DInv n rc st) :
    CInv n rc (cleanupBlocks st) ∧
      ∀ y, memB (cleanupBlocks st).blocks y ↔ memB st.blocks y := by
  obtain ⟨hlen, hpw, hnd, hcnt, hsnd⟩ := hinv
  have hb : (cleanupBlocks st).blocks =
      st.blocks.filter (fun b => decide (0 < b.length)) := rfl
  refine ⟨⟨?_, ?_, ?_⟩, ?_⟩
  · rw [hb]
    exact List.Pairwise.sublist (List.filter_sublist _) hpw
  · rw [hb]
    intro b hbm
    exact hnd b (List.mem_of_mem_filter hbm)
  · rw [hb]
    intro b hbm
    exact hcnt b (List.mem_of_mem_filter hbm)
  · intro y
    rw [hb]
    constructor
    · intro hm
      obtain ⟨bb, hbb, hyb⟩ := (mem_getD_iff _ y).1 hm
      exact (mem_getD_iff _ y).2 ⟨bb, List.mem_of_mem_filter hbb, hyb⟩
    · intro hm
      obtain ⟨bb, hbb, hyb⟩ := (mem_getD_iff _ y).1 hm
      refine (mem_getD_iff _ y).2 ⟨bb, ?_, hyb⟩
      rw [List.mem_filter]
      exact ⟨hbb, by simpa using List.length_pos_of_mem hyb⟩

/-- With every record already placed, the defensive fallback loop does
nothing. -/
theorem fallbackAssign_noop (maxB n : Nat) (st : DState)
    (hcov : ∀ idx, idx < n → memB st.blocks idx) :
    fallbackAssign maxB n st = st := by
  have hassigned : ∀ idx, idx < n →
      st.blocks.any (fun b => b.contains idx) = true := by
    intro idx hidx
    obtain ⟨bb, hbb, hib⟩ := (mem_getD_iff _ idx).1 (hcov idx hidx)
    exact List.any_eq_true.2 ⟨bb, hbb, by simpa using hib⟩
  have main : ∀ (l : List Nat), (∀ idx ∈ l, idx < n) →
      (l.foldl (fun st' idx =>
        if st.blocks.any (fun b => b.contains idx) then st'
        else
          match st'.blocks.getLast? with
          | some lastB =>
            if lastB.length < maxB then
              ⟨st'.blocks.set (st'.blocks.length - 1) (lastB ++ [idx]), st'.bcl⟩
            else ⟨st'.blocks ++ [[idx]], st'.bcl ++ [[]]⟩
          | none => ⟨st'.blocks ++ [[idx]], st'.bcl ++ [[]]⟩) st) = st := by
    intro l
    induction l with
    | nil =>
      intro _
      rfl
    | cons x xs ih =>
      intro hl
      rw [List.foldl_cons, if_pos (hassigned x (hl x (List.mem_cons_self _ _)))]
      exact ih (fun idx hidx => hl idx (List.mem_cons_of_mem _ hidx))
  exact main (List.range n) (fun idx hidx => List.mem_range.1 hidx)

/-- The guarded rebalancing passes keep the post-cleanup invariant and the
assigned-record set. -/
theorem rebalanced_facts (n : Nat) (rc : List (Nat × Nat)) (maxB minB : Nat)
    (st3 : DState) (h : DInv n rc st3) :
    CInv n rc (rebalanced maxB minB rc st3) ∧
      ∀ y, memB (rebalanced maxB minB rc st3).blocks y ↔ memB st3.blocks y := by
  simp only [rebalanced]
  by_cases h1 : 1 < st3.blocks.length
  · rw [if_pos h1]
    obtain ⟨r1, r1m⟩ := rebalanceLoop_inv n rc minB maxB 20 st3 h
    by_cases h2 : 1 <
        ((List.range (rebalanceLoop minB maxB rc 20 st3).blocks.length).filter
          (fun b => decide (((rebalanceLoop minB maxB rc 20
            st3).blocks.getD b []).length < minB))).length
    · rw [if_pos h2]
      have hsm : ∀ b ∈
          (List.range (rebalanceLoop minB maxB rc 20 st3).blocks.length).filter
            (fun b => decide (((rebalanceLoop minB maxB rc 20
              st3).blocks.getD b []).length < minB)),
          b < (rebalanceLoop minB maxB rc 20 st3).blocks.length := by
        intro b hb
        exact List.mem_range.1 (List.mem_of_mem_filter hb)
      have hsmnd := (List.nodup_range
          ((rebalanceLoop minB maxB rc 20 st3).blocks.length)).filter
        (fun b => decide (((rebalanceLoop minB maxB rc 20
          st3).blocks.getD b []).length < minB))
      obtain ⟨c1, c2, c3⟩ := consolidatePass_inv n rc maxB minB _ _ r1 hsm hsmnd
      obtain ⟨d1, d2⟩ := cleanupBlocks_facts n rc _ c1
      exact ⟨d1, fun y => (d2 y).trans ((c2 y).trans (r1m y))⟩
    · rw [if_neg h2]
      obtain ⟨d1, d2⟩ := cleanupBlocks_facts n rc _ r1
      exact ⟨d1, fun y => (d2 y).trans (r1m y)⟩
  · rw [if_neg h1]
    exact ⟨DInv_CInv n rc st3 h, fun y => Iff.rfl⟩

/-!
## Claim C1: block numbering writes each member its block's number
-/

/-- A fold of single-value writes keeps the length. -/
theorem setFold_length (v' : Option Nat) :
    ∀ (l : List Nat) (a : List (Option Nat)),
      (l.foldl (fun a' idx => a'.set idx v') a).length = a.length := by
  intro l
  induction l with
  | nil =>
    intro a
    rfl
  | cons x xs ih =>
    intro a
    rw [List.foldl_cons, ih]
    simp

/-- A fold of single-value writes leaves other entries alone. -/
theorem setFold_get_ne (v' : Option Nat) (j : Nat) :
    ∀ (l : List Nat) (a : List (Option Nat)), j ∉ l →
      (l.foldl (fun a' idx => a'.set idx v') a)[j]? = a[j]? := by
  intro l
  induction l with
  | nil =>
    intro a _
    rfl
  | cons x xs ih =>
    intro a hj
    rw [List.foldl_cons, ih _ (fun hc => hj (List.mem_cons_of_mem _ hc)),
      List.getElem?_set_ne (fun he => hj (List.mem_cons.2 (Or.inl he.symm)))]

/-- A fold of single-value writes sets every written in-range entry. -/
theorem setFold_get_mem (v' : Option Nat) (j : Nat) :
    ∀ (l : List Nat) (a : List (Option Nat)), j ∈ l → j < a.length →
      (l.foldl (fun a' idx => a'.set idx v') a)[j]? = some v' := by
  intro l
  induction l with
  | nil =>
    intro a hj
    simp at hj
  | cons x xs ih =>
    intro a hj hlen
    rw [List.foldl_cons]
    by_cases hx : j ∈ xs
    · exact ih _ hx (by rw [List.length_set]; exact hlen)
    · have hxj : x = j := by
        rcases List.mem_cons.1 hj with h1 | h1
        · exact h1.symm
        · exact absurd h1 hx
      subst hxj
      rw [setFold_get_ne v' x xs _ hx, List.getElem?_set_self hlen]

/-- The numbering loop writes `start + k` to every member of block `k`
when no record sits in two blocks. -/
theorem numberBlocks_get (start : Nat) (blocks : List (List Nat))
    (asg : List (Option Nat)) (idx k0 : Nat)
    (hmem : idx ∈ blocks.getD k0 [])
    (huniq : ∀ k, idx ∈ blocks.getD k [] → k = k0)
    (hl : idx < asg.length) :
    (numberBlocks start blocks asg)[idx]? = some (some (start + k0)) := by
  unfold numberBlocks
  have hk0 : k0 < blocks.length := lt_length_of_mem_getD _ _ _ hmem
  have main : ∀ (ps : List (Nat × List Nat)) (a : List (Option Nat)),
      (∀ p ∈ ps, blocks[p.1]? = some p.2) → idx < a.length →
      (a[idx]? = some (some (start + k0)) ∨ ∃ p ∈ ps, idx ∈ p.2) →
      (ps.foldl (fun a p => p.2.foldl
        (fun a' i' => a'.set i' (some (start + p.1))) a) a)[idx]? =
        some (some (start + k0)) := by
    intro ps
    induction ps with
    | nil =>
      intro a _ _ hst
      rcases hst with h1 | h1
      · exact h1
      · simp at h1
    | cons p ps' ih =>
      intro a hps hlen hst
      rw [List.foldl_cons]
      by_cases hip : idx ∈ p.2
      · have hpk : p.1 = k0 := by
          apply huniq
          have h3 := hps p (List.mem_cons_self _ _)
          rw [List.getD_eq_getElem?_getD, h3]
          exact hip
        refine ih _ (fun q hq => hps q (List.mem_cons_of_mem _ hq))
          (by rw [setFold_length]; exact hlen) (Or.inl ?_)
        rw [setFold_get_mem _ idx p.2 a hip hlen, hpk]
      · refine ih _ (fun q hq => hps q (List.mem_cons_of_mem _ hq))
          (by rw [setFold_length]; exact hlen) ?_
        rcases hst with h1 | h1
        · refine Or.inl ?_
          rw [setFold_get_ne _ idx p.2 a hip]
          exact h1
        · obtain ⟨q, hq, hiq⟩ := h1
          rcases List.mem_cons.1 hq with h2 | h2
          · exact absurd (h2 ▸ hiq) hip
          · exact Or.inr ⟨q, h2, hiq⟩
  refine main blocks.enum asg ?_ hl (Or.inr ⟨(k0, blocks[k0]), ?_, ?_⟩)
  · intro p hp
    rw [← List.mem_enum_iff_getElem?]
    exact hp
  · rw [List.mem_enum_iff_getElem?]
    exact List.getElem?_eq_getElem hk0
  · rw [← getD_eq_getElem_of_lt blocks k0 [] hk0]
    exact hmem

/-- The final guarantee loop keeps already-written block numbers. -/
theorem fgStep_keeps_val (start : Nat) (acc : List (Option Nat) × Nat)
    (idx i v : Nat) (h : acc.1[i]? = some (some v)) :
    ((fgStep start acc idx).1)[i]? = some (some v) := by
  by_cases hii : idx = i
  · subst hii
    have hx : acc.1.getD idx none = some v := by
      rw [List.getD_eq_getElem?_getD, h]
      rfl
    simp only [fgStep, hx]
    exact h
  · rcases hx : acc.1.getD idx none with _ | b
    · simp only [fgStep, hx]
      split
      · rw [List.getElem?_set_ne hii]
        exact h
      · rw [List.getElem?_set_ne hii]
        exact h
    · simp only [fgStep, hx]
      exact h

/-- The final guarantee loop keeps every already-written block number. -/
theorem finalGuarantee_keeps_val (start n blocksLen : Nat)
    (asg : List (Option Nat)) (i v : Nat) (h : asg[i]? = some (some v)) :
    (finalGuarantee start n blocksLen asg)[i]? = some (some v) := by
  unfold finalGuarantee
  refine foldl_inv (fun (acc : List (Option Nat) × Nat) =>
    acc.1[i]? = some (some v)) (fgStep start) (List.range n) (asg, blocksLen)
    h ?_
  intro s' x _ hs
  exact fgStep_keeps_val start s' x i v hs

/-!
## Claim C1: main theorem
-/

/-- After numbering and the guarantee loop, two distinct in-range members
of one cluster cannot carry the same block number. -/
theorem finalStage_exclusive (n start : Nat) (rc : List (Nat × Nat))
    (st4 : DState) (hinv : CInv n rc st4) (i j cid b : Nat)
    (hli : lookupAssoc rc i = some cid) (hlj : lookupAssoc rc j = some cid)
    (hcid : cid ≠ 0) (hij : i ≠ j) (hi : i < n) (hj : j < n)
    (hmi : memB st4.blocks i) (hmj : memB st4.blocks j)
    (hbi : (finalGuarantee start n st4.blocks.length
      (numberBlocks start st4.blocks (List.replicate n none)))[i]? =
      some (some b))
    (hbj : (finalGuarantee start n st4.blocks.length
      (numberBlocks start st4.blocks (List.replicate n none)))[j]? =
      some (some b)) : False := by
  obtain ⟨ki, hki⟩ := hmi
  obtain ⟨kj, hkj⟩ := hmj
  have huniq_i : ∀ k, i ∈ st4.blocks.getD k [] → k = ki := by
    intro k hk
    by_contra hne
    exact disj_getD _ hinv.1 k ki hne i hk hki
  have huniq_j : ∀ k, j ∈ st4.blocks.getD k [] → k = kj := by
    intro k hk
    by_contra hne
    exact disj_getD _ hinv.1 k kj hne j hk hkj
  have hvi := numberBlocks_get start st4.blocks (List.replicate n none) i ki
    hki huniq_i (by rw [List.length_replicate]; exact hi)
  have hvj := numberBlocks_get start st4.blocks (List.replicate n none) j kj
    hkj huniq_j (by rw [List.length_replicate]; exact hj)
  have hfi := finalGuarantee_keeps_val start n st4.blocks.length _ i
    (start + ki) hvi
  have hfj := finalGuarantee_keeps_val start n st4.blocks.length _ j
    (start + kj) hvj
  rw [hbi] at hfi
  rw [hbj] at hfj
  have hbk : ki = kj := by
    have e1 := Option.some.inj (Option.some.inj hfi)
    have e2 := Option.some.inj (Option.some.inj hfj)
    omega
  subst hbk
  have hlt := lt_length_of_mem_getD _ _ _ hki
  have hblkmem : st4.blocks.getD ki [] ∈ st4.blocks := by
    rw [getD_eq_getElem_of_lt _ _ _ hlt]
    exact List.getElem_mem hlt
  have hm1 : i ∈ (st4.blocks.getD ki []).filter (cidP rc cid) :=
    List.mem_filter.2 ⟨hki, by simp [cidP, hli]⟩
  have hm2 : j ∈ (st4.blocks.getD ki []).filter (cidP rc cid) :=
    List.mem_filter.2 ⟨hkj, by simp [cidP, hlj]⟩
  have h5 := one_lt_length_of_two _ i j hm1 hm2 hij
  have h6 := hinv.2.2 _ hblkmem cid hcid
  rw [List.countP_eq_length_filter] at h6
  omega

/-- A fresh distribution never gives two distinct members of one cluster
the same block number. -/
theorem distributeCore_exclusive (n maxB minB start : Nat)
    (rc : List (Nat × Nat)) (cr : List (Nat × List Nat)) (sa : List Nat)
    (hku : (cr.map Prod.fst).Nodup)
    (hcr : ∀ p ∈ cr, p.1 ≠ 0 ∧ p.2.Nodup ∧
      ∀ idx ∈ p.2, lookupAssoc rc idx = some p.1 ∧ idx < n)
    (hsand : sa.Nodup)
    (hsa : ∀ idx ∈ sa, (lookupAssoc rc idx).getD 0 = 0 ∧ idx < n)
    (hcov0 : ∀ idx, idx < n → (∃ p ∈ cr, idx ∈ p.2) ∨ idx ∈ sa)
    (i j cid b : Nat)
    (hli : lookupAssoc rc i = some cid) (hlj : lookupAssoc rc j = some cid)
    (hcid : cid ≠ 0) (hij : i ≠ j) (hi : i < n) (hj : j < n)
    (hbi : (distributeCore n maxB minB start rc
      (⟨[], []⟩, cr, sa))[i]? = some (some b))
    (hbj : (distributeCore n maxB minB start rc
      (⟨[], []⟩, cr, sa))[j]? = some (some b)) : False := by
  have hfresh0 : ∀ idx, ¬ memB ((⟨[], []⟩ : DState)).blocks idx := by
    rintro idx ⟨k, hk⟩
    rw [List.getD_eq_getElem?_getD] at hk
    simp at hk
  have hinit : DInv n rc (⟨[], []⟩ : DState) := by
    refine ⟨rfl, List.Pairwise.nil, ?_, ?_, ?_⟩
    · intro b' hb'
      simp at hb'
    · intro b' hb'
      simp at hb'
    · intro k idx hmem
      rw [List.getD_eq_getElem?_getD] at hmem
      simp at hmem
  obtain ⟨h2inv, h2m⟩ := placeClusters_inv n rc maxB cr ⟨[], []⟩ hinit hku hcr
    (fun p hp idx hidx => hfresh0 idx)
  have hsaprops : ∀ idx ∈ sa, (lookupAssoc rc idx).getD 0 = 0 ∧ idx < n ∧
      ¬ memB (placeClusters maxB cr ⟨[], []⟩).blocks idx := by
    intro idx hidx
    refine ⟨(hsa idx hidx).1, (hsa idx hidx).2, ?_⟩
    intro hm
    rcases (h2m idx).1 hm with ⟨p, hp, hin⟩ | hm0
    · have e1 := ((hcr p hp).2.2 idx hin).1
      have e2 := (hsa idx hidx).1
      rw [e1] at e2
      simp only [Option.getD_some] at e2
      exact (hcr p hp).1 e2
    · exact hfresh0 idx hm0
  obtain ⟨h3inv, h3m⟩ := placeStandalone_inv n rc minB maxB sa
    (placeClusters maxB cr ⟨[], []⟩) h2inv hsand hsaprops
  obtain ⟨h4inv, h4m⟩ := rebalanced_facts n rc maxB minB
    (placeStandalone minB maxB sa (placeClusters maxB cr ⟨[], []⟩)) h3inv
  have hcov4 : ∀ idx, idx < n → memB (rebalanced maxB minB rc
      (placeStandalone minB maxB sa (placeClusters maxB cr
        ⟨[], []⟩))).blocks idx := by
    intro idx hidx
    refine (h4m idx).2 ?_
    rcases hcov0 idx hidx with ⟨p, hp, hin⟩ | hin
    · exact (h3m idx).2 (Or.inr ((h2m idx).2 (Or.inl ⟨p, hp, hin⟩)))
    · exact (h3m idx).2 (Or.inl hin)
  have hfb := fallbackAssign_noop maxB n _ hcov4
  have hdc : distributeCore n maxB minB start rc (⟨[], []⟩, cr, sa) =
      finalGuarantee start n (rebalanced maxB minB rc (placeStandalone minB
        maxB sa (placeClusters maxB cr ⟨[], []⟩))).blocks.length
        (numberBlocks start (rebalanced maxB minB rc (placeStandalone minB
          maxB sa (placeClusters maxB cr ⟨[], []⟩))).blocks
          (List.replicate n none)) := by
    simp only [distributeCore]
    rw [hfb]
  rw [hdc] at hbi hbj
  exact finalStage_exclusive n start rc _ h4inv i j cid b hli hlj hcid hij
    hi hj (hcov4 i hi) (hcov4 j hj) hbi hbj

/-- C1, amended: cluster exclusivity for the distribution the function
itself computes.  For every cluster returned by `identify_clusters` and
every fresh run of `distribute_into_blocks` over the same records (falsy
`existing_blocos`, any sizes, any starting number), no two distinct
members of the cluster receive the same `'Bloco'` number: at most one
member of each cluster lands in each block.  The incremental seeding
copies caller-supplied assignments without a conflict check, so the
unrestricted claim fails there (see the counterexample below). -/
theorem cluster_exclusivity (recs : List Rec) (cl : List (Nat × List Nat))
    (hcl : identify_clusters recs = some cl) (maxB minB start : Nat)
    (asg : List (Option Nat))
    (hd : distribute_into_blocks recs cl maxB minB [] start = some asg)
    (cid : Nat) (g : List Nat) (hg : (cid, g) ∈ cl) (i j : Nat)
    (hi : i ∈ g) (hj : j ∈ g) (hij : i ≠ j) (b : Nat)
    (hbi : asg[i]? = some (some b)) : asg[j]? ≠ some (some b) := by
  intro hbj
  obtain ⟨hCS, hwf⟩ := identify_clusters_wf recs cl hcl
  have hcid0 : cid ≠ 0 := by
    have h0 := (hwf _ hg).2.2
    omega
  have hli : lookupAssoc (buildRecordCluster cl) i = some cid :=
    buildRecordCluster_lookup cl hCS cid g i hg hi
  have hlj : lookupAssoc (buildRecordCluster cl) j = some cid :=
    buildRecordCluster_lookup cl hCS cid g j hg hj
  unfold distribute_into_blocks at hd
  by_cases hn : recs.length = 0
  · rw [if_pos hn] at hd
    have he : asg = [] := (Option.some.inj hd).symm
    subst he
    simp at hbi
  · rw [if_neg hn] at hd
    have hd2 : (if auditOk recs cl then
        some (distributeCore recs.length maxB minB start
          (buildRecordCluster cl)
          (⟨[], []⟩, (splitRecords (buildRecordCluster cl) recs.length).1,
            (splitRecords (buildRecordCluster cl) recs.length).2))
      else none) = some asg := hd
    by_cases haud : auditOk recs cl = true
    · rw [if_pos haud] at hd2
      have hasg := Option.some.inj hd2
      have hlen : asg.length = recs.length := by
        rw [← hasg]
        exact distributeCore_length recs.length maxB minB start _ _
      have hilt : i < recs.length := by
        by_contra hc
        push_neg at hc
        rw [List.getElem?_eq_none (by omega)] at hbi
        exact Option.noConfusion hbi
      have hjlt : j < recs.length := by
        by_contra hc
        push_neg at hc
        rw [List.getElem?_eq_none (by omega)] at hbj
        exact Option.noConfusion hbj
      obtain ⟨hku, hcr0, ⟨hsand, hsa0⟩, hcov0⟩ :=
        splitRecords_inv (buildRecordCluster cl) recs.length
      refine distributeCore_exclusive recs.length maxB minB start
        (buildRecordCluster cl)
        (splitRecords (buildRecordCluster cl) recs.length).1
        (splitRecords (buildRecordCluster cl) recs.length).2 hku ?_ hsand
        (fun idx hidx => ⟨(hsa0 idx hidx).2, (hsa0 idx hidx).1⟩) hcov0
        i j cid b hli hlj hcid0 hij hilt hjlt ?_ ?_
      · intro p hp
        obtain ⟨h1, h2, h3⟩ := hcr0 p hp
        exact ⟨h1, h2, fun idx hidx =>
          ⟨getD_zero_eq_some _ _ (h3 idx hidx).2 h1, (h3 idx hidx).1⟩⟩
      · rw [hasg]
        exact hbi
      · rw [hasg]
        exact hbj
    · rw [if_neg haud] at hd2
      exact Option.noConfusion hd2

/-- A record carrying only an address, for the witness and the
counterexample below. -/
def rwRec : Rec := ⟨none, none, some (strL "Rua A, 10"), none, none, none⟩

/-- Witness for `cluster_exclusivity`: two records with the same address
form one cluster and receive distinct block numbers. -/
theorem cluster_exclusivity_witness :
    identify_clusters [rwRec, rwRec] = some [(1, [0, 1])] ∧
    distribute_into_blocks [rwRec, rwRec] [(1, [0, 1])] 10 5 [] 1 =
      some [some 1, some 2] ∧
    ([some 1, some 2] : List (Option Nat))[1]? ≠ some (some 1) :=
  ⟨by decide, by decide,
    cluster_exclusivity [rwRec, rwRec] [(1, [0, 1])] (by decide) 10 5 1
      [some 1, some 2] (by decide) 1 [0, 1] (by decide) 0 1 (by decide)
      (by decide) (by decide) 1 (by decide)⟩

/-- C1, counterexample to the unrestricted claim: the incremental seeding
(lines 660-677) copies caller-supplied assignments without any
cluster-conflict check, so with `existing_blocos = {0: 1, 1: 1}` and
`start_block_num = 1` both members of the cluster `{1: [0, 1]}` returned
by `identify_clusters` end up with `'Bloco' = 1` — two records of the same
cluster share a block number in the output. -/
theorem cluster_exclusivity_incremental_cex :
    identify_clusters [rwRec, rwRec] = some [(1, [0, 1])] ∧
    distribute_into_blocks [rwRec, rwRec] [(1, [0, 1])] 10 5
      [(0, 1), (1, 1)] 1 = some [some 1, some 1] ∧
    (0 : Nat) ≠ 1 ∧ (0 : Nat) ∈ ([0, 1] : List Nat) ∧
    (1 : Nat) ∈ ([0, 1] : List Nat) ∧
    ([some 1, some 1] : List (Option Nat))[0]? = some (some 1) ∧
    ([some 1, some 1] : List (Option Nat))[1]? = some (some 1) := by
  decide
